import Mathlib

/-! # CPU scheduling simulator (HW1/main.cpp): embedding and verified properties

The four schedulers of `HW1/main.cpp` are embedded as executable Lean
functions over `List Process`, twice: over the mathematical integers
(`fcfs_scheduling`, `sjf_scheduling`, `srt_scheduling`,
`round_robin_scheduling`), and in the arithmetic of the 32-bit `int` of the
source (`fcfs_scheduling32`, `sjf_scheduling32`, `srt_scheduling32`,
`round_robin_scheduling32`), where the result of every `+` and `-` on an
`int` is wrapped modulo `2 ^ 32`, as the compiled program does.  On a valid
input whose schedule fits in `int` the two agree; the properties of the
size and order of the computed times are stated for the functions in `int`
arithmetic.  The `size_t` loop index of `round_robin_scheduling` is modelled
by a `Nat` taken modulo `2 ^ 64`.  Pointers into the `processes` vector are
modelled by indices.  `while` loops that need not terminate take a fuel
argument and return `none` when the fuel runs out.
-/

namespace HW1

/-! ## Data model -/

/-- The class `Process` of main.cpp, lines 8-25. -/
structure Process where
  pid : Int
  arrival_time : Int
  burst_time : Int
  waiting_time : Int
  turnaround_time : Int
  remaining_time : Int
deriving DecidableEq, Repr, Inhabited

/-- The constructor `Process(int id, int at, int bt)`, lines 17-24. -/
def Process.new (id arr bt : Int) : Process :=
  { pid := id, arrival_time := arr, burst_time := bt,
    waiting_time := 0, turnaround_time := 0, remaining_time := bt }

/-- The process list built in `main`, lines 217-222. -/
def sample : List Process :=
  [Process.new 1 0 8, Process.new 2 1 4, Process.new 3 2 9, Process.new 4 3 5]

/-- The quantum used in `main`, line 241. -/
def sample_quantum : Int := 3

/-- A valid input: pids are the 1-based list positions, arrival times are
non-negative, burst times are positive, and `remaining_time` holds the burst
time, as the constructor leaves it. -/
def Valid (ps : List Process) : Prop :=
  ps.map (fun p => p.pid) = (List.range ps.length).map (fun (i : Nat) => (i : Int) + 1) ∧
  ∀ p ∈ ps, 0 ≤ p.arrival_time ∧ 0 < p.burst_time ∧ p.remaining_time = p.burst_time

instance (ps : List Process) : Decidable (Valid ps) := by
  unfold Valid; infer_instance

/-! ## `std::min_element` -/

/-- The scan of `std::min_element` after the first element: `smallest` is
replaced only by an element that compares strictly less. -/
def min_element_from {α : Type} (lt : α → α → Bool) : α → List α → α
  | smallest, [] => smallest
  | smallest, x :: xs =>
    if lt x smallest then min_element_from lt x xs else min_element_from lt smallest xs

/-- The function `std::min_element(first, last, comp)`: `none` stands for the
`last` iterator returned on an empty range. -/
def min_element {α : Type} (lt : α → α → Bool) : List α → Option α
  | [] => none
  | x :: xs => some (min_element_from lt x xs)

/-! ## FCFS (lines 28-41) -/

/-- The `std::sort` call of line 29, by ascending `arrival_time`.  The order
that `std::sort` gives to processes with equal arrival times is unspecified;
this model keeps their input order. -/
def sort_by_arrival (ps : List Process) : List Process :=
  ps.insertionSort (fun a b => a.arrival_time ≤ b.arrival_time)

/-- The `for` loop of lines 33-40, started with the given `current_time`, over
the mathematical integers; `fcfs_loop32` is the loop in `int` arithmetic. -/
def fcfs_loop : Int → List Process → List Process
  | _, [] => []
  | current_time, p :: rest =>
    let current_time := if current_time < p.arrival_time then p.arrival_time else current_time
    let waiting := current_time - p.arrival_time
    { p with waiting_time := waiting, turnaround_time := waiting + p.burst_time } ::
      fcfs_loop (current_time + p.burst_time) rest

/-- The function `fcfs_scheduling`, lines 28-41. -/
def fcfs_scheduling (processes : List Process) : List Process :=
  fcfs_loop 0 (sort_by_arrival processes)

/-! ## SJF (lines 44-81) -/

/-- The local state of `sjf_scheduling`. -/
structure SjfState where
  current_time : Int
  processes : List Process
  completed_processes : List Process
deriving DecidableEq, Repr

/-- The condition of lines 53-56 for the process at index `i`: it has arrived
and no completed process carries its pid. -/
def sjf_is_ready (st : SjfState) (i : Nat) : Bool :=
  let process := st.processes.getD i default
  decide (process.arrival_time ≤ st.current_time) &&
    !(st.completed_processes.any (fun p => decide (p.pid = process.pid)))

/-- The ready queue built by lines 49-59: pointers (indices) to the ready
processes, in list order. -/
def sjf_ready_queue (st : SjfState) : List Nat :=
  (List.range st.processes.length).filter (sjf_is_ready st)

/-- The `min_element` call of lines 63-66, comparing `burst_time`. -/
def sjf_select (st : SjfState) : Option Nat :=
  min_element
    (fun a b => decide ((st.processes.getD a default).burst_time <
      (st.processes.getD b default).burst_time))
    (sjf_ready_queue st)

/-- One iteration of the `while` body, lines 49-77, over the mathematical
integers; `sjf_step32` is the iteration in `int` arithmetic. -/
def sjf_step (st : SjfState) : SjfState :=
  match sjf_select st with
  | some i =>
    let p := st.processes.getD i default
    let waiting := st.current_time - p.arrival_time
    let p := { p with waiting_time := waiting, turnaround_time := waiting + p.burst_time }
    { current_time := st.current_time + p.burst_time
      processes := st.processes.set i p
      completed_processes := st.completed_processes ++ [p] }
  | none => { st with current_time := st.current_time + 1 }

/-- The `while` loop of lines 48-78. -/
def sjf_loop : Nat → SjfState → Option SjfState
  | 0, _ => none
  | fuel + 1, st =>
    if st.completed_processes.length < st.processes.length then sjf_loop fuel (sjf_step st)
    else some st

/-- The state before the loop, lines 45-46. -/
def sjf_init (processes : List Process) : SjfState :=
  { current_time := 0, processes := processes, completed_processes := [] }

/-- The function `sjf_scheduling`, lines 44-81: the new value of `processes`
(line 80), or `none` when the loop has not ended within `fuel` iterations. -/
def sjf_scheduling (fuel : Nat) (processes : List Process) : Option (List Process) :=
  (sjf_loop fuel (sjf_init processes)).map (fun st => st.completed_processes)

/-! ## SRT (lines 84-121) -/

/-- The local state of `srt_scheduling`.  The fields `executed` and `marked`
are ghost fields, absent from the source: `executed` records, for each
iteration (time unit) in order, the index of the process whose
`remaining_time` was decremented (`none` for an idle unit), and `marked`
records the indices at which `is_completed` was set, in order. -/
structure SrtState where
  current_time : Int
  completed : Int
  processes : List Process
  is_completed : List Bool
  executed : List (Option Nat)
  marked : List Nat
deriving DecidableEq, Repr

/-- The condition of line 95 for index `i`. -/
def srt_is_ready (st : SrtState) (i : Nat) : Bool :=
  decide ((st.processes.getD i default).arrival_time ≤ st.current_time) &&
    !(st.is_completed.getD i false)

/-- The ready queue built by lines 91-98. -/
def srt_ready_queue (st : SrtState) : List Nat :=
  (List.range st.processes.length).filter (srt_is_ready st)

/-- The `min_element` call of lines 102-105, comparing `remaining_time`. -/
def srt_select (st : SrtState) : Option Nat :=
  min_element
    (fun a b => decide ((st.processes.getD a default).remaining_time <
      (st.processes.getD b default).remaining_time))
    (srt_ready_queue st)

/-- One iteration of the `while` body, lines 91-119, over the mathematical
integers; `srt_step32` is the iteration in `int` arithmetic.  The write
`is_completed[pid - 1]` outside the vector is undefined behaviour in the
source; the model then gives `none`. -/
def srt_step (st : SrtState) : Option SrtState :=
  match srt_select st with
  | some i =>
    let p := st.processes.getD i default
    let p := { p with remaining_time := p.remaining_time - 1 }
    if p.remaining_time = 0 then
      let k : Int := p.pid - 1
      if 0 ≤ k ∧ k < (st.is_completed.length : Int) then
        let turnaround := st.current_time + 1 - p.arrival_time
        let p := { p with turnaround_time := turnaround,
                          waiting_time := turnaround - p.burst_time }
        some { current_time := st.current_time + 1
               completed := st.completed + 1
               processes := st.processes.set i p
               is_completed := st.is_completed.set k.toNat true
               executed := st.executed ++ [some i]
               marked := st.marked ++ [k.toNat] }
      else none
    else
      some { st with current_time := st.current_time + 1
                     processes := st.processes.set i p
                     executed := st.executed ++ [some i] }
  | none =>
    some { st with current_time := st.current_time + 1
                   executed := st.executed ++ [none] }

/-- The `while` loop of lines 90-120. -/
def srt_loop : Nat → SrtState → Option SrtState
  | 0, _ => none
  | fuel + 1, st =>
    if st.completed < st.processes.length then
      match srt_step st with
      | some st => srt_loop fuel st
      | none => none
    else some st

/-- The state before the loop, lines 85-88. -/
def srt_init (processes : List Process) : SrtState :=
  { current_time := 0, completed := 0, processes := processes,
    is_completed := List.replicate processes.length false,
    executed := [], marked := [] }

/-- The function `srt_scheduling`, lines 84-121, returning the final state
(whose `processes` field is the mutated vector), or `none` when the loop has
not ended within `fuel` iterations. -/
def srt_run (fuel : Nat) (processes : List Process) : Option SrtState :=
  srt_loop fuel (srt_init processes)

/-- The vector `processes` as `srt_scheduling` leaves it. -/
def srt_scheduling (fuel : Nat) (processes : List Process) : Option (List Process) :=
  (srt_run fuel processes).map (fun st => st.processes)

/-! ## Round Robin (lines 124-178) -/

/-- The local state of `round_robin_scheduling`; `ready_queue` holds
pointers into `processes` as indices. -/
structure RrState where
  current_time : Int
  ready_queue : List Nat
  completed_processes : Int
  processes : List Process
deriving DecidableEq, Repr

/-- The number of values of `size_t`. -/
def SIZE_T_RANGE : Nat := 2 ^ 64

/-- The body of the `for` loop, lines 144-163, at index `i` of the queue, over
the mathematical integers; `rr_body32` is the body in `int` arithmetic. -/
def rr_body (time_quantum : Int) (st : RrState) (i : Nat)
    (h : i < st.ready_queue.length) : RrState :=
  let ptr := st.ready_queue[i]
  let process := st.processes.getD ptr default
  let st1 : RrState :=
    if process.remaining_time > 0 then
      let time_slice := min time_quantum process.remaining_time
      let current_time := st.current_time + time_slice
      let process := { process with remaining_time := process.remaining_time - time_slice }
      if process.remaining_time = 0 then
        let turnaround := current_time - process.arrival_time
        { st with current_time := current_time
                  completed_processes := st.completed_processes + 1
                  processes := st.processes.set ptr
                    { process with turnaround_time := turnaround,
                                   waiting_time := turnaround - process.burst_time } }
      else
        { st with current_time := current_time
                  processes := st.processes.set ptr process }
    else st
  let process := st1.processes.getD ptr default
  let queue := if process.remaining_time > 0 then st1.ready_queue ++ [ptr] else st1.ready_queue
  { st1 with ready_queue := queue.eraseIdx i }

/-- The `for` loop of lines 143-165 from index `i`: after the body, `i--`
(line 164) and `i++` (line 143) are taken modulo `2 ^ 64`. -/
def rr_for (time_quantum : Int) : Nat → Nat → RrState → Option RrState
  | 0, _, _ => none
  | fuel + 1, i, st =>
    if h : i < st.ready_queue.length then
      let st := rr_body time_quantum st i h
      let i := (i + (SIZE_T_RANGE - 1)) % SIZE_T_RANGE
      rr_for time_quantum fuel ((i + 1) % SIZE_T_RANGE) st
    else some st

/-- The condition of lines 169-173 for the process at index `i`. -/
def rr_is_new (st : RrState) (i : Nat) : Bool :=
  let process := st.processes.getD i default
  decide (process.arrival_time ≤ st.current_time) &&
    !(st.ready_queue.any (fun p => decide ((st.processes.getD p default).pid = process.pid))) &&
    decide (process.remaining_time > 0)

/-- The arrival scan of lines 168-176. -/
def rr_arrival_scan (st : RrState) : RrState :=
  (List.range st.processes.length).foldl
    (fun st i => if rr_is_new st i then { st with ready_queue := st.ready_queue ++ [i] } else st)
    st

/-- The `while` loop of lines 142-177. -/
def rr_while (time_quantum : Int) : Nat → RrState → Option RrState
  | 0, _ => none
  | fuel + 1, st =>
    if st.completed_processes < st.processes.length then
      match rr_for time_quantum fuel 0 st with
      | some st => rr_while time_quantum fuel (rr_arrival_scan st)
      | none => none
    else some st

/-- The state before the `while` loop, lines 125-140. -/
def rr_init (processes : List Process) : RrState :=
  let processes := processes.map (fun p => { p with remaining_time := p.burst_time })
  { current_time := 0
    ready_queue := (List.range processes.length).filter
      (fun i => decide ((processes.getD i default).arrival_time ≤ 0))
    completed_processes := 0
    processes := processes }

/-- The function `round_robin_scheduling`, lines 124-178: the vector
`processes` as it is left, or `none` when the loops have not ended within
`fuel` iterations. -/
def round_robin_scheduling (fuel : Nat) (processes : List Process) (time_quantum : Int) :
    Option (List Process) :=
  (rr_while time_quantum fuel (rr_init processes)).map (fun st => st.processes)

/-! ## The Round Robin algorithm as section 4.4 of the specification words it -/

/-- The arrival scan of section 4.4: append, in list order, every process
that has arrived by `current_time`, is not completed and is not already in
the queue. -/
def reference_arrival_scan (st : RrState) : RrState :=
  (List.range st.processes.length).foldl
    (fun st i =>
      let process := st.processes.getD i default
      if process.arrival_time ≤ st.current_time ∧ process.remaining_time ≠ 0 ∧
          i ∉ st.ready_queue then
        { st with ready_queue := st.ready_queue ++ [i] }
      else st)
    st

/-- One dequeue/run step of section 4.4: pop the front, run it for
`min(time_quantum, remaining_time)`, requeue it at the back if unfinished,
then scan for arrivals with the clock value after the slice.  With an empty
queue the clock advances by one unit and the scan is repeated. -/
def reference_step (time_quantum : Int) (st : RrState) : RrState :=
  match st.ready_queue with
  | [] => reference_arrival_scan { st with current_time := st.current_time + 1 }
  | ptr :: rest =>
    let process := st.processes.getD ptr default
    if process.remaining_time = 0 then
      reference_arrival_scan { st with ready_queue := rest }
    else
      let time_slice := min time_quantum process.remaining_time
      let current_time := st.current_time + time_slice
      let process := { process with remaining_time := process.remaining_time - time_slice }
      if process.remaining_time = 0 then
        let turnaround := current_time - process.arrival_time
        reference_arrival_scan
          { current_time := current_time
            ready_queue := rest
            completed_processes := st.completed_processes + 1
            processes := st.processes.set ptr
              { process with turnaround_time := turnaround,
                             waiting_time := turnaround - process.burst_time } }
      else
        reference_arrival_scan
          { st with current_time := current_time
                    ready_queue := rest ++ [ptr]
                    processes := st.processes.set ptr process }

/-- The loop of section 4.4: repeat until all N processes are complete. -/
def reference_loop (time_quantum : Int) : Nat → RrState → Option RrState
  | 0, _ => none
  | fuel + 1, st =>
    if st.completed_processes < st.processes.length then
      reference_loop time_quantum fuel (reference_step time_quantum st)
    else some st

/-- The Round Robin scheduler of section 4.4, seeded with the processes whose
`arrival_time <= 0` in list order. -/
def reference_round_robin (fuel : Nat) (processes : List Process) (time_quantum : Int) :
    Option (List Process) :=
  (reference_loop time_quantum fuel (rr_init processes)).map (fun st => st.processes)

/-! ## Reporter (lines 199-212) -/

/-- The value `avg_waiting_time` of lines 200-208, as an exact rational. -/
def avg_waiting_time (processes : List Process) : ℚ :=
  ((processes.map (fun p => p.waiting_time)).sum : ℚ) / (processes.length : ℚ)

/-- The value `avg_turnaround_time` of lines 201-209, as an exact rational. -/
def avg_turnaround_time (processes : List Process) : ℚ :=
  ((processes.map (fun p => p.turnaround_time)).sum : ℚ) / (processes.length : ℚ)

/-! ## Invariants of the loops -/

/-- The fields of a process that FCFS and SJF never write. -/
def Process.inputs (p : Process) : Int × Int × Int × Int :=
  (p.pid, p.arrival_time, p.burst_time, p.remaining_time)

/-- The start of the run interval of a process, from its computed times. -/
def Process.start (p : Process) : Int := p.arrival_time + p.waiting_time

/-- The end of the run interval of a process, from its computed times. -/
def Process.finish (p : Process) : Int := p.arrival_time + p.turnaround_time

/-- Bookkeeping invariant of the SJF loop: every completed record is the
current record of some process, and no pid is completed twice. -/
structure SjfInv (st : SjfState) : Prop where
  mem : ∀ c ∈ st.completed_processes, c ∈ st.processes
  nodup : (st.completed_processes.map (fun p => p.pid)).Nodup

/-- Timing invariant of the SJF loop: completed processes ran, in the order
of completion, in intervals that end by `current_time`. -/
structure SjfTimed (st : SjfState) : Prop where
  burst_pos : ∀ p ∈ st.processes, 0 < p.burst_time
  done : ∀ c ∈ st.completed_processes,
    c.finish ≤ st.current_time ∧ c.arrival_time ≤ c.start ∧
      c.turnaround_time = c.waiting_time + c.burst_time
  ordered : st.completed_processes.Pairwise (fun a b => a.finish ≤ b.start)

/-- The fields of a process that no scheduler writes. -/
def Process.key (p : Process) : Int × Int × Int :=
  (p.pid, p.arrival_time, p.burst_time)

/-- Invariant of the SRT loop, relative to the input `ps`: the flags mirror
`remaining_time = 0`, the counter counts the flags, and the ghost fields
account for every unit executed and every flag set. -/
structure SrtInv (ps : List Process) (st : SrtState) : Prop where
  keys : st.processes.map Process.key = ps.map Process.key
  flags : st.is_completed.length = st.processes.length
  rem : ∀ i (hi : i < st.processes.length),
    0 ≤ st.processes[i].remaining_time ∧
      (st.is_completed.getD i false = true ↔ st.processes[i].remaining_time = 0)
  count : st.completed = (st.is_completed.count true : Int)
  executed : ∀ i (hi : i < st.processes.length),
    (st.executed.count (some i) : Int) + st.processes[i].remaining_time =
      st.processes[i].burst_time
  marked : ∀ i, i < st.processes.length →
    st.marked.count i = if st.is_completed.getD i false = true then 1 else 0
  times : ∀ i (hi : i < st.processes.length), st.processes[i].remaining_time = 0 →
    st.processes[i].turnaround_time = st.processes[i].waiting_time + st.processes[i].burst_time

/-- The work left in an SRT state: the sum of the remaining times. -/
def srt_work (st : SrtState) : Nat :=
  (st.processes.map (fun p => p.remaining_time.toNat)).sum

/-- Invariant of the Round Robin loops: remaining times stay non-negative,
the counter counts the processes whose remaining time is zero, and those
processes have their times set. -/
structure RrInv (st : RrState) : Prop where
  rem : ∀ p ∈ st.processes, 0 ≤ p.remaining_time
  times : ∀ p ∈ st.processes, p.remaining_time = 0 →
    p.turnaround_time = p.waiting_time + p.burst_time
  count : st.completed_processes =
    (st.processes.countP (fun p => decide (p.remaining_time = 0)) : Int)

/-! ## Concrete inputs used below -/

/-- An input with an idle gap before the first arrival and another between
the two arrivals. -/
def gap_input : List Process :=
  [Process.new 1 2 1, Process.new 2 5 2]

/-- An input whose second process arrives after the first has finished. -/
def late_input : List Process :=
  [Process.new 1 0 1, Process.new 2 5 1]

/-- An input on which processes 2 and 3 tie on `burst_time` while process 3
has arrived earlier. -/
def tie_input : List Process :=
  [Process.new 1 0 5, Process.new 2 2 3, Process.new 3 1 3]

/-- An input on which, at time 1, processes 1 and 2 tie on `remaining_time`
while process 2 has arrived earlier. -/
def srt_tie_input : List Process :=
  [Process.new 1 1 2, Process.new 2 0 3]

/-- The waiting time recorded in `r` for the process with the given pid. -/
def waiting_time_of (r : List Process) (pid : Int) : Option Int :=
  (r.find? (fun p => decide (p.pid = pid))).map (fun p => p.waiting_time)

/-- The turnaround time recorded in `r` for the process with the given pid. -/
def turnaround_time_of (r : List Process) (pid : Int) : Option Int :=
  (r.find? (fun p => decide (p.pid = pid))).map (fun p => p.turnaround_time)

/-! ## Comparing SRT with a non-preemptive plan -/

/-- The work vector `x` is dominated by the work vector `y` over the jobs `U`:
whatever `k` jobs are left out of the sum of `y`, some `k` jobs (or fewer) can
be left out of the sum of `x` so that it is no larger. -/
def Dominates (U : Finset Nat) (x y : Nat → Int) : Prop :=
  ∀ K : Finset Nat, ∃ K2 : Finset Nat, K2.card ≤ K.card ∧ ∑ i ∈ U \ K2, x i ≤ ∑ i ∈ U \ K, y i

/-- The remaining time at time `t` of a job of burst `b` that runs without
interruption from time `s`. -/
def plan_remaining (b s t : Int) : Int := min b (max 0 (s + b - t))

/-- The time that a job which arrives at `a` and completes at `c` has spent
in the system by time `t`. -/
def time_in_system (a c t : Int) : Int := max 0 (min t c - a)

/-- The indices of the processes of `ps` that have arrived by time `t`. -/
def arrived (ps : List Process) (t : Int) : Finset Nat :=
  (Finset.range ps.length).filter (fun i => (ps.getD i default).arrival_time ≤ t)

/-- The remaining time of process `i` in an SRT state. -/
def srt_remaining (st : SrtState) (i : Nat) : Int :=
  (st.processes.getD i default).remaining_time

/-- The time process `i` has spent in the system in an SRT state: its
turnaround time once it is completed, the time since its arrival before. -/
def srt_flow (st : SrtState) (i : Nat) : Int :=
  if (st.processes.getD i default).remaining_time = 0 then
    (st.processes.getD i default).turnaround_time
  else max 0 (st.current_time - (st.processes.getD i default).arrival_time)

/-- A non-preemptive plan for the input `ps`: process `i` runs without
interruption from time `s i`, not before its arrival, and no two processes
run at the same time. -/
structure Plan (ps : List Process) (s : Nat → Int) : Prop where
  after_arrival : ∀ i, i < ps.length → (ps.getD i default).arrival_time ≤ s i
  disjoint : ∀ i j, i < ps.length → j < ps.length → i ≠ j →
    s i + (ps.getD i default).burst_time ≤ s j ∨ s j + (ps.getD j default).burst_time ≤ s i

/-- Invariant relating an SRT state to a plan `s` for the same input: a
process that has not arrived is untouched, the remaining times of SRT are
dominated by those of the plan over the arrived processes, and the total
time in the system is no larger under SRT. -/
structure SrtVsPlan (ps : List Process) (s : Nat → Int) (st : SrtState) : Prop where
  fresh : ∀ i, i < ps.length → st.current_time < (ps.getD i default).arrival_time →
    srt_remaining st i = (ps.getD i default).burst_time
  dom : Dominates (arrived ps st.current_time) (srt_remaining st)
    (fun i => plan_remaining (ps.getD i default).burst_time (s i) st.current_time)
  flow : ∑ i ∈ Finset.range ps.length, srt_flow st i ≤
    ∑ i ∈ Finset.range ps.length,
      time_in_system (ps.getD i default).arrival_time
        (s i + (ps.getD i default).burst_time) st.current_time

/-- The start times of the plan that an SJF state records in `processes`. -/
def sjf_plan (st : SjfState) (i : Nat) : Int :=
  (st.processes.getD i default).start

/-! ## Schedules and waiting times -/

/-- Invariant of the SRT loop on the ghost log: one entry per time unit, and
process `i` has been executed for at most the time since its arrival; a
completed process has a non-negative waiting time. -/
structure SrtWait (ps : List Process) (st : SrtState) : Prop where
  len : (st.executed.length : Int) = st.current_time
  ran : ∀ i, i < ps.length →
    (st.executed.count (some i) : Int) ≤
      max 0 (st.current_time - (ps.getD i default).arrival_time)
  wait : ∀ i (hi : i < st.processes.length), st.processes[i].remaining_time = 0 →
    0 ≤ st.processes[i].waiting_time

/-- Invariant of the Round Robin loops: a queued pointer refers to a process
that has arrived, the time a process has been executed for is at most the
time since its arrival, and a completed process has a non-negative waiting
time. -/
structure RrWait (st : RrState) : Prop where
  queued : ∀ p ∈ st.ready_queue, ∃ hp : p < st.processes.length,
    st.processes[p].arrival_time ≤ st.current_time
  ran : ∀ i (hi : i < st.processes.length),
    st.processes[i].burst_time - st.processes[i].remaining_time ≤
      max 0 (st.current_time - st.processes[i].arrival_time)
  wait : ∀ i (hi : i < st.processes.length), st.processes[i].remaining_time = 0 →
    0 ≤ st.processes[i].waiting_time

/-- The work left in a Round Robin state: the sum of the remaining times. -/
def rr_work (st : RrState) : Nat :=
  (st.processes.map (fun p => p.remaining_time.toNat)).sum

/-! ## The slices that Round Robin executes -/

/-- A slice of processor time: the process at index `ptr` runs from `start`
to `finish`. -/
structure Slice where
  ptr : Nat
  start : Int
  finish : Int
deriving DecidableEq, Repr

/-- The slice that the body of the `for` loop executes at index `i`, lines
146-150: none when the process has no work left. -/
def rr_slice (time_quantum : Int) (st : RrState) (i : Nat)
    (h : i < st.ready_queue.length) : List Slice :=
  let ptr := st.ready_queue[i]
  let process := st.processes.getD ptr default
  if process.remaining_time > 0 then
    [{ ptr := ptr, start := st.current_time,
       finish := st.current_time + min time_quantum process.remaining_time }]
  else []

/-- The slices that the `for` loop executes within `fuel` iterations, in
order; the recursion is that of `rr_for`. -/
def rr_for_slices (time_quantum : Int) : Nat → Nat → RrState → List Slice
  | 0, _, _ => []
  | fuel + 1, i, st =>
    if h : i < st.ready_queue.length then
      rr_slice time_quantum st i h ++
        rr_for_slices time_quantum fuel
          (((i + (SIZE_T_RANGE - 1)) % SIZE_T_RANGE + 1) % SIZE_T_RANGE)
          (rr_body time_quantum st i h)
    else []

/-- The slices that the `while` loop executes within `fuel` iterations, in
order; the recursion is that of `rr_while`. -/
def rr_while_slices (time_quantum : Int) : Nat → RrState → List Slice
  | 0, _ => []
  | fuel + 1, st =>
    if st.completed_processes < st.processes.length then
      rr_for_slices time_quantum fuel 0 st ++
        (match rr_for time_quantum fuel 0 st with
         | some st => rr_while_slices time_quantum fuel (rr_arrival_scan st)
         | none => [])
    else []

/-- The slices that `round_robin_scheduling` executes within `fuel`
iterations. -/
def round_robin_slices (fuel : Nat) (processes : List Process) (time_quantum : Int) :
    List Slice :=
  rr_while_slices time_quantum fuel (rr_init processes)

/-- In the sequence of slices `T`, the time between the end of a slice of a
process and the start of the next slice of the same process is at most
`bound`. -/
def FairSlices (bound : Int) (T : List Slice) : Prop :=
  ∀ (T1 : List Slice) (s1 : Slice) (T2 : List Slice) (s2 : Slice) (T3 : List Slice),
    T = T1 ++ s1 :: (T2 ++ s2 :: T3) → s1.ptr = s2.ptr → (∀ s ∈ T2, s.ptr ≠ s1.ptr) →
    s2.start - s1.finish ≤ bound

/-- Invariant of the Round Robin loops with the slices `T` executed so far:
the slices are fair, the queue holds distinct pointers, a process that has
run is queued or has no work left, and the process at position `j` of the
queue had its last slice end at most `(N - 1 - j) * time_quantum` ago. -/
structure RrFair (time_quantum : Int) (T : List Slice) (st : RrState) : Prop where
  fair : FairSlices (((st.processes.length : Int) - 1) * time_quantum) T
  nodup : st.ready_queue.Nodup
  valid : ∀ p ∈ st.ready_queue, p < st.processes.length
  seen : ∀ s ∈ T, s.ptr ∈ st.ready_queue ∨
    ¬ (st.processes.getD s.ptr default).remaining_time > 0
  last : ∀ (T1 : List Slice) (s1 : Slice) (T2 : List Slice), T = T1 ++ s1 :: T2 →
    (∀ s ∈ T2, s.ptr ≠ s1.ptr) → ∀ j : Nat, st.ready_queue[j]? = some s1.ptr →
    (st.current_time - s1.finish) + (j : Int) * time_quantum ≤
      ((st.processes.length : Int) - 1) * time_quantum

/-! ## The schedulers in the arithmetic of `int` -/

/-- The largest value of `int`. -/
def INT_MAX : Int := 2147483647

/-- The value that a 32-bit `int` holds after an addition or subtraction whose
mathematical result is `x`: `x` reduced modulo `2 ^ 32` into
`[-2 ^ 31, 2 ^ 31)`.  Signed overflow is undefined behaviour in the language
of the source; the compiled program wraps, and that is what is modelled. -/
def wrap32 (x : Int) : Int := (x + 2147483648) % 4294967296 - 2147483648

/-- The `for` loop of lines 33-40 in `int` arithmetic. -/
def fcfs_loop32 : Int → List Process → List Process
  | _, [] => []
  | current_time, p :: rest =>
    let current_time := if current_time < p.arrival_time then p.arrival_time else current_time
    let waiting := wrap32 (current_time - p.arrival_time)
    { p with waiting_time := waiting, turnaround_time := wrap32 (waiting + p.burst_time) } ::
      fcfs_loop32 (wrap32 (current_time + p.burst_time)) rest

/-- The function `fcfs_scheduling`, lines 28-41, in `int` arithmetic. -/
def fcfs_scheduling32 (processes : List Process) : List Process :=
  fcfs_loop32 0 (sort_by_arrival processes)

/-- One iteration of the `while` body of `sjf_scheduling`, lines 49-77, in
`int` arithmetic. -/
def sjf_step32 (st : SjfState) : SjfState :=
  match sjf_select st with
  | some i =>
    let p := st.processes.getD i default
    let waiting := wrap32 (st.current_time - p.arrival_time)
    let p := { p with waiting_time := waiting,
                      turnaround_time := wrap32 (waiting + p.burst_time) }
    { current_time := wrap32 (st.current_time + p.burst_time)
      processes := st.processes.set i p
      completed_processes := st.completed_processes ++ [p] }
  | none => { st with current_time := wrap32 (st.current_time + 1) }

/-- The `while` loop of lines 48-78 in `int` arithmetic. -/
def sjf_loop32 : Nat → SjfState → Option SjfState
  | 0, _ => none
  | fuel + 1, st =>
    if st.completed_processes.length < st.processes.length then sjf_loop32 fuel (sjf_step32 st)
    else some st

/-- The function `sjf_scheduling`, lines 44-81, in `int` arithmetic. -/
def sjf_scheduling32 (fuel : Nat) (processes : List Process) : Option (List Process) :=
  (sjf_loop32 fuel (sjf_init processes)).map (fun st => st.completed_processes)

/-- One iteration of the `while` body of `srt_scheduling`, lines 91-119, in
`int` arithmetic.  The counter `completed` is bounded by the number of
processes and is left as it is; a write `is_completed[pid - 1]` outside the
vector gives `none`, as in `srt_step`. -/
def srt_step32 (st : SrtState) : Option SrtState :=
  match srt_select st with
  | some i =>
    let p := st.processes.getD i default
    let p := { p with remaining_time := wrap32 (p.remaining_time - 1) }
    if p.remaining_time = 0 then
      let k : Int := wrap32 (p.pid - 1)
      if 0 ≤ k ∧ k < (st.is_completed.length : Int) then
        let turnaround := wrap32 (wrap32 (st.current_time + 1) - p.arrival_time)
        let p := { p with turnaround_time := turnaround,
                          waiting_time := wrap32 (turnaround - p.burst_time) }
        some { current_time := wrap32 (st.current_time + 1)
               completed := st.completed + 1
               processes := st.processes.set i p
               is_completed := st.is_completed.set k.toNat true
               executed := st.executed ++ [some i]
               marked := st.marked ++ [k.toNat] }
      else none
    else
      some { st with current_time := wrap32 (st.current_time + 1)
                     processes := st.processes.set i p
                     executed := st.executed ++ [some i] }
  | none =>
    some { st with current_time := wrap32 (st.current_time + 1)
                   executed := st.executed ++ [none] }

/-- The `while` loop of lines 90-120 in `int` arithmetic. -/
def srt_loop32 : Nat → SrtState → Option SrtState
  | 0, _ => none
  | fuel + 1, st =>
    if st.completed < st.processes.length then
      match srt_step32 st with
      | some st => srt_loop32 fuel st
      | none => none
    else some st

/-- The function `srt_scheduling`, lines 84-121, in `int` arithmetic: the
vector `processes` as it is left. -/
def srt_scheduling32 (fuel : Nat) (processes : List Process) : Option (List Process) :=
  (srt_loop32 fuel (srt_init processes)).map (fun st => st.processes)

/-- The body of the `for` loop of `round_robin_scheduling`, lines 144-163, in
`int` arithmetic.  The counter `completed_processes` is bounded by the number
of processes and is left as it is. -/
def rr_body32 (time_quantum : Int) (st : RrState) (i : Nat)
    (h : i < st.ready_queue.length) : RrState :=
  let ptr := st.ready_queue[i]
  let process := st.processes.getD ptr default
  let st1 : RrState :=
    if process.remaining_time > 0 then
      let time_slice := min time_quantum process.remaining_time
      let current_time := wrap32 (st.current_time + time_slice)
      let process :=
        { process with remaining_time := wrap32 (process.remaining_time - time_slice) }
      if process.remaining_time = 0 then
        let turnaround := wrap32 (current_time - process.arrival_time)
        { st with current_time := current_time
                  completed_processes := st.completed_processes + 1
                  processes := st.processes.set ptr
                    { process with turnaround_time := turnaround,
                                   waiting_time := wrap32 (turnaround - process.burst_time) } }
      else
        { st with current_time := current_time
                  processes := st.processes.set ptr process }
    else st
  let process := st1.processes.getD ptr default
  let queue := if process.remaining_time > 0 then st1.ready_queue ++ [ptr] else st1.ready_queue
  { st1 with ready_queue := queue.eraseIdx i }

/-- The `for` loop of lines 143-165 in `int` arithmetic. -/
def rr_for32 (time_quantum : Int) : Nat → Nat → RrState → Option RrState
  | 0, _, _ => none
  | fuel + 1, i, st =>
    if h : i < st.ready_queue.length then
      let st := rr_body32 time_quantum st i h
      let i := (i + (SIZE_T_RANGE - 1)) % SIZE_T_RANGE
      rr_for32 time_quantum fuel ((i + 1) % SIZE_T_RANGE) st
    else some st

/-- The `while` loop of lines 142-177 in `int` arithmetic. -/
def rr_while32 (time_quantum : Int) : Nat → RrState → Option RrState
  | 0, _ => none
  | fuel + 1, st =>
    if st.completed_processes < st.processes.length then
      match rr_for32 time_quantum fuel 0 st with
      | some st => rr_while32 time_quantum fuel (rr_arrival_scan st)
      | none => none
    else some st

/-- The function `round_robin_scheduling`, lines 124-178, in `int` arithmetic. -/
def round_robin_scheduling32 (fuel : Nat) (processes : List Process) (time_quantum : Int) :
    Option (List Process) :=
  (rr_while32 time_quantum fuel (rr_init processes)).map (fun st => st.processes)

/-- The sum of the burst times of the input. -/
def total_burst (ps : List Process) : Int := (ps.map (fun p => p.burst_time)).sum

/-- The schedule of the input fits in `int`: the latest arrival time plus
the sum of all burst times, which bounds every clock value and every time
that a scheduler computes, is at most `INT_MAX`. -/
def Fits (ps : List Process) : Prop :=
  ∀ p ∈ ps, p.arrival_time + total_burst ps ≤ INT_MAX

instance (ps : List Process) : Decidable (Fits ps) := by
  unfold Fits; infer_instance

/-- A valid input on which `fcfs_scheduling` overflows `current_time`. -/
def overflow_input : List Process :=
  [Process.new 1 0 2000000000, Process.new 2 0 2000000000, Process.new 3 0 1]

/-! ## Bounds that keep the `int` arithmetic exact -/

/-- The burst time that SJF has still to run: the sum over the processes
that no completed process carries the pid of. -/
def sjf_left (st : SjfState) : Int :=
  ∑ j ∈ Finset.range st.processes.length,
    if st.completed_processes.any
        (fun c => decide (c.pid = (st.processes.getD j default).pid)) = true then 0
    else (st.processes.getD j default).burst_time

/-- Invariant of the SJF loop on an input that fits in `int`: the clock plus
the burst time still to run stays within `INT_MAX`, and so does the arrival
time of any process not yet run plus that burst time. -/
structure SjfFits (st : SjfState) : Prop where
  clock : 0 ≤ st.current_time
  nodup : (st.processes.map (fun p => p.pid)).Nodup
  static : ∀ p ∈ st.processes, 0 ≤ p.arrival_time ∧ 0 ≤ p.burst_time
  bound : st.current_time + sjf_left st ≤ INT_MAX
  arrivals : ∀ j (hj : j < st.processes.length),
    (∀ c ∈ st.completed_processes, c.pid ≠ st.processes[j].pid) →
    st.processes[j].arrival_time + sjf_left st ≤ INT_MAX

/-- Invariant of the SRT loop on an input `ps` that fits in `int`: the clock
plus the work left stays within `INT_MAX`, and so does every arrival time
plus the work left. -/
structure SrtFits (ps : List Process) (st : SrtState) : Prop where
  clock : 0 ≤ st.current_time
  bound : st.current_time + (srt_work st : Int) ≤ INT_MAX
  arrivals : ∀ p ∈ ps, p.arrival_time + (srt_work st : Int) ≤ INT_MAX

/-- Invariant of the Round Robin loops on an input that fits in `int`: the
clock plus the work left stays within `INT_MAX`. -/
structure RrFits (st : RrState) : Prop where
  clock : 0 ≤ st.current_time
  static : ∀ p ∈ st.processes,
    0 ≤ p.arrival_time ∧ 0 ≤ p.burst_time ∧ p.burst_time ≤ INT_MAX
  bound : st.current_time + (rr_work st : Int) ≤ INT_MAX

/-! ## Inputs whose schedule does not fit in `int` -/

/-- A valid input on which the clock of `fcfs_scheduling` overflows between
the second process and the third, which arrives later. -/
def overflow_fcfs_input : List Process :=
  [Process.new 1 0 2000000000, Process.new 2 1000000000 1000000000,
   Process.new 3 1500000000 1]

/-- A valid input on which the turnaround time of the second process
overflows in `sjf_scheduling`. -/
def overflow_sjf_input : List Process :=
  [Process.new 1 0 2000000000, Process.new 2 0 2000000000]

/-- A valid input on which the clock of `sjf_scheduling` wraps to `-2` after
the second process. -/
def wrap_sjf_input : List Process :=
  [Process.new 1 0 2147483647, Process.new 2 0 2147483647, Process.new 3 0 2147483647]

/-- A valid input on which, with quantum 2000000000, the clock of
`round_robin_scheduling` overflows. -/
def overflow_rr_input : List Process :=
  [Process.new 1 0 2000000000, Process.new 2 0 2000000000, Process.new 3 0 2000000000]

/-- A valid input on which the clock of `sjf_scheduling` overflows after the
second process it runs, while process 3 is still waiting. -/
def overflow_srt_input : List Process :=
  [Process.new 1 0 2147483645, Process.new 2 2147483645 3, Process.new 3 1 3]

/-- The states of `sjf_scheduling` on `overflow_srt_input` after processes 1
and 2 have run, at clock value `t`. -/
def sjf_idle_state (t : Int) : SjfState :=
  { current_time := t
    processes := [⟨1, 0, 2147483645, 0, 2147483645, 2147483645⟩,
                  ⟨2, 2147483645, 3, 0, 3, 3⟩, ⟨3, 1, 3, 0, 0, 3⟩]
    completed_processes := [⟨1, 0, 2147483645, 0, 2147483645, 2147483645⟩,
                            ⟨2, 2147483645, 3, 0, 3, 3⟩] }

/-- The states of `srt_scheduling` on `overflow_srt_input` while process 1
runs with process 3 completed: clock value `t`, remaining time `r` of
process 1. -/
def srt_run_state (t r : Int) (e : List (Option Nat)) (m : List Nat) : SrtState :=
  { current_time := t, completed := 1
    processes := [⟨1, 0, 2147483645, 0, 0, r⟩, ⟨2, 2147483645, 3, 0, 0, 3⟩,
                  ⟨3, 1, 3, 0, 3, 0⟩]
    is_completed := [false, false, true], executed := e, marked := m }

/-- The states of `srt_scheduling` on `overflow_srt_input` after processes 1
and 3 have completed: clock value `t`, remaining time `r` of process 2. -/
def srt_last_state (t r : Int) (e : List (Option Nat)) (m : List Nat) : SrtState :=
  { current_time := t, completed := 2
    processes := [⟨1, 0, 2147483645, 3, -2147483648, 0⟩, ⟨2, 2147483645, 3, 0, 0, r⟩,
                  ⟨3, 1, 3, 0, 3, 0⟩]
    is_completed := [true, false, true], executed := e, marked := m }

/-- The state in which `srt_scheduling` ends on `overflow_srt_input`. -/
def srt_final_state (e : List (Option Nat)) (m : List Nat) : SrtState :=
  { current_time := -2147483648, completed := 3
    processes := [⟨1, 0, 2147483645, 3, -2147483648, 0⟩, ⟨2, 2147483645, 3, 0, 3, 0⟩,
                  ⟨3, 1, 3, 0, 3, 0⟩]
    is_completed := [true, true, true], executed := e, marked := m }

/-! # Verified properties -/

/-! ## Facts about `min_element` -/

theorem min_element_from_mem {α : Type} (lt : α → α → Bool) (a : α) (xs : List α) :
    min_element_from lt a xs ∈ a :: xs := by
  induction xs generalizing a with
  | nil => simp [min_element_from]
  | cons x xs ih =>
    simp only [min_element_from]
    split
    · exact List.mem_cons_of_mem _ (ih x)
    · have := ih a
      rcases List.mem_cons.1 this with h | h
      · rw [h]; exact List.mem_cons_self _ _
      · exact List.mem_cons_of_mem _ (List.mem_cons_of_mem _ h)

/-- The result of the scan splits the range into a prefix of strictly larger
keys and a suffix of keys that are not smaller: it is the first minimum. -/
theorem min_element_from_first {α : Type} (key : α → Int) (a : α) (xs : List α) :
    ∃ l1 l2, a :: xs = l1 ++ min_element_from (fun x y => decide (key x < key y)) a xs :: l2 ∧
      (∀ y ∈ l1, key (min_element_from (fun x y => decide (key x < key y)) a xs) < key y) ∧
      (∀ y ∈ l2, key (min_element_from (fun x y => decide (key x < key y)) a xs) ≤ key y) := by
  induction xs generalizing a with
  | nil => exact ⟨[], [], by simp [min_element_from]⟩
  | cons x xs ih =>
    simp only [min_element_from]
    by_cases hx : key x < key a
    · simp only [hx, decide_True, if_true]
      obtain ⟨l1, l2, heq, h1, h2⟩ := ih x
      refine ⟨a :: l1, l2, by rw [heq]; rfl, ?_, h2⟩
      intro y hy
      have hle : key (min_element_from (fun x y => decide (key x < key y)) x xs) ≤ key x := by
        have hxm : x ∈ l1 ++ min_element_from (fun x y => decide (key x < key y)) x xs :: l2 := by
          rw [← heq]; exact List.mem_cons_self _ _
        rcases List.mem_append.1 hxm with h | h
        · exact le_of_lt (h1 x h)
        · rcases List.mem_cons.1 h with h | h
          · rw [← h]
          · exact h2 x h
      rcases List.mem_cons.1 hy with h | h
      · rw [h]; omega
      · exact h1 y h
    · simp only [hx, decide_False, Bool.false_eq_true, if_false]
      obtain ⟨l1, l2, heq, h1, h2⟩ := ih a
      cases l1 with
      | nil =>
        simp only [List.nil_append, List.cons.injEq] at heq
        refine ⟨[], x :: l2, ?_, by simp, ?_⟩
        · simp only [List.nil_append, List.cons.injEq]
          exact ⟨heq.1, by simp [heq.2]⟩
        · intro y hy
          rcases List.mem_cons.1 hy with h | h
          · rw [h, ← heq.1]; omega
          · exact h2 y h
      | cons b l1 =>
        simp only [List.cons_append, List.cons.injEq] at heq
        refine ⟨a :: x :: l1, l2, ?_, ?_, h2⟩
        · simp only [List.cons_append, List.cons.injEq, true_and]
          exact heq.2
        · intro y hy
          have hlt : key (min_element_from (fun x y => decide (key x < key y)) a xs) < key a := by
            have := h1 b (List.mem_cons_self _ _)
            rw [← heq.1] at this; exact this
          rcases List.mem_cons.1 hy with h | h
          · rw [h]; exact hlt
          · rcases List.mem_cons.1 h with h | h
            · rw [h]; omega
            · exact h1 y (List.mem_cons_of_mem _ h)

theorem min_element_mem {α : Type} (lt : α → α → Bool) (l : List α) (r : α)
    (h : min_element lt l = some r) : r ∈ l := by
  cases l with
  | nil => simp [min_element] at h
  | cons x xs =>
    simp only [min_element, Option.some.injEq] at h
    rw [← h]; exact min_element_from_mem lt x xs

theorem min_element_eq_none {α : Type} (lt : α → α → Bool) (l : List α) :
    min_element lt l = none ↔ l = [] := by
  cases l <;> simp [min_element]

theorem min_element_first {α : Type} (key : α → Int) (l : List α) (r : α)
    (h : min_element (fun x y => decide (key x < key y)) l = some r) :
    ∃ l1 l2, l = l1 ++ r :: l2 ∧ (∀ y ∈ l1, key r < key y) ∧ (∀ y ∈ l2, key r ≤ key y) := by
  cases l with
  | nil => simp [min_element] at h
  | cons x xs =>
    simp only [min_element, Option.some.injEq] at h
    rw [← h]; exact min_element_from_first key x xs

theorem min_element_le {α : Type} (key : α → Int) (l : List α) (r : α)
    (h : min_element (fun x y => decide (key x < key y)) l = some r) :
    ∀ y ∈ l, key r ≤ key y := by
  obtain ⟨l1, l2, heq, h1, h2⟩ := min_element_first key l r h
  intro y hy
  rw [heq] at hy
  rcases List.mem_append.1 hy with h | h
  · exact le_of_lt (h1 y h)
  · rcases List.mem_cons.1 h with h | h
    · rw [h]
    · exact h2 y h

/-! ## SJF: the selection -/

theorem sjf_is_ready_iff (st : SjfState) (i : Nat) (h : i < st.processes.length) :
    sjf_is_ready st i = true ↔
      st.processes[i].arrival_time ≤ st.current_time ∧
        ∀ c ∈ st.completed_processes, c.pid ≠ st.processes[i].pid := by
  simp [sjf_is_ready, List.getElem?_eq_getElem h]

theorem sjf_select_some (st : SjfState) (i : Nat) (h : sjf_select st = some i) :
    ∃ hi : i < st.processes.length,
      st.processes[i].arrival_time ≤ st.current_time ∧
        ∀ c ∈ st.completed_processes, c.pid ≠ st.processes[i].pid := by
  have hm := min_element_mem _ _ _ h
  simp only [sjf_ready_queue, List.mem_filter, List.mem_range] at hm
  exact ⟨hm.1, (sjf_is_ready_iff st i hm.1).1 hm.2⟩

theorem sjf_select_none (st : SjfState) (h : sjf_select st = none) (i : Nat)
    (hi : i < st.processes.length) : sjf_is_ready st i = false := by
  have hq : sjf_ready_queue st = [] := (min_element_eq_none _ _).1 h
  by_contra hr
  have : i ∈ sjf_ready_queue st := by
    simp only [sjf_ready_queue, List.mem_filter, List.mem_range]
    exact ⟨hi, by simpa using hr⟩
  rw [hq] at this
  exact List.not_mem_nil _ this

theorem sjf_step_some (st : SjfState) (i : Nat) (h : sjf_select st = some i)
    (hi : i < st.processes.length) :
    sjf_step st =
      { current_time := st.current_time + st.processes[i].burst_time
        processes := st.processes.set i
          { st.processes[i] with
            waiting_time := st.current_time - st.processes[i].arrival_time
            turnaround_time :=
              st.current_time - st.processes[i].arrival_time + st.processes[i].burst_time }
        completed_processes := st.completed_processes ++
          [{ st.processes[i] with
            waiting_time := st.current_time - st.processes[i].arrival_time
            turnaround_time :=
              st.current_time - st.processes[i].arrival_time + st.processes[i].burst_time }] } := by
  simp only [sjf_step, h, List.getD_eq_getElem _ _ hi]

theorem sjf_step_none (st : SjfState) (h : sjf_select st = none) :
    sjf_step st = { st with current_time := st.current_time + 1 } := by
  simp only [sjf_step, h]

/-! ## SJF: what one iteration preserves -/

theorem sjf_step_inputs (st : SjfState) :
    (sjf_step st).processes.map Process.inputs = st.processes.map Process.inputs := by
  cases h : sjf_select st with
  | none => rw [sjf_step_none st h]
  | some i =>
    obtain ⟨hi, -, -⟩ := sjf_select_some st i h
    rw [sjf_step_some st i h hi]
    simp only [List.map_set, Process.inputs]
    apply List.ext_getElem (by simp)
    intro n h1 h2
    by_cases hn : i = n
    · subst hn; simp [Process.inputs]
    · simp [List.getElem_set_ne hn]

theorem sjf_step_length (st : SjfState) :
    (sjf_step st).processes.length = st.processes.length := by
  have := congrArg List.length (sjf_step_inputs st)
  simpa using this

theorem sjf_step_inv (st : SjfState) (hinv : SjfInv st) : SjfInv (sjf_step st) := by
  cases h : sjf_select st with
  | none => rw [sjf_step_none st h]; exact ⟨hinv.mem, hinv.nodup⟩
  | some i =>
    obtain ⟨hi, -, hne⟩ := sjf_select_some st i h
    rw [sjf_step_some st i h hi]
    constructor
    · intro c hc
      simp only [List.mem_append, List.mem_singleton] at hc
      rcases hc with hc | hc
      · obtain ⟨j, hj, hjc⟩ := List.getElem_of_mem (hinv.mem c hc)
        have hji : i ≠ j := by
          intro hij
          subst hij
          exact hne c hc (by rw [hjc])
        apply List.mem_iff_getElem.2
        refine ⟨j, by simpa using hj, ?_⟩
        simp only [List.getElem_set_ne hji]
        exact hjc
      · rw [hc]
        apply List.mem_iff_getElem.2
        exact ⟨i, by simpa using hi, by simp⟩
    · simp only [List.map_append, List.map_cons, List.map_nil]
      apply List.Nodup.append hinv.nodup (List.nodup_singleton _)
      intro x hx hx2
      simp only [List.mem_singleton] at hx2
      obtain ⟨c, hc, hcx⟩ := List.mem_map.1 hx
      exact hne c hc (by rw [hcx, hx2])

theorem sjf_step_timed (st : SjfState) (ht : SjfTimed st) : SjfTimed (sjf_step st) := by
  cases h : sjf_select st with
  | none =>
    rw [sjf_step_none st h]
    refine ⟨ht.burst_pos, ?_, ht.ordered⟩
    intro c hc
    obtain ⟨h1, h2⟩ := ht.done c hc
    exact ⟨by simp only; omega, h2⟩
  | some i =>
    obtain ⟨hi, harr, -⟩ := sjf_select_some st i h
    have hb : 0 < st.processes[i].burst_time := ht.burst_pos _ (List.getElem_mem _)
    rw [sjf_step_some st i h hi]
    refine ⟨?_, ?_, ?_⟩
    · intro p hp
      rcases List.mem_or_eq_of_mem_set hp with hp | hp
      · exact ht.burst_pos p hp
      · rw [hp]; exact hb
    · intro c hc
      simp only [List.mem_append, List.mem_singleton] at hc
      rcases hc with hc | hc
      · obtain ⟨h1, h2⟩ := ht.done c hc
        exact ⟨by simp only; omega, h2⟩
      · rw [hc]
        simp only [Process.finish, Process.start]
        refine ⟨?_, ?_, ?_⟩
        · omega
        · omega
        · trivial
    · apply List.pairwise_append.2
      refine ⟨ht.ordered, List.pairwise_singleton _ _, ?_⟩
      intro a ha b hb2
      simp only [List.mem_singleton] at hb2
      rw [hb2]
      have := (ht.done a ha).1
      simp only [Process.start, Process.finish] at this ⊢
      omega

theorem sjf_step_completed_length (st : SjfState) (i : Nat) (h : sjf_select st = some i) :
    (sjf_step st).completed_processes.length = st.completed_processes.length + 1 := by
  obtain ⟨hi, -, -⟩ := sjf_select_some st i h
  rw [sjf_step_some st i h hi]
  simp

/-! ## SJF: the loop -/

theorem sjf_loop_mono (fuel : Nat) (st r : SjfState) (h : sjf_loop fuel st = some r)
    (fuel2 : Nat) (hle : fuel ≤ fuel2) : sjf_loop fuel2 st = some r := by
  induction fuel generalizing st fuel2 with
  | zero => simp [sjf_loop] at h
  | succ n ih =>
    obtain ⟨m, rfl⟩ : ∃ m, fuel2 = m + 1 := ⟨fuel2 - 1, by omega⟩
    simp only [sjf_loop] at h ⊢
    split
    · rename_i hc
      rw [if_pos hc] at h
      exact ih _ h m (by omega)
    · rename_i hc
      rw [if_neg hc] at h
      exact h

/-- Any property kept by one iteration holds when the loop ends, and the loop
ends only when the guard is false. -/
theorem sjf_loop_rule (P : SjfState → Prop) (hP : ∀ st, P st → P (sjf_step st))
    (fuel : Nat) (st r : SjfState) (h0 : P st) (h : sjf_loop fuel st = some r) :
    P r ∧ r.processes.length ≤ r.completed_processes.length := by
  induction fuel generalizing st with
  | zero => simp [sjf_loop] at h
  | succ n ih =>
    simp only [sjf_loop] at h
    split at h
    · exact ih _ (hP st h0) h
    · rename_i hc
      simp only [Option.some.injEq] at h
      subst h
      exact ⟨h0, by omega⟩

/-- With pairwise distinct pids, while fewer than N processes are completed
some process has no completed record. -/
theorem sjf_exists_unfinished (st : SjfState)
    (hnd : (st.processes.map (fun p => p.pid)).Nodup)
    (hlt : st.completed_processes.length < st.processes.length) :
    ∃ i, ∃ hi : i < st.processes.length,
      ∀ c ∈ st.completed_processes, c.pid ≠ st.processes[i].pid := by
  by_contra hcon
  push_neg at hcon
  have hsub : st.processes.map (fun p => p.pid) ⊆ st.completed_processes.map (fun p => p.pid) := by
    intro x hx
    obtain ⟨p, hp, hpx⟩ := List.mem_map.1 hx
    obtain ⟨i, hi, hip⟩ := List.getElem_of_mem hp
    obtain ⟨c, hc, hcp⟩ := hcon i hi
    exact List.mem_map.2 ⟨c, hc, by rw [hcp, hip, hpx]⟩
  have := (List.subperm_of_subset hnd hsub).length_le
  simp only [List.length_map] at this
  omega

theorem sjf_step_arrival_bound (T : Int) (st : SjfState)
    (h : ∀ p ∈ st.processes, p.arrival_time ≤ T) :
    ∀ p ∈ (sjf_step st).processes, p.arrival_time ≤ T := by
  cases hs : sjf_select st with
  | none => rw [sjf_step_none st hs]; exact h
  | some i =>
    obtain ⟨hi, -, -⟩ := sjf_select_some st i hs
    rw [sjf_step_some st i hs hi]
    intro p hp
    rcases List.mem_or_eq_of_mem_set hp with hp | hp
    · exact h p hp
    · rw [hp]; exact h st.processes[i] (List.getElem_mem _)

theorem sjf_step_pids (st : SjfState) :
    (sjf_step st).processes.map (fun p => p.pid) = st.processes.map (fun p => p.pid) := by
  have := congrArg (List.map (fun x : Int × Int × Int × Int => x.1)) (sjf_step_inputs st)
  simpa [List.map_map, Function.comp_def, Process.inputs] using this

/-- The SJF loop ends on every input with pairwise distinct pids. -/
theorem sjf_loop_terminates (T : Int) (k : Nat) :
    ∀ (m : Nat) (st : SjfState),
      (st.processes.map (fun p => p.pid)).Nodup →
      (∀ p ∈ st.processes, p.arrival_time ≤ T) →
      st.processes.length - st.completed_processes.length ≤ k →
      (T - st.current_time).toNat ≤ m →
      ∃ fuel r, sjf_loop fuel st = some r := by
  induction k with
  | zero =>
    intro m st _ _ hk _
    exact ⟨1, st, by simp only [sjf_loop]; rw [if_neg (by omega)]⟩
  | succ k ihk =>
    intro m
    induction m with
    | zero =>
      intro st hnd hT hk hm
      by_cases hc : st.completed_processes.length < st.processes.length
      · obtain ⟨i, hi, hne⟩ := sjf_exists_unfinished st hnd hc
        cases hs : sjf_select st with
        | none =>
          exfalso
          have hr := sjf_select_none st hs i hi
          have hnr : ¬ (sjf_is_ready st i = true) := by simp [hr]
          rw [sjf_is_ready_iff st i hi] at hnr
          have := hT _ (List.getElem_mem hi)
          apply hnr
          exact ⟨by omega, hne⟩
        | some j =>
          have hl := sjf_step_completed_length st j hs
          obtain ⟨fuel, r, hr⟩ := ihk (T - (sjf_step st).current_time).toNat (sjf_step st)
            (by rw [sjf_step_pids]; exact hnd) (sjf_step_arrival_bound T st hT)
            (by rw [sjf_step_length, hl]; omega) (le_refl _)
          exact ⟨fuel + 1, r, by simp only [sjf_loop]; rw [if_pos hc]; exact hr⟩
      · exact ⟨1, st, by simp only [sjf_loop]; rw [if_neg hc]⟩
    | succ m ihm =>
      intro st hnd hT hk hm
      by_cases hc : st.completed_processes.length < st.processes.length
      · cases hs : sjf_select st with
        | none =>
          obtain ⟨fuel, r, hr⟩ := ihm (sjf_step st)
            (by rw [sjf_step_pids]; exact hnd) (sjf_step_arrival_bound T st hT)
            (by rw [sjf_step_none st hs]; exact hk)
            (by rw [sjf_step_none st hs]; simp only; omega)
          exact ⟨fuel + 1, r, by simp only [sjf_loop]; rw [if_pos hc]; exact hr⟩
        | some j =>
          have hl := sjf_step_completed_length st j hs
          obtain ⟨fuel, r, hr⟩ := ihk (T - (sjf_step st).current_time).toNat (sjf_step st)
            (by rw [sjf_step_pids]; exact hnd) (sjf_step_arrival_bound T st hT)
            (by rw [sjf_step_length, hl]; omega) (le_refl _)
          exact ⟨fuel + 1, r, by simp only [sjf_loop]; rw [if_pos hc]; exact hr⟩
      · exact ⟨1, st, by simp only [sjf_loop]; rw [if_neg hc]⟩

theorem arrival_bound_exists (ps : List Process) :
    ∃ T : Int, ∀ p ∈ ps, p.arrival_time ≤ T := by
  induction ps with
  | nil => exact ⟨0, by simp⟩
  | cons a l ih =>
    obtain ⟨T, hT⟩ := ih
    refine ⟨max T a.arrival_time, ?_⟩
    intro p hp
    rcases List.mem_cons.1 hp with h | h
    · rw [h]; exact le_max_right _ _
    · exact le_trans (hT p h) (le_max_left _ _)

theorem valid_pids_nodup (ps : List Process) (hv : Valid ps) :
    (ps.map (fun p => p.pid)).Nodup := by
  rw [hv.1]
  apply List.Nodup.map _ (List.nodup_range _)
  intro a b hab
  simpa using hab

theorem sjf_init_inv (ps : List Process) : SjfInv (sjf_init ps) :=
  ⟨by simp [sjf_init], by simp [sjf_init]⟩

theorem sjf_init_timed (ps : List Process) (hb : ∀ p ∈ ps, 0 < p.burst_time) :
    SjfTimed (sjf_init ps) :=
  ⟨hb, by simp [sjf_init], by simp [sjf_init]⟩

/-- On every input with pairwise distinct pids `sjf_scheduling` returns, and
any larger fuel gives the same result. -/
theorem sjf_scheduling_returns (ps : List Process) (hnd : (ps.map (fun p => p.pid)).Nodup) :
    ∃ N r, ∀ fuel, N ≤ fuel → sjf_scheduling fuel ps = some r := by
  obtain ⟨T, hT⟩ := arrival_bound_exists ps
  obtain ⟨N, r, hr⟩ := sjf_loop_terminates T ps.length (T - 0).toNat (sjf_init ps)
    hnd hT (by simp [sjf_init]) (by simp [sjf_init])
  refine ⟨N, r.completed_processes, ?_⟩
  intro fuel hf
  simp only [sjf_scheduling, sjf_loop_mono N _ r hr fuel hf, Option.map_some']

example : Valid sample := by decide

/-! ## FCFS -/

theorem fcfs_loop_turnaround (t : Int) (ps : List Process) :
    ∀ p ∈ fcfs_loop t ps, p.turnaround_time = p.waiting_time + p.burst_time := by
  induction ps generalizing t with
  | nil => simp [fcfs_loop]
  | cons a l ih =>
    intro p hp
    simp only [fcfs_loop, List.mem_cons] at hp
    rcases hp with hp | hp
    · rw [hp]
    · exact ih _ p hp

/-! ## SJF: results -/

/-- Every valid input is run to the end by `sjf_scheduling`, and the records
it returns carry run intervals that start after arrival, last the burst time
and follow one another in the order returned. -/
theorem sjf_scheduling_timed (ps : List Process) (fuel : Nat) (r : List Process)
    (hb : ∀ p ∈ ps, 0 < p.burst_time) (h : sjf_scheduling fuel ps = some r) :
    ps.length ≤ r.length ∧
    (∀ c ∈ r, c.arrival_time ≤ c.start ∧ c.turnaround_time = c.waiting_time + c.burst_time) ∧
    r.Pairwise (fun a b => a.finish ≤ b.start) := by
  simp only [sjf_scheduling, Option.map_eq_some'] at h
  obtain ⟨st, hst, rfl⟩ := h
  obtain ⟨⟨ht, hl⟩, hlen⟩ := sjf_loop_rule
    (fun s => SjfTimed s ∧ s.processes.length = ps.length)
    (fun s hs => ⟨sjf_step_timed s hs.1, by rw [sjf_step_length]; exact hs.2⟩)
    fuel (sjf_init ps) st ⟨sjf_init_timed ps hb, rfl⟩ hst
  refine ⟨by omega, fun c hc => (ht.done c hc).2, ht.ordered⟩

/-! ## Inputs and keys -/

theorem keys_length (ps qs : List Process) (h : qs.map Process.key = ps.map Process.key) :
    qs.length = ps.length := by
  simpa using congrArg List.length h

theorem keys_getElem (ps qs : List Process) (h : qs.map Process.key = ps.map Process.key)
    (i : Nat) (hi : i < qs.length) (hj : i < ps.length) : qs[i].key = ps[i].key := by
  have h1 : (qs.map Process.key)[i]? = (ps.map Process.key)[i]? := by rw [h]
  simpa [List.getElem?_eq_getElem hi, List.getElem?_eq_getElem hj] using h1

theorem valid_pid (ps : List Process) (hv : Valid ps) (i : Nat) (hi : i < ps.length) :
    ps[i].pid = (i : Int) + 1 := by
  have h1 : (ps.map (fun p => p.pid))[i]? =
      ((List.range ps.length).map (fun (i : Nat) => (i : Int) + 1))[i]? := by rw [hv.1]
  simpa [List.getElem?_eq_getElem hi, List.getElem?_range hi] using h1

theorem set_keys (ps : List Process) (i : Nat) (p : Process) (hi : i < ps.length)
    (hp : p.key = ps[i].key) : (ps.set i p).map Process.key = ps.map Process.key := by
  apply List.ext_getElem (by simp)
  intro n h1 h2
  by_cases hn : i = n
  · subst hn; simp [hp]
  · simp [List.getElem_set_ne hn]

theorem sum_map_set (f : Process → Nat) (l : List Process) (i : Nat) (b : Process)
    (hi : i < l.length) :
    ((l.set i b).map f).sum + f l[i] = (l.map f).sum + f b := by
  induction l generalizing i with
  | nil => simp at hi
  | cons a l ih =>
    cases i with
    | zero => simp; omega
    | succ i =>
      simp only [List.length_cons, Nat.add_lt_add_iff_right] at hi
      have := ih i hi
      simp only [List.set_cons_succ, List.map_cons, List.sum_cons, List.getElem_cons_succ]
      omega

theorem exists_false_of_count_lt (l : List Bool) (h : l.count true < l.length) :
    ∃ i, i < l.length ∧ l.getD i false = false := by
  induction l with
  | nil => simp at h
  | cons a l ih =>
    cases a with
    | false => exact ⟨0, by simp, by simp⟩
    | true =>
      simp only [List.count_cons_self, List.length_cons, Nat.add_lt_add_iff_right] at h
      obtain ⟨i, hi, hf⟩ := ih h
      exact ⟨i + 1, by simpa using hi, by simpa using hf⟩

theorem all_true_of_length_le_count (l : List Bool) (h : l.length ≤ l.count true) :
    ∀ i, i < l.length → l.getD i false = true := by
  intro i hi
  by_contra hne
  have hle := List.count_le_length true l
  have heq : l.count true = l.length := by omega
  have hall := List.count_eq_length.1 heq
  have hm : l[i] ∈ l := List.getElem_mem hi
  have := hall _ hm
  simp [List.getElem?_eq_getElem hi] at hne
  rw [hne] at this
  exact absurd this (by decide)

/-! ## SRT: the selection and one iteration -/

theorem srt_is_ready_iff (st : SrtState) (i : Nat) (h : i < st.processes.length) :
    srt_is_ready st i = true ↔
      st.processes[i].arrival_time ≤ st.current_time ∧ st.is_completed.getD i false = false := by
  simp [srt_is_ready, List.getElem?_eq_getElem h]

theorem srt_select_some (st : SrtState) (i : Nat) (h : srt_select st = some i) :
    ∃ hi : i < st.processes.length,
      st.processes[i].arrival_time ≤ st.current_time ∧ st.is_completed.getD i false = false := by
  have hm := min_element_mem _ _ _ h
  simp only [srt_ready_queue, List.mem_filter, List.mem_range] at hm
  exact ⟨hm.1, (srt_is_ready_iff st i hm.1).1 hm.2⟩

theorem srt_select_none (st : SrtState) (h : srt_select st = none) (i : Nat)
    (hi : i < st.processes.length) : srt_is_ready st i = false := by
  have hq : srt_ready_queue st = [] := (min_element_eq_none _ _).1 h
  by_contra hr
  have : i ∈ srt_ready_queue st := by
    simp only [srt_ready_queue, List.mem_filter, List.mem_range]
    exact ⟨hi, by simpa using hr⟩
  rw [hq] at this
  exact List.not_mem_nil _ this

theorem srt_step_idle (st : SrtState) (h : srt_select st = none) :
    srt_step st = some { st with current_time := st.current_time + 1
                                 executed := st.executed ++ [none] } := by
  simp only [srt_step, h]

theorem srt_step_run (st : SrtState) (i : Nat) (h : srt_select st = some i)
    (hi : i < st.processes.length) (hr : st.processes[i].remaining_time - 1 ≠ 0) :
    srt_step st = some { st with
      current_time := st.current_time + 1
      processes := st.processes.set i
        { st.processes[i] with remaining_time := st.processes[i].remaining_time - 1 }
      executed := st.executed ++ [some i] } := by
  simp only [srt_step, h, List.getD_eq_getElem _ _ hi, if_neg hr]

theorem srt_step_finish (st : SrtState) (i : Nat) (h : srt_select st = some i)
    (hi : i < st.processes.length) (hr : st.processes[i].remaining_time - 1 = 0)
    (hp : st.processes[i].pid = (i : Int) + 1) (hf : i < st.is_completed.length) :
    srt_step st = some
      { current_time := st.current_time + 1
        completed := st.completed + 1
        processes := st.processes.set i
          { st.processes[i] with
            remaining_time := st.processes[i].remaining_time - 1
            turnaround_time := st.current_time + 1 - st.processes[i].arrival_time
            waiting_time :=
              st.current_time + 1 - st.processes[i].arrival_time - st.processes[i].burst_time }
        is_completed := st.is_completed.set i true
        executed := st.executed ++ [some i]
        marked := st.marked ++ [i] } := by
  have hk : st.processes[i].pid - 1 = (i : Int) := by omega
  have hc : 0 ≤ (i : Int) ∧ (i : Int) < (st.is_completed.length : Int) := by omega
  simp only [srt_step, h, List.getD_eq_getElem _ _ hi, if_pos hr, hk, Int.toNat_ofNat, if_pos hc]

theorem getD_set_bool (l : List Bool) (i j : Nat) (b d : Bool) (hi : i < l.length) :
    (l.set i b).getD j d = if i = j then b else l.getD j d := by
  by_cases h : i = j
  · subst h; simp [hi]
  · simp [h, List.getElem?_set_ne h]

theorem count_some_append (l : List (Option Nat)) (i j : Nat) :
    (l ++ [some i]).count (some j) = l.count (some j) + if i = j then 1 else 0 := by
  by_cases h : i = j
  · subst h; simp [List.count_append]
  · have : ¬ (some i = some j) := by simpa using h
    simp [List.count_append, List.count_cons, h]

theorem count_none_append (l : List (Option Nat)) (j : Nat) :
    (l ++ [none]).count (some j) = l.count (some j) := by
  simp [List.count_append, List.count_cons]

theorem count_nat_append (l : List Nat) (i j : Nat) :
    (l ++ [i]).count j = l.count j + if i = j then 1 else 0 := by
  by_cases h : i = j
  · subst h; simp [List.count_append]
  · simp [List.count_append, List.count_cons, h]

/-! ## SRT: the invariant -/

theorem srt_init_inv (ps : List Process) (hv : Valid ps) : SrtInv ps (srt_init ps) := by
  refine ⟨rfl, by simp [srt_init], ?_, by simp [srt_init, List.count_replicate], ?_, ?_, ?_⟩
  · intro i hi
    simp only [srt_init] at hi ⊢
    have h := hv.2 ps[i] (List.getElem_mem hi)
    refine ⟨by omega, ?_⟩
    simp [List.getElem?_replicate, hi]
    omega
  · intro i hi
    simp only [srt_init] at hi ⊢
    have h := hv.2 ps[i] (List.getElem_mem hi)
    simp only [List.count_nil, Nat.cast_zero]
    omega
  · intro i hi
    simp only [srt_init] at hi ⊢
    simp [List.getElem?_replicate, hi]
  · intro i hi
    simp only [srt_init] at hi ⊢
    have h := hv.2 ps[i] (List.getElem_mem hi)
    intro h0
    omega

theorem srt_inv_pid (ps : List Process) (hv : Valid ps) (st : SrtState) (hinv : SrtInv ps st)
    (i : Nat) (hi : i < st.processes.length) : st.processes[i].pid = (i : Int) + 1 := by
  have hl := keys_length ps st.processes hinv.keys
  have hk := keys_getElem ps st.processes hinv.keys i hi (by omega)
  have hp := valid_pid ps hv i (by omega)
  simp only [Process.key, Prod.mk.injEq] at hk
  rw [hk.1, hp]

theorem srt_inv_idle (ps : List Process) (st : SrtState) (hinv : SrtInv ps st) :
    SrtInv ps { st with current_time := st.current_time + 1
                        executed := st.executed ++ [none] } := by
  refine ⟨hinv.keys, hinv.flags, hinv.rem, hinv.count, ?_, hinv.marked, hinv.times⟩
  intro i hi
  have := hinv.executed i hi
  simp only [count_none_append]
  exact this

theorem srt_inv_run (ps : List Process) (st : SrtState) (hinv : SrtInv ps st) (i : Nat)
    (hi : i < st.processes.length) (hf : st.is_completed.getD i false = false)
    (hr : st.processes[i].remaining_time - 1 ≠ 0) :
    SrtInv ps { st with
      current_time := st.current_time + 1
      processes := st.processes.set i
        { st.processes[i] with remaining_time := st.processes[i].remaining_time - 1 }
      executed := st.executed ++ [some i] } := by
  have hri := hinv.rem i hi
  have hpos : 1 ≤ st.processes[i].remaining_time := by
    have : st.processes[i].remaining_time ≠ 0 := by
      intro h0; have := hri.2.2 h0; rw [hf] at this; exact absurd this (by decide)
    omega
  refine ⟨?_, ?_, ?_, hinv.count, ?_, ?_, ?_⟩
  · show List.map Process.key (st.processes.set i _) = _
    rw [set_keys _ _ _ hi (by rfl)]; exact hinv.keys
  · simp only [List.length_set]; exact hinv.flags
  · intro j hj
    simp only [List.length_set] at hj
    simp only [List.getElem_set]
    by_cases hij : i = j
    · subst hij
      simp only [if_true]
      refine ⟨by omega, ?_⟩
      rw [hf]; simp [hr]
    · simp only [if_neg hij]; exact hinv.rem j hj
  · intro j hj
    simp only [List.length_set] at hj
    simp only [List.getElem_set, count_some_append]
    by_cases hij : i = j
    · subst hij
      have := hinv.executed i hi
      simp only [if_true]
      push_cast
      omega
    · have := hinv.executed j hj
      simp only [if_neg hij]
      simpa using this
  · intro j hj
    simp only [List.length_set] at hj
    exact hinv.marked j hj
  · intro j hj
    simp only [List.length_set] at hj
    simp only [List.getElem_set]
    by_cases hij : i = j
    · subst hij
      simp only [if_true]
      intro h0; exact absurd h0 hr
    · simp only [if_neg hij]; exact hinv.times j hj

theorem srt_inv_finish (ps : List Process) (st : SrtState) (hinv : SrtInv ps st) (i : Nat)
    (hi : i < st.processes.length) (hf : st.is_completed.getD i false = false)
    (hr : st.processes[i].remaining_time - 1 = 0) :
    SrtInv ps
      { current_time := st.current_time + 1
        completed := st.completed + 1
        processes := st.processes.set i
          { st.processes[i] with
            remaining_time := st.processes[i].remaining_time - 1
            turnaround_time := st.current_time + 1 - st.processes[i].arrival_time
            waiting_time :=
              st.current_time + 1 - st.processes[i].arrival_time - st.processes[i].burst_time }
        is_completed := st.is_completed.set i true
        executed := st.executed ++ [some i]
        marked := st.marked ++ [i] } := by
  have hfl : i < st.is_completed.length := by rw [hinv.flags]; exact hi
  have hfi : st.is_completed[i] = false := by
    simpa [List.getElem?_eq_getElem hfl] using hf
  refine ⟨?_, ?_, ?_, ?_, ?_, ?_, ?_⟩
  · show List.map Process.key (st.processes.set i _) = _
    rw [set_keys _ _ _ hi (by rfl)]; exact hinv.keys
  · simp only [List.length_set]; exact hinv.flags
  · intro j hj
    simp only [List.length_set] at hj
    simp only [List.getElem_set, getD_set_bool _ _ _ _ _ hfl]
    by_cases hij : i = j
    · subst hij
      simp only [if_true]
      exact ⟨by omega, by simp [hr]⟩
    · simp only [if_neg hij]; exact hinv.rem j hj
  · simp only
    rw [List.count_set _ _ _ _ hfl, hfi, hinv.count]
    simp
  · intro j hj
    simp only [List.length_set] at hj
    simp only [List.getElem_set, count_some_append]
    by_cases hij : i = j
    · subst hij
      have := hinv.executed i hi
      simp only [if_true]
      push_cast
      omega
    · have := hinv.executed j hj
      simp only [if_neg hij]
      simpa using this
  · intro j hj
    simp only [List.length_set] at hj
    simp only [count_nat_append, getD_set_bool _ _ _ _ _ hfl]
    have := hinv.marked j hj
    by_cases hij : i = j
    · subst hij
      rw [hf] at this
      simp only [if_true]
      simp at this
      omega
    · simp only [if_neg hij]
      omega
  · intro j hj
    simp only [List.length_set] at hj
    simp only [List.getElem_set]
    by_cases hij : i = j
    · subst hij
      simp only [if_true]
      intro _; omega
    · simp only [if_neg hij]; exact hinv.times j hj

/-- One iteration from a state satisfying the invariant: it is defined, keeps
the invariant, advances the clock by one, and either idles or does one unit
of the work left. -/
theorem srt_step_spec (ps : List Process) (hv : Valid ps) (st : SrtState)
    (hinv : SrtInv ps st) :
    ∃ st2, srt_step st = some st2 ∧ SrtInv ps st2 ∧
      st2.current_time = st.current_time + 1 ∧
      st2.processes.length = st.processes.length ∧
      ((srt_select st = none ∧ srt_work st2 = srt_work st) ∨
        (srt_select st ≠ none ∧ srt_work st2 + 1 = srt_work st)) := by
  cases hs : srt_select st with
  | none =>
    exact ⟨_, srt_step_idle st hs, srt_inv_idle ps st hinv, rfl, rfl, Or.inl ⟨rfl, rfl⟩⟩
  | some i =>
    obtain ⟨hi, -, hf⟩ := srt_select_some st i hs
    have hri := hinv.rem i hi
    have hpos : 1 ≤ st.processes[i].remaining_time := by
      have : st.processes[i].remaining_time ≠ 0 := by
        intro h0; have := hri.2.2 h0; rw [hf] at this; exact absurd this (by decide)
      omega
    have hwork : ∀ p : Process, p.remaining_time = st.processes[i].remaining_time - 1 →
        (List.map (fun p => p.remaining_time.toNat) (st.processes.set i p)).sum + 1 =
          srt_work st := by
      intro p hp
      have := sum_map_set (fun p => p.remaining_time.toNat) st.processes i p hi
      simp only [srt_work]
      simp only [hp] at this
      omega
    by_cases hr : st.processes[i].remaining_time - 1 = 0
    · have hfl : i < st.is_completed.length := by rw [hinv.flags]; exact hi
      refine ⟨_, srt_step_finish st i hs hi hr (srt_inv_pid ps hv st hinv i hi) hfl,
        srt_inv_finish ps st hinv i hi hf hr, rfl, by simp, Or.inr ⟨by simp, ?_⟩⟩
      exact hwork _ rfl
    · refine ⟨_, srt_step_run st i hs hi hr, srt_inv_run ps st hinv i hi hf hr, rfl, by simp,
        Or.inr ⟨by simp, ?_⟩⟩
      exact hwork _ rfl

/-! ## SRT: the loop -/

theorem srt_loop_mono (fuel : Nat) (st r : SrtState) (h : srt_loop fuel st = some r)
    (fuel2 : Nat) (hle : fuel ≤ fuel2) : srt_loop fuel2 st = some r := by
  induction fuel generalizing st fuel2 with
  | zero => simp [srt_loop] at h
  | succ n ih =>
    obtain ⟨m, rfl⟩ : ∃ m, fuel2 = m + 1 := ⟨fuel2 - 1, by omega⟩
    simp only [srt_loop] at h ⊢
    split
    · rename_i hc
      rw [if_pos hc] at h
      cases hs : srt_step st with
      | none => rw [hs] at h; simp at h
      | some s2 =>
        rw [hs] at h
        exact ih _ h m (by omega)
    · rename_i hc
      rw [if_neg hc] at h
      exact h

/-- Any property kept by one iteration holds when the loop ends, and the loop
ends only when the guard is false. -/
theorem srt_loop_rule (P : SrtState → Prop)
    (hP : ∀ st st2, P st → srt_step st = some st2 → P st2)
    (fuel : Nat) (st r : SrtState) (h0 : P st) (h : srt_loop fuel st = some r) :
    P r ∧ ¬ (r.completed < r.processes.length) := by
  induction fuel generalizing st with
  | zero => simp [srt_loop] at h
  | succ n ih =>
    simp only [srt_loop] at h
    split at h
    · cases hs : srt_step st with
      | none => rw [hs] at h; simp at h
      | some s2 =>
        rw [hs] at h
        exact ih _ (hP st s2 h0 hs) h
    · rename_i hc
      simp only [Option.some.injEq] at h
      subst h
      exact ⟨h0, hc⟩

theorem srt_inv_step (ps : List Process) (hv : Valid ps) (st st2 : SrtState)
    (hinv : SrtInv ps st) (h : srt_step st = some st2) : SrtInv ps st2 := by
  obtain ⟨s, hs, hi, -⟩ := srt_step_spec ps hv st hinv
  rw [hs] at h
  simp only [Option.some.injEq] at h
  rw [← h]; exact hi

/-- When the loop has ended in a state satisfying the invariant, every flag
is set and every remaining time is zero. -/
theorem srt_inv_final (ps : List Process) (st : SrtState) (hinv : SrtInv ps st)
    (hc : ¬ (st.completed < st.processes.length)) :
    ∀ i (hi : i < st.processes.length),
      st.is_completed.getD i false = true ∧ st.processes[i].remaining_time = 0 := by
  intro i hi
  have hcount : st.is_completed.length ≤ st.is_completed.count true := by
    have h1 := hinv.count
    have h2 := hinv.flags
    omega
  have hflag := all_true_of_length_le_count _ hcount i (by rw [hinv.flags]; exact hi)
  exact ⟨hflag, (hinv.rem i hi).2.1 hflag⟩

/-- The SRT loop ends within `work + (T - current_time) + 1` iterations, where
`T` bounds the arrival times. -/
theorem srt_loop_terminates (ps : List Process) (hv : Valid ps) (T : Int)
    (hT : ∀ p ∈ ps, p.arrival_time ≤ T) (k : Nat) :
    ∀ st : SrtState, SrtInv ps st → srt_work st + (T - st.current_time).toNat ≤ k →
      ∃ r, srt_loop (k + 1) st = some r := by
  induction k with
  | zero =>
    intro st hinv hk
    by_cases hc : st.completed < st.processes.length
    · exfalso
      obtain ⟨s2, hs, hi2, ht, hl, hw⟩ := srt_step_spec ps hv st hinv
      rcases hw with ⟨hsel, -⟩ | ⟨-, hw⟩
      · have hlt : st.is_completed.count true < st.is_completed.length := by
          have h1 := hinv.count
          have h2 := hinv.flags
          omega
        obtain ⟨j, hj, hjf⟩ := exists_false_of_count_lt _ hlt
        have hjp : j < st.processes.length := by rw [← hinv.flags]; exact hj
        have hnr := srt_select_none st hsel j hjp
        have hnr2 : ¬ (srt_is_ready st j = true) := by simp [hnr]
        rw [srt_is_ready_iff st j hjp] at hnr2
        have hlen := keys_length ps st.processes hinv.keys
        have hk2 := keys_getElem ps st.processes hinv.keys j hjp (by omega)
        simp only [Process.key, Prod.mk.injEq] at hk2
        have hb := hT ps[j] (List.getElem_mem _)
        have : ¬ (st.processes[j].arrival_time ≤ st.current_time) := fun h => hnr2 ⟨h, hjf⟩
        omega
      · omega
    · exact ⟨st, by simp only [srt_loop]; rw [if_neg hc]⟩
  | succ k ih =>
    intro st hinv hk
    by_cases hc : st.completed < st.processes.length
    · obtain ⟨s2, hs, hi2, ht, hl, hw⟩ := srt_step_spec ps hv st hinv
      have hdec : srt_work s2 + (T - s2.current_time).toNat ≤ k := by
        rcases hw with ⟨hsel, hw⟩ | ⟨-, hw⟩
        · have hlt : st.is_completed.count true < st.is_completed.length := by
            have h1 := hinv.count
            have h2 := hinv.flags
            omega
          obtain ⟨j, hj, hjf⟩ := exists_false_of_count_lt _ hlt
          have hjp : j < st.processes.length := by rw [← hinv.flags]; exact hj
          have hnr := srt_select_none st hsel j hjp
          have hnr2 : ¬ (srt_is_ready st j = true) := by simp [hnr]
          rw [srt_is_ready_iff st j hjp] at hnr2
          have hlen := keys_length ps st.processes hinv.keys
          have hk2 := keys_getElem ps st.processes hinv.keys j hjp (by omega)
          simp only [Process.key, Prod.mk.injEq] at hk2
          have hb := hT ps[j] (List.getElem_mem _)
          have : ¬ (st.processes[j].arrival_time ≤ st.current_time) := fun h => hnr2 ⟨h, hjf⟩
          omega
        · omega
      obtain ⟨r, hr⟩ := ih s2 hi2 hdec
      exact ⟨r, by rw [srt_loop, if_pos hc, hs]; exact hr⟩
    · exact ⟨st, by simp only [srt_loop]; rw [if_neg hc]⟩

/-! ## Round Robin: the invariant -/

theorem rr_inv_of_eq (st st2 : RrState) (hinv : RrInv st)
    (hp : st2.processes = st.processes) (hc : st2.completed_processes = st.completed_processes) :
    RrInv st2 := by
  refine ⟨?_, ?_, ?_⟩
  · rw [hp]; exact hinv.rem
  · rw [hp]; exact hinv.times
  · rw [hp, hc]; exact hinv.count

theorem rr_body_inv (q : Int) (st : RrState) (i : Nat) (h : i < st.ready_queue.length)
    (hinv : RrInv st) : RrInv (rr_body q st i h) := by
  by_cases hptr : st.ready_queue[i] < st.processes.length
  · by_cases hpos : st.processes[st.ready_queue[i]].remaining_time > 0
    · have hmem : st.processes[st.ready_queue[i]] ∈ st.processes := List.getElem_mem _
      by_cases hz : st.processes[st.ready_queue[i]].remaining_time -
          min q st.processes[st.ready_queue[i]].remaining_time = 0
      · simp only [rr_body, List.getD_eq_getElem _ _ hptr, if_pos hpos, if_pos hz]
        refine ⟨?_, ?_, ?_⟩
        · intro p hp
          rcases List.mem_or_eq_of_mem_set hp with hp | hp
          · exact hinv.rem p hp
          · rw [hp]; simp only; omega
        · intro p hp
          rcases List.mem_or_eq_of_mem_set hp with hp | hp
          · exact hinv.times p hp
          · rw [hp]; intro _; simp only; omega
        · simp only
          rw [List.countP_set _ _ _ _ hptr, hinv.count]
          have hne : ¬ (st.processes[st.ready_queue[i]].remaining_time = 0) := by omega
          simp [hne, hz]
      · simp only [rr_body, List.getD_eq_getElem _ _ hptr, if_pos hpos, if_neg hz]
        refine ⟨?_, ?_, ?_⟩
        · intro p hp
          rcases List.mem_or_eq_of_mem_set hp with hp | hp
          · exact hinv.rem p hp
          · rw [hp]; simp only
            have := min_le_right q st.processes[st.ready_queue[i]].remaining_time
            omega
        · intro p hp
          rcases List.mem_or_eq_of_mem_set hp with hp | hp
          · exact hinv.times p hp
          · rw [hp]; intro h0; exact absurd h0 hz
        · simp only
          rw [List.countP_set _ _ _ _ hptr, hinv.count]
          have hne : ¬ (st.processes[st.ready_queue[i]].remaining_time = 0) := by omega
          simp [hne, hz]
    · apply rr_inv_of_eq st _ hinv
      · simp only [rr_body, List.getD_eq_getElem _ _ hptr, if_neg hpos]
      · simp only [rr_body, List.getD_eq_getElem _ _ hptr, if_neg hpos]
  · have hd : st.processes.getD st.ready_queue[i] default = default :=
      List.getD_eq_default _ _ (by omega)
    have hz : ¬ ((default : Process).remaining_time > 0) := by decide
    apply rr_inv_of_eq st _ hinv
    · simp only [rr_body, hd, if_neg hz]
    · simp only [rr_body, hd, if_neg hz]

theorem rr_arrival_scan_fold (l : List Nat) (st : RrState) :
    (l.foldl (fun st i =>
        if rr_is_new st i then { st with ready_queue := st.ready_queue ++ [i] } else st)
      st).processes = st.processes ∧
    (l.foldl (fun st i =>
        if rr_is_new st i then { st with ready_queue := st.ready_queue ++ [i] } else st)
      st).completed_processes = st.completed_processes ∧
    (l.foldl (fun st i =>
        if rr_is_new st i then { st with ready_queue := st.ready_queue ++ [i] } else st)
      st).current_time = st.current_time := by
  induction l generalizing st with
  | nil => simp
  | cons a l ih =>
    simp only [List.foldl_cons]
    by_cases hn : rr_is_new st a = true
    · simp only [hn, if_true]
      have := ih { st with ready_queue := st.ready_queue ++ [a] }
      exact this
    · simp only [hn]
      exact ih st

theorem rr_arrival_scan_inv (st : RrState) (hinv : RrInv st) : RrInv (rr_arrival_scan st) := by
  obtain ⟨h1, h2, -⟩ := rr_arrival_scan_fold (List.range st.processes.length) st
  exact rr_inv_of_eq st _ hinv h1 h2

theorem rr_init_inv (ps : List Process) (hb : ∀ p ∈ ps, 0 < p.burst_time) :
    RrInv (rr_init ps) := by
  have hall : ∀ p ∈ (rr_init ps).processes, 0 < p.remaining_time := by
    intro p hp
    simp only [rr_init, List.mem_map] at hp
    obtain ⟨a, ha, rfl⟩ := hp
    exact hb a ha
  refine ⟨fun p hp => le_of_lt (hall p hp), ?_, ?_⟩
  · intro p hp h0
    have := hall p hp
    omega
  · have : (rr_init ps).processes.countP (fun p => decide (p.remaining_time = 0)) = 0 := by
      rw [List.countP_eq_zero]
      intro p hp
      have := hall p hp
      simp only [decide_eq_true_eq]
      omega
    rw [this]
    simp [rr_init]

/-- When the Round Robin loop has ended in a state satisfying the invariant,
every process has `remaining_time = 0` and its times set. -/
theorem rr_inv_final (st : RrState) (hinv : RrInv st)
    (hc : ¬ (st.completed_processes < st.processes.length)) :
    ∀ p ∈ st.processes, p.remaining_time = 0 ∧
      p.turnaround_time = p.waiting_time + p.burst_time := by
  have hle := List.countP_le_length (fun p : Process => decide (p.remaining_time = 0))
    (l := st.processes)
  have heq : st.processes.countP (fun p => decide (p.remaining_time = 0)) =
      st.processes.length := by
    have := hinv.count
    omega
  have hall := List.countP_eq_length.1 heq
  intro p hp
  have h0 : p.remaining_time = 0 := by simpa using hall p hp
  exact ⟨h0, hinv.times p hp h0⟩

/-! ## Results do not depend on the fuel -/

theorem sjf_scheduling_unique (ps : List Process) (f1 f2 : Nat) (r1 r2 : List Process)
    (h1 : sjf_scheduling f1 ps = some r1) (h2 : sjf_scheduling f2 ps = some r2) : r1 = r2 := by
  simp only [sjf_scheduling, Option.map_eq_some'] at h1 h2
  obtain ⟨s1, hs1, rfl⟩ := h1
  obtain ⟨s2, hs2, rfl⟩ := h2
  have e1 := sjf_loop_mono f1 _ s1 hs1 (max f1 f2) (le_max_left _ _)
  have e2 := sjf_loop_mono f2 _ s2 hs2 (max f1 f2) (le_max_right _ _)
  rw [e1] at e2
  simp only [Option.some.injEq] at e2
  rw [e2]

theorem srt_run_unique (ps : List Process) (f1 f2 : Nat) (r1 r2 : SrtState)
    (h1 : srt_run f1 ps = some r1) (h2 : srt_run f2 ps = some r2) : r1 = r2 := by
  simp only [srt_run] at h1 h2
  have e1 := srt_loop_mono f1 _ r1 h1 (max f1 f2) (le_max_left _ _)
  have e2 := srt_loop_mono f2 _ r2 h2 (max f1 f2) (le_max_right _ _)
  rw [e1] at e2
  simpa using e2

theorem rr_for_mono (q : Int) (fuel : Nat) :
    ∀ (i : Nat) (st r : RrState), rr_for q fuel i st = some r →
      ∀ fuel2, fuel ≤ fuel2 → rr_for q fuel2 i st = some r := by
  induction fuel with
  | zero => intro i st r h; simp [rr_for] at h
  | succ n ih =>
    intro i st r h fuel2 hle
    obtain ⟨m, rfl⟩ : ∃ m, fuel2 = m + 1 := ⟨fuel2 - 1, by omega⟩
    simp only [rr_for] at h ⊢
    split
    · rename_i hi
      rw [dif_pos hi] at h
      exact ih _ _ r h m (by omega)
    · rename_i hi
      rw [dif_neg hi] at h
      exact h

theorem rr_while_mono (q : Int) (fuel : Nat) :
    ∀ (st r : RrState), rr_while q fuel st = some r →
      ∀ fuel2, fuel ≤ fuel2 → rr_while q fuel2 st = some r := by
  induction fuel with
  | zero => intro st r h; simp [rr_while] at h
  | succ n ih =>
    intro st r h fuel2 hle
    obtain ⟨m, rfl⟩ : ∃ m, fuel2 = m + 1 := ⟨fuel2 - 1, by omega⟩
    simp only [rr_while] at h ⊢
    split
    · rename_i hc
      rw [if_pos hc] at h
      cases hf : rr_for q n 0 st with
      | none => rw [hf] at h; simp at h
      | some s2 =>
        rw [hf] at h
        rw [rr_for_mono q n 0 st s2 hf m (by omega)]
        exact ih _ r h m (by omega)
    · rename_i hc
      rw [if_neg hc] at h
      exact h

theorem round_robin_unique (ps : List Process) (q : Int) (f1 f2 : Nat) (r1 r2 : List Process)
    (h1 : round_robin_scheduling f1 ps q = some r1)
    (h2 : round_robin_scheduling f2 ps q = some r2) : r1 = r2 := by
  simp only [round_robin_scheduling, Option.map_eq_some'] at h1 h2
  obtain ⟨s1, hs1, rfl⟩ := h1
  obtain ⟨s2, hs2, rfl⟩ := h2
  have e1 := rr_while_mono q f1 _ s1 hs1 (max f1 f2) (le_max_left _ _)
  have e2 := rr_while_mono q f2 _ s2 hs2 (max f1 f2) (le_max_right _ _)
  rw [e1] at e2
  simp only [Option.some.injEq] at e2
  rw [e2]

theorem reference_loop_mono (q : Int) (fuel : Nat) :
    ∀ (st r : RrState), reference_loop q fuel st = some r →
      ∀ fuel2, fuel ≤ fuel2 → reference_loop q fuel2 st = some r := by
  induction fuel with
  | zero => intro st r h; simp [reference_loop] at h
  | succ n ih =>
    intro st r h fuel2 hle
    obtain ⟨m, rfl⟩ : ∃ m, fuel2 = m + 1 := ⟨fuel2 - 1, by omega⟩
    simp only [reference_loop] at h ⊢
    split
    · rename_i hc
      rw [if_pos hc] at h
      exact ih _ r h m (by omega)
    · rename_i hc
      rw [if_neg hc] at h
      exact h

/-! ## Round Robin: a state from which the loop never ends -/

/-- With an empty ready queue that the arrival scan leaves empty and fewer
than N processes completed, the `while` loop repeats the same state. -/
theorem rr_while_stuck (q : Int) (st : RrState) (hq : st.ready_queue = [])
    (ha : rr_arrival_scan st = st) (hc : st.completed_processes < st.processes.length) :
    ∀ fuel, rr_while q fuel st = none := by
  intro fuel
  induction fuel with
  | zero => rfl
  | succ n ih =>
    simp only [rr_while, if_pos hc]
    cases n with
    | zero => rfl
    | succ m =>
      have : rr_for q (m + 1) 0 st = some st := by
        simp only [rr_for, hq, List.length_nil, Nat.lt_irrefl, dite_false]
      rw [this]
      simp only [ha]
      exact ih

/-! ## First minimum in list order -/

theorem first_min_index (key : Nat → Int) (l : List Nat) (hl : l.Pairwise (· < ·)) (r : Nat)
    (h : min_element (fun x y => decide (key x < key y)) l = some r) :
    ∀ j ∈ l, key j = key r → r ≤ j := by
  obtain ⟨l1, l2, heq, h1, -⟩ := min_element_first key l r h
  intro j hj hk
  rw [heq] at hj hl
  rcases List.mem_append.1 hj with hj | hj
  · have := h1 j hj
    omega
  · rcases List.mem_cons.1 hj with hj | hj
    · omega
    · have h2 := (List.pairwise_append.1 hl).2.1
      have := (List.pairwise_cons.1 h2).1 j hj
      omega

theorem sjf_ready_queue_sorted (st : SjfState) : (sjf_ready_queue st).Pairwise (· < ·) :=
  List.Pairwise.filter _ (List.pairwise_lt_range _)

theorem srt_ready_queue_sorted (st : SrtState) : (srt_ready_queue st).Pairwise (· < ·) :=
  List.Pairwise.filter _ (List.pairwise_lt_range _)

/-! ## SJF: the returned list holds every pid once -/

theorem sjf_completed_perm (st : SjfState) (hinv : SjfInv st)
    (hlen : st.processes.length ≤ st.completed_processes.length) :
    (st.completed_processes.map (fun p => p.pid)).Perm (st.processes.map (fun p => p.pid)) := by
  have hsub : st.completed_processes.map (fun p => p.pid) ⊆ st.processes.map (fun p => p.pid) := by
    intro x hx
    obtain ⟨c, hc, hcx⟩ := List.mem_map.1 hx
    exact List.mem_map.2 ⟨c, hinv.mem c hc, hcx⟩
  exact (List.subperm_of_subset hinv.nodup hsub).perm_of_length_le (by simpa using hlen)

/-! ## Round Robin: a proof rule for the loops -/

theorem rr_for_rule (P : RrState → Prop) (q : Int)
    (hbody : ∀ st i (h : i < st.ready_queue.length), P st → P (rr_body q st i h))
    (fuel : Nat) :
    ∀ (i : Nat) (st r : RrState), P st → rr_for q fuel i st = some r → P r := by
  induction fuel with
  | zero => intro i st r _ h; simp [rr_for] at h
  | succ n ih =>
    intro i st r hinv h
    simp only [rr_for] at h
    split at h
    · rename_i hi
      exact ih _ _ r (hbody st i hi hinv) h
    · simp only [Option.some.injEq] at h
      rw [← h]; exact hinv

/-- Any property kept by the body of the `for` loop and by the arrival scan
holds when the `while` loop ends, and the loop ends only when the guard is
false. -/
theorem rr_while_rule (P : RrState → Prop) (q : Int)
    (hbody : ∀ st i (h : i < st.ready_queue.length), P st → P (rr_body q st i h))
    (hscan : ∀ st, P st → P (rr_arrival_scan st))
    (fuel : Nat) :
    ∀ (st r : RrState), P st → rr_while q fuel st = some r →
      P r ∧ ¬ (r.completed_processes < r.processes.length) := by
  induction fuel with
  | zero => intro st r _ h; simp [rr_while] at h
  | succ n ih =>
    intro st r hinv h
    simp only [rr_while] at h
    split at h
    · cases hf : rr_for q n 0 st with
      | none => rw [hf] at h; simp at h
      | some s2 =>
        rw [hf] at h
        exact ih _ r (hscan _ (rr_for_rule P q hbody n 0 st s2 hinv hf)) h
    · rename_i hc
      simp only [Option.some.injEq] at h
      rw [← h]; exact ⟨hinv, hc⟩

theorem rr_body_length (q : Int) (st : RrState) (i : Nat) (h : i < st.ready_queue.length) :
    (rr_body q st i h).processes.length = st.processes.length := by
  simp only [rr_body]
  split
  · split <;> simp
  · rfl

theorem rr_arrival_scan_length (st : RrState) :
    (rr_arrival_scan st).processes.length = st.processes.length := by
  rw [rr_arrival_scan, (rr_arrival_scan_fold _ st).1]

/-! ## Domination of work vectors -/

theorem dominates_core (U : Finset Nat) (x x2 y y2 : Nat → Int)
    (hx : ∀ i ∈ U, 0 ≤ x i) (hy2 : ∀ i ∈ U, 0 ≤ y2 i)
    (hy : ∀ T : Finset Nat, T ⊆ U → ∑ i ∈ T, y i - 1 ≤ ∑ i ∈ T, y2 i)
    (hstep : (∀ i ∈ U, x i = 0 ∧ x2 i = 0) ∨
      ∃ j ∈ U, 0 < x j ∧ (∀ i ∈ U, 0 < x i → x j ≤ x i) ∧ x2 j = x j - 1 ∧
        ∀ i ∈ U, i ≠ j → x2 i = x i)
    (K K0 : Finset Nat) (hsum : ∑ i ∈ U \ K0, x i ≤ ∑ i ∈ U \ K, y i) :
    ∃ K1 : Finset Nat, K1 ⊆ U ∧ K1.card ≤ K0.card ∧ ∑ i ∈ U \ K1, x2 i ≤ ∑ i ∈ U \ K, y2 i := by
  have hyK : ∑ i ∈ U \ K, y i - 1 ≤ ∑ i ∈ U \ K, y2 i := hy _ Finset.sdiff_subset
  have hy2nn : 0 ≤ ∑ i ∈ U \ K, y2 i :=
    Finset.sum_nonneg (fun i hi => hy2 i (Finset.sdiff_subset hi))
  have hsd : U \ (K0 ∩ U) = U \ K0 := by
    ext i; simp only [Finset.mem_sdiff, Finset.mem_inter]; tauto
  have hcard : (K0 ∩ U).card ≤ K0.card := Finset.card_le_card Finset.inter_subset_left
  rcases hstep with hidle | ⟨j, hjU, hxj, hmin, hx2j, hrest⟩
  · refine ⟨K0 ∩ U, Finset.inter_subset_right, hcard, ?_⟩
    have : ∑ i ∈ U \ (K0 ∩ U), x2 i = 0 :=
      Finset.sum_eq_zero (fun i hi => (hidle i (Finset.sdiff_subset hi)).2)
    rw [this]; exact hy2nn
  · by_cases hjK : j ∈ K0
    · by_cases hm : ∃ m ∈ U \ K0, 0 < x m
      · obtain ⟨m, hmU, hxm⟩ := hm
        have hmU2 : m ∈ U := (Finset.mem_sdiff.1 hmU).1
        have hmK : m ∉ K0 := (Finset.mem_sdiff.1 hmU).2
        have hmj : m ≠ j := fun h => hmK (h ▸ hjK)
        refine ⟨insert m ((K0 ∩ U).erase j), ?_, ?_, ?_⟩
        · intro i hi
          rcases Finset.mem_insert.1 hi with h | h
          · rw [h]; exact hmU2
          · exact Finset.inter_subset_right (Finset.mem_of_mem_erase h)
        · have hjm : j ∈ K0 ∩ U := Finset.mem_inter.2 ⟨hjK, hjU⟩
          have hnm : m ∉ (K0 ∩ U).erase j := fun h =>
            hmK (Finset.inter_subset_left (Finset.mem_of_mem_erase h))
          rw [Finset.card_insert_of_not_mem hnm, Finset.card_erase_of_mem hjm]
          have : 0 < (K0 ∩ U).card := Finset.card_pos.2 ⟨j, hjm⟩
          omega
        · have hset : U \ insert m ((K0 ∩ U).erase j) = insert j ((U \ K0).erase m) := by
            ext i
            simp only [Finset.mem_sdiff, Finset.mem_insert, Finset.mem_erase, Finset.mem_inter]
            constructor
            · rintro ⟨hiU, hni⟩
              by_cases hij : i = j
              · exact Or.inl hij
              · right
                refine ⟨fun h => hni (Or.inl h), hiU, fun h => hni (Or.inr ⟨hij, h, hiU⟩)⟩
            · rintro (h | ⟨h1, h2, h3⟩)
              · subst h
                refine ⟨hjU, ?_⟩
                rintro (h | ⟨h, -⟩)
                · exact hmj h.symm
                · exact h rfl
              · refine ⟨h2, ?_⟩
                rintro (h | ⟨-, h, -⟩)
                · exact h1 h
                · exact h3 h
          have hjn : j ∉ (U \ K0).erase m := fun h =>
            (Finset.mem_sdiff.1 (Finset.mem_of_mem_erase h)).2 hjK
          rw [hset, Finset.sum_insert hjn]
          have hcongr : ∑ i ∈ (U \ K0).erase m, x2 i = ∑ i ∈ (U \ K0).erase m, x i := by
            apply Finset.sum_congr rfl
            intro i hi
            have hiU : i ∈ U := (Finset.mem_sdiff.1 (Finset.mem_of_mem_erase hi)).1
            have hij : i ≠ j := fun h => hjn (h ▸ hi)
            exact hrest i hiU hij
          have herase := Finset.add_sum_erase (U \ K0) x hmU
          have hle := hmin m hmU2 hxm
          rw [hcongr, hx2j]
          omega
      · push_neg at hm
        refine ⟨K0 ∩ U, Finset.inter_subset_right, hcard, ?_⟩
        have : ∑ i ∈ U \ (K0 ∩ U), x2 i = 0 := by
          rw [hsd]
          apply Finset.sum_eq_zero
          intro i hi
          have hiU : i ∈ U := (Finset.mem_sdiff.1 hi).1
          have hij : i ≠ j := fun h => (Finset.mem_sdiff.1 hi).2 (h ▸ hjK)
          rw [hrest i hiU hij]
          have h1 := hm i hi
          have h2 := hx i hiU
          omega
        rw [this]; exact hy2nn
    · refine ⟨K0 ∩ U, Finset.inter_subset_right, hcard, ?_⟩
      rw [hsd]
      have hjm : j ∈ U \ K0 := Finset.mem_sdiff.2 ⟨hjU, hjK⟩
      have e1 := Finset.add_sum_erase (U \ K0) x hjm
      have e2 := Finset.add_sum_erase (U \ K0) x2 hjm
      have hcongr : ∑ i ∈ (U \ K0).erase j, x2 i = ∑ i ∈ (U \ K0).erase j, x i := by
        apply Finset.sum_congr rfl
        intro i hi
        have hiU : i ∈ U := (Finset.mem_sdiff.1 (Finset.mem_of_mem_erase hi)).1
        exact hrest i hiU (Finset.ne_of_mem_erase hi)
      omega

theorem dominates_step (U N : Finset Nat) (hUN : Disjoint U N) (x x2 y y2 : Nat → Int)
    (hx : ∀ i ∈ U, 0 ≤ x i) (hy2 : ∀ i ∈ U, 0 ≤ y2 i)
    (hnew : ∀ i ∈ N, x2 i = y2 i)
    (hy : ∀ T : Finset Nat, T ⊆ U → ∑ i ∈ T, y i - 1 ≤ ∑ i ∈ T, y2 i)
    (hstep : (∀ i ∈ U, x i = 0 ∧ x2 i = 0) ∨
      ∃ j ∈ U, 0 < x j ∧ (∀ i ∈ U, 0 < x i → x j ≤ x i) ∧ x2 j = x j - 1 ∧
        ∀ i ∈ U, i ≠ j → x2 i = x i)
    (hdom : Dominates U x y) : Dominates (U ∪ N) x2 y2 := by
  intro K
  obtain ⟨K0, hK0, hsum⟩ := hdom (K ∩ U)
  have hsd : U \ (K ∩ U) = U \ K := by
    ext i; simp only [Finset.mem_sdiff, Finset.mem_inter]; tauto
  rw [hsd] at hsum
  obtain ⟨K1, hK1U, hK1c, hK1s⟩ := dominates_core U x x2 y y2 hx hy2 hy hstep K K0 hsum
  have hdis : ∀ i, i ∈ U → i ∈ N → False := fun i h1 h2 =>
    Finset.disjoint_left.1 hUN h1 h2
  refine ⟨K1 ∪ (K ∩ N), ?_, ?_⟩
  · have h1 : (K1 ∪ (K ∩ N)).card ≤ K1.card + (K ∩ N).card := Finset.card_union_le _ _
    have h2 : (K ∩ U).card + (K ∩ N).card = ((K ∩ U) ∪ (K ∩ N)).card := by
      rw [Finset.card_union_of_disjoint]
      rw [Finset.disjoint_left]
      intro i hi1 hi2
      exact hdis i (Finset.mem_inter.1 hi1).2 (Finset.mem_inter.1 hi2).2
    have h3 : ((K ∩ U) ∪ (K ∩ N)).card ≤ K.card := by
      apply Finset.card_le_card
      intro i hi
      rcases Finset.mem_union.1 hi with h | h
      · exact (Finset.mem_inter.1 h).1
      · exact (Finset.mem_inter.1 h).1
    omega
  · have hs1 : (U ∪ N) \ (K1 ∪ (K ∩ N)) = (U \ K1) ∪ (N \ K) := by
      ext i
      simp only [Finset.mem_sdiff, Finset.mem_union, Finset.mem_inter]
      constructor
      · rintro ⟨h1 | h1, h2⟩
        · exact Or.inl ⟨h1, fun h => h2 (Or.inl h)⟩
        · exact Or.inr ⟨h1, fun h => h2 (Or.inr ⟨h, h1⟩)⟩
      · rintro (⟨h1, h2⟩ | ⟨h1, h2⟩)
        · refine ⟨Or.inl h1, ?_⟩
          rintro (h | ⟨-, h⟩)
          · exact h2 h
          · exact hdis i h1 h
        · refine ⟨Or.inr h1, ?_⟩
          rintro (h | ⟨h, -⟩)
          · exact hdis i (hK1U h) h1
          · exact h2 h
    have hs2 : (U ∪ N) \ K = (U \ K) ∪ (N \ K) := Finset.union_sdiff_distrib _ _ _
    have hd1 : Disjoint (U \ K1) (N \ K) := by
      rw [Finset.disjoint_left]
      intro i h1 h2
      exact hdis i (Finset.mem_sdiff.1 h1).1 (Finset.mem_sdiff.1 h2).1
    have hd2 : Disjoint (U \ K) (N \ K) := by
      rw [Finset.disjoint_left]
      intro i h1 h2
      exact hdis i (Finset.mem_sdiff.1 h1).1 (Finset.mem_sdiff.1 h2).1
    rw [hs1, hs2, Finset.sum_union hd1, Finset.sum_union hd2]
    have hN : ∑ i ∈ N \ K, x2 i = ∑ i ∈ N \ K, y2 i :=
      Finset.sum_congr rfl (fun i hi => hnew i (Finset.mem_sdiff.1 hi).1)
    omega

/-- Under domination, the jobs with work left are at most as many. -/
theorem dominates_card (U : Finset Nat) (x y : Nat → Int)
    (hx : ∀ i ∈ U, 0 ≤ x i) (hy : ∀ i ∈ U, 0 ≤ y i) (hdom : Dominates U x y) :
    (U.filter (fun i => 0 < x i)).card ≤ (U.filter (fun i => 0 < y i)).card := by
  obtain ⟨K2, hc, hs⟩ := hdom (U.filter (fun i => 0 < y i))
  have hy0 : ∑ i ∈ U \ U.filter (fun i => 0 < y i), y i = 0 := by
    apply Finset.sum_eq_zero
    intro i hi
    simp only [Finset.mem_sdiff, Finset.mem_filter, not_and, not_lt] at hi
    have := hy i hi.1
    have := hi.2 hi.1
    omega
  rw [hy0] at hs
  have hnn : ∀ i ∈ U \ K2, 0 ≤ x i := fun i hi => hx i (Finset.mem_sdiff.1 hi).1
  have hz : ∑ i ∈ U \ K2, x i = 0 := le_antisymm hs (Finset.sum_nonneg hnn)
  have hall := (Finset.sum_eq_zero_iff_of_nonneg hnn).1 hz
  have hsub : U.filter (fun i => 0 < x i) ⊆ K2 := by
    intro i hi
    simp only [Finset.mem_filter] at hi
    by_contra hni
    have := hall i (Finset.mem_sdiff.2 ⟨hi.1, hni⟩)
    omega
  exact le_trans (Finset.card_le_card hsub) hc

/-! ## The plan side -/

theorem plan_remaining_succ (b s t : Int) (hb : 0 ≤ b) :
    plan_remaining b s (t + 1) + (if s ≤ t ∧ t < s + b then 1 else 0) = plan_remaining b s t := by
  simp only [plan_remaining]
  split <;> omega

theorem plan_remaining_nonneg (b s t : Int) (hb : 0 ≤ b) : 0 ≤ plan_remaining b s t := by
  simp only [plan_remaining]; omega

theorem plan_remaining_pos_iff (b s t : Int) (hb : 0 < b) :
    0 < plan_remaining b s t ↔ t < s + b := by
  simp only [plan_remaining]; omega

theorem plan_remaining_before (b s t : Int) (hb : 0 ≤ b) (ht : t ≤ s) :
    plan_remaining b s t = b := by
  simp only [plan_remaining]; omega

theorem time_in_system_succ (a c t : Int) :
    time_in_system a c (t + 1) = time_in_system a c t + (if a ≤ t ∧ t < c then 1 else 0) := by
  simp only [time_in_system]
  split <;> omega

theorem time_in_system_le (a c t : Int) (h : a ≤ c) : time_in_system a c t ≤ c - a := by
  simp only [time_in_system]; omega

theorem sum_indicator_le_one (T : Finset Nat) (r : Nat → Int)
    (h01 : ∀ i ∈ T, r i = 0 ∨ r i = 1)
    (huniq : ∀ i ∈ T, ∀ j ∈ T, r i = 1 → r j = 1 → i = j) :
    ∑ i ∈ T, r i ≤ 1 := by
  by_cases h : ∃ i ∈ T, r i = 1
  · obtain ⟨i0, hi0, hr0⟩ := h
    have hrest : ∑ i ∈ T.erase i0, r i = 0 := by
      apply Finset.sum_eq_zero
      intro i hi
      have hiT := Finset.mem_of_mem_erase hi
      rcases h01 i hiT with h0 | h1
      · exact h0
      · exact absurd (huniq i hiT i0 hi0 h1 hr0) (Finset.ne_of_mem_erase hi)
    have := Finset.add_sum_erase T r hi0
    omega
  · push_neg at h
    have : ∑ i ∈ T, r i = 0 := by
      apply Finset.sum_eq_zero
      intro i hi
      rcases h01 i hi with h0 | h1
      · exact h0
      · exact absurd h1 (h i hi)
    omega

/-- A plan runs at most one unit of work per unit of time. -/
theorem plan_sum_step (ps : List Process) (hb : ∀ p ∈ ps, 0 < p.burst_time) (s : Nat → Int)
    (hplan : Plan ps s) (t : Int) (T : Finset Nat) (hT : T ⊆ Finset.range ps.length) :
    ∑ i ∈ T, plan_remaining (ps.getD i default).burst_time (s i) t - 1 ≤
      ∑ i ∈ T, plan_remaining (ps.getD i default).burst_time (s i) (t + 1) := by
  have hbi : ∀ i ∈ T, 0 < (ps.getD i default).burst_time := by
    intro i hi
    have hlt : i < ps.length := Finset.mem_range.1 (hT hi)
    rw [List.getD_eq_getElem _ _ hlt]
    exact hb _ (List.getElem_mem _)
  have hsplit : ∑ i ∈ T, plan_remaining (ps.getD i default).burst_time (s i) t =
      ∑ i ∈ T, plan_remaining (ps.getD i default).burst_time (s i) (t + 1) +
        ∑ i ∈ T, (if s i ≤ t ∧ t < s i + (ps.getD i default).burst_time then (1 : Int) else 0) := by
    rw [← Finset.sum_add_distrib]
    apply Finset.sum_congr rfl
    intro i hi
    exact (plan_remaining_succ _ _ _ (le_of_lt (hbi i hi))).symm
  have hone : ∑ i ∈ T,
      (if s i ≤ t ∧ t < s i + (ps.getD i default).burst_time then (1 : Int) else 0) ≤ 1 := by
    apply sum_indicator_le_one
    · intro i _
      split
      · exact Or.inr rfl
      · exact Or.inl rfl
    · intro i hi j hj h1 h2
      by_contra hij
      have hi2 : s i ≤ t ∧ t < s i + (ps.getD i default).burst_time := by
        by_contra hc; rw [if_neg hc] at h1; exact absurd h1 (by decide)
      have hj2 : s j ≤ t ∧ t < s j + (ps.getD j default).burst_time := by
        by_contra hc; rw [if_neg hc] at h2; exact absurd h2 (by decide)
      rcases hplan.disjoint i j (Finset.mem_range.1 (hT hi)) (Finset.mem_range.1 (hT hj)) hij
        with h | h <;> omega
  omega

theorem arrived_succ (ps : List Process) (t : Int) :
    arrived ps (t + 1) = arrived ps t ∪
      (Finset.range ps.length).filter (fun i => (ps.getD i default).arrival_time = t + 1) := by
  ext i
  simp only [arrived, Finset.mem_union, Finset.mem_filter, Finset.mem_range]
  constructor
  · rintro ⟨h1, h2⟩
    by_cases h : (ps.getD i default).arrival_time ≤ t
    · exact Or.inl ⟨h1, h⟩
    · exact Or.inr ⟨h1, by omega⟩
  · rintro (⟨h1, h2⟩ | ⟨h1, h2⟩)
    · exact ⟨h1, by omega⟩
    · exact ⟨h1, by omega⟩

theorem arrived_disjoint (ps : List Process) (t : Int) :
    Disjoint (arrived ps t)
      ((Finset.range ps.length).filter (fun i => (ps.getD i default).arrival_time = t + 1)) := by
  rw [Finset.disjoint_left]
  intro i h1 h2
  simp only [arrived, Finset.mem_filter] at h1 h2
  omega

theorem sum_indicator_card (U : Finset Nat) (p : Nat → Prop) [DecidablePred p] :
    ∑ i ∈ U, (if p i then (1 : Int) else 0) = ((U.filter p).card : Int) := by
  rw [Finset.sum_boole]

theorem list_sum_eq_range (l : List Process) (f : Process → Int) :
    (l.map f).sum = ∑ i ∈ Finset.range l.length, f (l.getD i default) := by
  induction l with
  | nil => simp
  | cons a l ih =>
    rw [List.length_cons, Finset.sum_range_succ', List.map_cons, List.sum_cons, ih]
    simp only [List.getD_cons_succ, List.getD_cons_zero]
    omega

/-! ## SRT: one iteration, as a step on the remaining times -/

theorem getD_set_process (l : List Process) (i j : Nat) (p : Process) (hj : j < l.length) :
    (l.set j p).getD i default = if i = j then p else l.getD i default := by
  by_cases h : i = j
  · subst h; simp [hj]
  · have h2 : j ≠ i := fun e => h e.symm
    simp [h, List.getElem?_set_ne h2]

/-- What one iteration of `srt_scheduling` does: the clock advances by one,
and either no arrived process has work left and nothing changes, or an
arrived process of least positive remaining time is run for one unit and,
if this completes it, its turnaround time is set. -/
theorem srt_step_effect (ps : List Process) (hv : Valid ps) (st st2 : SrtState)
    (hinv : SrtInv ps st) (h : srt_step st = some st2) :
    st2.current_time = st.current_time + 1 ∧
    (((∀ i, i < st.processes.length →
          (st.processes.getD i default).arrival_time ≤ st.current_time →
          srt_remaining st i = 0) ∧ st2.processes = st.processes) ∨
      ∃ j p, j < st.processes.length ∧
        (st.processes.getD j default).arrival_time ≤ st.current_time ∧
        0 < srt_remaining st j ∧
        (∀ i, i < st.processes.length →
          (st.processes.getD i default).arrival_time ≤ st.current_time →
          0 < srt_remaining st i → srt_remaining st j ≤ srt_remaining st i) ∧
        st2.processes = st.processes.set j p ∧
        p.remaining_time = srt_remaining st j - 1 ∧
        p.arrival_time = (st.processes.getD j default).arrival_time ∧
        (p.remaining_time = 0 →
          p.turnaround_time = st.current_time + 1 - p.arrival_time)) := by
  have hflag : ∀ i (hi : i < st.processes.length),
      st.is_completed.getD i false = false → 0 < srt_remaining st i := by
    intro i hi hf
    have hr := hinv.rem i hi
    simp only [srt_remaining, List.getD_eq_getElem _ _ hi]
    have : st.processes[i].remaining_time ≠ 0 := by
      intro h0; have := hr.2.2 h0; rw [hf] at this; exact absurd this (by decide)
    omega
  have hflag2 : ∀ i (hi : i < st.processes.length),
      0 < srt_remaining st i → st.is_completed.getD i false = false := by
    intro i hi hpos
    have hr := hinv.rem i hi
    simp only [srt_remaining, List.getD_eq_getElem _ _ hi] at hpos
    cases hc : st.is_completed.getD i false with
    | false => rfl
    | true => have := hr.2.1 hc; omega
  cases hs : srt_select st with
  | none =>
    rw [srt_step_idle st hs] at h
    simp only [Option.some.injEq] at h
    subst h
    refine ⟨rfl, Or.inl ⟨?_, rfl⟩⟩
    intro i hi harr
    have hnr := srt_select_none st hs i hi
    have hnr2 : ¬ (srt_is_ready st i = true) := by simp [hnr]
    rw [srt_is_ready_iff st i hi] at hnr2
    rw [List.getD_eq_getElem _ _ hi] at harr
    have hr := hinv.rem i hi
    by_contra hne
    have hpos : 0 < srt_remaining st i := by
      simp only [srt_remaining, List.getD_eq_getElem _ _ hi] at hne ⊢
      omega
    exact hnr2 ⟨harr, hflag2 i hi hpos⟩
  | some j =>
    obtain ⟨hj, harr, hf⟩ := srt_select_some st j hs
    have hmin : ∀ i, i < st.processes.length →
        (st.processes.getD i default).arrival_time ≤ st.current_time →
        0 < srt_remaining st i → srt_remaining st j ≤ srt_remaining st i := by
      intro i hi hai hpos
      have hmem : i ∈ srt_ready_queue st := by
        simp only [srt_ready_queue, List.mem_filter, List.mem_range]
        refine ⟨hi, ?_⟩
        rw [srt_is_ready_iff st i hi]
        rw [List.getD_eq_getElem _ _ hi] at hai
        exact ⟨hai, hflag2 i hi hpos⟩
      exact min_element_le (fun a => (st.processes.getD a default).remaining_time) _ _ hs i hmem
    have hpj := hflag j hj hf
    by_cases hr : st.processes[j].remaining_time - 1 = 0
    · have hfl : j < st.is_completed.length := by rw [hinv.flags]; exact hj
      rw [srt_step_finish st j hs hj hr (srt_inv_pid ps hv st hinv j hj) hfl] at h
      simp only [Option.some.injEq] at h
      subst h
      refine ⟨rfl, Or.inr ⟨j, _, hj, ?_, hpj, hmin, rfl, ?_, ?_, ?_⟩⟩
      · rw [List.getD_eq_getElem _ _ hj]; exact harr
      · simp only [srt_remaining, List.getD_eq_getElem _ _ hj]
      · simp only [List.getD_eq_getElem _ _ hj]
      · intro _; rfl
    · rw [srt_step_run st j hs hj hr] at h
      simp only [Option.some.injEq] at h
      subst h
      refine ⟨rfl, Or.inr ⟨j, _, hj, ?_, hpj, hmin, rfl, ?_, ?_, ?_⟩⟩
      · rw [List.getD_eq_getElem _ _ hj]; exact harr
      · simp only [srt_remaining, List.getD_eq_getElem _ _ hj]
      · simp only [List.getD_eq_getElem _ _ hj]
      · intro h0; exact absurd h0 hr

theorem srt_inv_static (ps : List Process) (st : SrtState) (hinv : SrtInv ps st) (i : Nat)
    (hi : i < ps.length) :
    i < st.processes.length ∧
    (st.processes.getD i default).arrival_time = (ps.getD i default).arrival_time ∧
    (st.processes.getD i default).burst_time = (ps.getD i default).burst_time := by
  have hl := keys_length ps st.processes hinv.keys
  have hi2 : i < st.processes.length := by omega
  have hk := keys_getElem ps st.processes hinv.keys i hi2 hi
  simp only [Process.key, Prod.mk.injEq] at hk
  rw [List.getD_eq_getElem _ _ hi2, List.getD_eq_getElem _ _ hi]
  exact ⟨hi2, hk.2.1, hk.2.2⟩

theorem srt_remaining_nonneg (ps : List Process) (st : SrtState) (hinv : SrtInv ps st) (i : Nat)
    (hi : i < ps.length) : 0 ≤ srt_remaining st i := by
  obtain ⟨hi2, -, -⟩ := srt_inv_static ps st hinv i hi
  simp only [srt_remaining, List.getD_eq_getElem _ _ hi2]
  exact (hinv.rem i hi2).1

/-- One iteration adds to the time in the system of process `i` one unit
exactly when the process has arrived and has work left. -/
theorem srt_flow_step (ps : List Process) (hv : Valid ps) (st st2 : SrtState)
    (hinv : SrtInv ps st) (h : srt_step st = some st2) (i : Nat) (hi : i < ps.length) :
    srt_flow st2 i = srt_flow st i +
      (if (ps.getD i default).arrival_time ≤ st.current_time ∧ 0 < srt_remaining st i
        then 1 else 0) := by
  obtain ⟨hi2, harr, -⟩ := srt_inv_static ps st hinv i hi
  have hnn := srt_remaining_nonneg ps st hinv i hi
  obtain ⟨ht, hcase⟩ := srt_step_effect ps hv st st2 hinv h
  simp only [srt_remaining] at hnn hcase ⊢
  rcases hcase with ⟨hidle, hsame⟩ | ⟨j, p, hj, haj, hpj, -, hset, hprem, hparr, hpta⟩
  · simp only [srt_flow, hsame, ht]
    by_cases h0 : (st.processes.getD i default).remaining_time = 0
    · simp only [h0, if_true, lt_irrefl, and_false, if_false, add_zero]
    · have hnot : ¬ (st.processes.getD i default).arrival_time ≤ st.current_time :=
        fun hle => h0 (hidle i hi2 hle)
      simp only [h0, if_false]
      rw [← harr]
      split <;> omega
  · by_cases hij : i = j
    · subst hij
      simp only [srt_flow, hset, ht, getD_set_process _ _ _ _ hj, if_true]
      have hne : ¬ ((st.processes.getD i default).remaining_time = 0) := by omega
      have hc : (st.processes.getD i default).arrival_time ≤ st.current_time ∧
          0 < (st.processes.getD i default).remaining_time := ⟨haj, hpj⟩
      rw [if_neg hne, ← harr, if_pos hc]
      by_cases hp0 : p.remaining_time = 0
      · rw [if_pos hp0, hpta hp0, hparr]; omega
      · rw [if_neg hp0, hparr]; omega
    · simp only [srt_flow, hset, ht, getD_set_process _ _ _ _ hj, if_neg hij]
      by_cases h0 : (st.processes.getD i default).remaining_time = 0
      · simp only [h0, if_true, lt_irrefl, and_false, if_false, add_zero]
      · simp only [h0, if_false]
        rw [← harr]
        split <;> omega

/-- The invariant `SrtVsPlan` is kept by one iteration of `srt_scheduling`. -/
theorem srt_vs_plan_step (ps : List Process) (hv : Valid ps) (s : Nat → Int)
    (hplan : Plan ps s) (st st2 : SrtState) (hinv : SrtInv ps st)
    (hvs : SrtVsPlan ps s st) (h : srt_step st = some st2) : SrtVsPlan ps s st2 := by
  have hb : ∀ p ∈ ps, 0 < p.burst_time := fun p hp => (hv.2 p hp).2.1
  have hbi : ∀ i, i < ps.length → 0 < (ps.getD i default).burst_time := by
    intro i hi
    rw [List.getD_eq_getElem _ _ hi]; exact hb _ (List.getElem_mem _)
  have hU : ∀ i, i ∈ arrived ps st.current_time ↔
      i < ps.length ∧ (ps.getD i default).arrival_time ≤ st.current_time := by
    intro i; simp only [arrived, Finset.mem_filter, Finset.mem_range]
  obtain ⟨ht, hcase⟩ := srt_step_effect ps hv st st2 hinv h
  -- the remaining times of processes that are not run do not change
  have hkeep : ∀ i, i < ps.length →
      (¬ ((ps.getD i default).arrival_time ≤ st.current_time ∧ 0 < srt_remaining st i)) →
      srt_remaining st2 i = srt_remaining st i := by
    intro i hi hnot
    obtain ⟨hi2, harr, -⟩ := srt_inv_static ps st hinv i hi
    rcases hcase with ⟨-, hsame⟩ | ⟨j, p, hj, haj, hpj, -, hset, -, -, -⟩
    · simp only [srt_remaining, hsame]
    · have hij : i ≠ j := by
        intro hij; subst hij
        exact hnot ⟨by rw [← harr]; exact haj, hpj⟩
      simp only [srt_remaining, hset, getD_set_process _ _ _ _ hj, if_neg hij]
  refine ⟨?_, ?_, ?_⟩
  · intro i hi hlt
    rw [ht] at hlt
    rw [hkeep i hi (fun hc => by omega)]
    exact hvs.fresh i hi (by omega)
  · rw [ht, arrived_succ]
    apply dominates_step _ _ (arrived_disjoint ps st.current_time)
      (srt_remaining st) (srt_remaining st2)
      (fun i => plan_remaining (ps.getD i default).burst_time (s i) st.current_time)
    · intro i hi
      exact srt_remaining_nonneg ps st hinv i ((hU i).1 hi).1
    · intro i hi
      exact plan_remaining_nonneg _ _ _ (le_of_lt (hbi i ((hU i).1 hi).1))
    · intro i hi
      simp only [Finset.mem_filter, Finset.mem_range] at hi
      rw [hkeep i hi.1 (fun hc => by omega), hvs.fresh i hi.1 (by omega)]
      have := hplan.after_arrival i hi.1
      rw [plan_remaining_before _ _ _ (le_of_lt (hbi i hi.1)) (by omega)]
    · intro T hT
      apply plan_sum_step ps hb s hplan
      intro i hi
      exact Finset.mem_range.2 ((hU i).1 (hT hi)).1
    · rcases hcase with ⟨hidle, hsame⟩ | ⟨j, p, hj, haj, hpj, hmin, hset, hprem, -, -⟩
      · left
        intro i hi
        obtain ⟨hi1, hi3⟩ := (hU i).1 hi
        obtain ⟨hi2, harr, -⟩ := srt_inv_static ps st hinv i hi1
        have h0 := hidle i hi2 (by rw [harr]; exact hi3)
        refine ⟨h0, ?_⟩
        simp only [srt_remaining, hsame] at h0 ⊢
        exact h0
      · right
        have hl := keys_length ps st.processes hinv.keys
        have hj1 : j < ps.length := by omega
        obtain ⟨-, harrj, -⟩ := srt_inv_static ps st hinv j hj1
        refine ⟨j, (hU j).2 ⟨hj1, by rw [← harrj]; exact haj⟩, hpj, ?_, ?_, ?_⟩
        · intro i hi hpos
          obtain ⟨hi1, hi3⟩ := (hU i).1 hi
          obtain ⟨hi2, harr, -⟩ := srt_inv_static ps st hinv i hi1
          exact hmin i hi2 (by rw [harr]; exact hi3) hpos
        · simp only [srt_remaining, hset, getD_set_process _ _ _ _ hj, if_true] at hprem ⊢
          exact hprem
        · intro i _ hij
          simp only [srt_remaining, hset, getD_set_process _ _ _ _ hj, if_neg hij]
    · exact hvs.dom
  · have h1 : ∑ i ∈ Finset.range ps.length, srt_flow st2 i =
        ∑ i ∈ Finset.range ps.length, srt_flow st i +
          (((arrived ps st.current_time).filter (fun i => 0 < srt_remaining st i)).card : Int) := by
      rw [← sum_indicator_card, arrived, Finset.sum_filter, ← Finset.sum_add_distrib]
      apply Finset.sum_congr rfl
      intro i hi
      rw [srt_flow_step ps hv st st2 hinv h i (Finset.mem_range.1 hi)]
      rw [ite_and]
    have h2 : ∑ i ∈ Finset.range ps.length,
          time_in_system (ps.getD i default).arrival_time
            (s i + (ps.getD i default).burst_time) st2.current_time =
        ∑ i ∈ Finset.range ps.length,
          time_in_system (ps.getD i default).arrival_time
            (s i + (ps.getD i default).burst_time) st.current_time +
          (((arrived ps st.current_time).filter (fun i =>
            0 < plan_remaining (ps.getD i default).burst_time (s i) st.current_time)).card :
              Int) := by
      rw [← sum_indicator_card, arrived, Finset.sum_filter, ← Finset.sum_add_distrib, ht]
      apply Finset.sum_congr rfl
      intro i hi
      have hpos := plan_remaining_pos_iff (ps.getD i default).burst_time (s i) st.current_time
        (hbi i (Finset.mem_range.1 hi))
      rw [time_in_system_succ, ite_and]
      simp only [hpos]
    have hcard := dominates_card (arrived ps st.current_time) (srt_remaining st)
      (fun i => plan_remaining (ps.getD i default).burst_time (s i) st.current_time)
      (fun i hi => srt_remaining_nonneg ps st hinv i ((hU i).1 hi).1)
      (fun i hi => plan_remaining_nonneg _ _ _ (le_of_lt (hbi i ((hU i).1 hi).1)))
      hvs.dom
    have hflow := hvs.flow
    rw [h1, h2]
    have : (((arrived ps st.current_time).filter (fun i => 0 < srt_remaining st i)).card : Int) ≤
        (((arrived ps st.current_time).filter (fun i =>
            0 < plan_remaining (ps.getD i default).burst_time (s i) st.current_time)).card :
              Int) := by exact_mod_cast hcard
    omega

theorem valid_getD (ps : List Process) (hv : Valid ps) (i : Nat) (hi : i < ps.length) :
    0 ≤ (ps.getD i default).arrival_time ∧ 0 < (ps.getD i default).burst_time ∧
      (ps.getD i default).remaining_time = (ps.getD i default).burst_time := by
  rw [List.getD_eq_getElem _ _ hi]
  exact hv.2 _ (List.getElem_mem _)

theorem srt_vs_plan_init (ps : List Process) (hv : Valid ps) (s : Nat → Int)
    (hplan : Plan ps s) : SrtVsPlan ps s (srt_init ps) := by
  refine ⟨?_, ?_, ?_⟩
  · intro i hi _
    simp only [srt_remaining, srt_init]
    exact (valid_getD ps hv i hi).2.2
  · intro K
    refine ⟨K, le_refl _, le_of_eq ?_⟩
    apply Finset.sum_congr rfl
    intro i hi
    have hi1 : i < ps.length := by
      have := (Finset.mem_sdiff.1 hi).1
      simp only [arrived, Finset.mem_filter, Finset.mem_range] at this
      exact this.1
    obtain ⟨h1, h2, h3⟩ := valid_getD ps hv i hi1
    have h4 := hplan.after_arrival i hi1
    simp only [srt_remaining, srt_init]
    rw [plan_remaining_before _ _ _ (le_of_lt h2) (by omega), h3]
  · have h0 : ∑ i ∈ Finset.range ps.length, srt_flow (srt_init ps) i = 0 := by
      apply Finset.sum_eq_zero
      intro i hi
      obtain ⟨h1, h2, h3⟩ := valid_getD ps hv i (Finset.mem_range.1 hi)
      simp only [srt_flow, srt_init]
      rw [if_neg (by omega)]
      omega
    rw [h0]
    apply Finset.sum_nonneg
    intro i _
    simp only [time_in_system]
    omega

/-- The total waiting time that `srt_scheduling` computes is at most that of
any non-preemptive plan for the same input. -/
theorem srt_total_le_plan (ps : List Process) (hv : Valid ps) (s : Nat → Int)
    (hplan : Plan ps s) (fuel : Nat) (st : SrtState) (h : srt_run fuel ps = some st) :
    (st.processes.map (fun p => p.waiting_time)).sum ≤
      ∑ i ∈ Finset.range ps.length, (s i - (ps.getD i default).arrival_time) := by
  obtain ⟨⟨hinv, hvs⟩, hc⟩ := srt_loop_rule (fun st => SrtInv ps st ∧ SrtVsPlan ps s st)
    (fun st st2 hP hs => ⟨srt_inv_step ps hv st st2 hP.1 hs,
      srt_vs_plan_step ps hv s hplan st st2 hP.1 hP.2 hs⟩)
    fuel (srt_init ps) st ⟨srt_init_inv ps hv, srt_vs_plan_init ps hv s hplan⟩ h
  have hl := keys_length ps st.processes hinv.keys
  rw [list_sum_eq_range, hl]
  have hflow := hvs.flow
  have h1 : ∑ i ∈ Finset.range ps.length, (st.processes.getD i default).waiting_time =
      ∑ i ∈ Finset.range ps.length, (srt_flow st i - (ps.getD i default).burst_time) := by
    apply Finset.sum_congr rfl
    intro i hi
    have hi1 := Finset.mem_range.1 hi
    obtain ⟨hi2, -, hbu⟩ := srt_inv_static ps st hinv i hi1
    have hrem := (srt_inv_final ps st hinv hc i hi2).2
    have htimes := hinv.times i hi2 hrem
    rw [← hbu]
    simp only [srt_flow, List.getD_eq_getElem _ _ hi2, hrem, if_true]
    omega
  have h2 : ∑ i ∈ Finset.range ps.length,
        time_in_system (ps.getD i default).arrival_time
          (s i + (ps.getD i default).burst_time) st.current_time ≤
      ∑ i ∈ Finset.range ps.length,
        (s i + (ps.getD i default).burst_time - (ps.getD i default).arrival_time) := by
    apply Finset.sum_le_sum
    intro i hi
    have hi1 := Finset.mem_range.1 hi
    obtain ⟨-, hb, -⟩ := valid_getD ps hv i hi1
    have := hplan.after_arrival i hi1
    exact time_in_system_le _ _ _ (by omega)
  rw [h1]
  simp only [Finset.sum_sub_distrib, Finset.sum_add_distrib] at h2 ⊢
  omega

/-! ## SJF: the schedule it records is a non-preemptive plan -/

theorem sjf_completed_perm_records (st : SjfState) (hinv : SjfInv st)
    (hlen : st.processes.length ≤ st.completed_processes.length) :
    st.completed_processes.Perm st.processes := by
  have hnd : st.completed_processes.Nodup := List.Nodup.of_map _ hinv.nodup
  exact (List.subperm_of_subset hnd hinv.mem).perm_of_length_le hlen

theorem sjf_final_plan (ps : List Process) (hv : Valid ps) (fuel : Nat) (sj : SjfState)
    (h : sjf_loop fuel (sjf_init ps) = some sj) :
    Plan ps (sjf_plan sj) ∧
    (sj.completed_processes.map (fun p => p.waiting_time)).sum =
      ∑ i ∈ Finset.range ps.length, (sjf_plan sj i - (ps.getD i default).arrival_time) := by
  have hb : ∀ p ∈ ps, 0 < p.burst_time := fun p hp => (hv.2 p hp).2.1
  obtain ⟨⟨hinv, htimed, hinp⟩, hlen⟩ := sjf_loop_rule
    (fun s => SjfInv s ∧ SjfTimed s ∧ s.processes.map Process.inputs = ps.map Process.inputs)
    (fun s hs => ⟨sjf_step_inv s hs.1, sjf_step_timed s hs.2.1,
      by rw [sjf_step_inputs]; exact hs.2.2⟩)
    fuel (sjf_init ps) sj ⟨sjf_init_inv ps, sjf_init_timed ps hb, rfl⟩ h
  have hperm := sjf_completed_perm_records sj hinv hlen
  have hl : sj.processes.length = ps.length := by simpa using congrArg List.length hinp
  have hstatic : ∀ i (hi : i < ps.length),
      (sj.processes.getD i default).inputs = (ps.getD i default).inputs := by
    intro i hi
    have hi2 : i < sj.processes.length := by omega
    have h1 : (sj.processes.map Process.inputs)[i]? = (ps.map Process.inputs)[i]? := by rw [hinp]
    rw [List.getD_eq_getElem _ _ hi2, List.getD_eq_getElem _ _ hi]
    simpa [List.getElem?_eq_getElem hi2, List.getElem?_eq_getElem hi] using h1
  have hmem : ∀ i, i < ps.length → sj.processes.getD i default ∈ sj.completed_processes := by
    intro i hi
    have hi2 : i < sj.processes.length := by omega
    rw [List.getD_eq_getElem _ _ hi2]
    exact hperm.mem_iff.2 (List.getElem_mem _)
  refine ⟨⟨?_, ?_⟩, ?_⟩
  · intro i hi
    have hd := (htimed.done _ (hmem i hi)).2.1
    have hs := hstatic i hi
    simp only [Process.inputs, Prod.mk.injEq] at hs
    simp only [sjf_plan]
    rw [← hs.2.1]; exact hd
  · intro i j hi hj hij
    have hsi := hstatic i hi
    have hsj := hstatic j hj
    simp only [Process.inputs, Prod.mk.injEq] at hsi hsj
    have hpi := valid_pid ps hv i hi
    have hpj := valid_pid ps hv j hj
    rw [List.getD_eq_getElem _ _ hi] at hsi
    rw [List.getD_eq_getElem _ _ hj] at hsj
    have hne : sj.processes.getD i default ≠ sj.processes.getD j default := by
      intro heq
      have : (sj.processes.getD i default).pid = (sj.processes.getD j default).pid := by rw [heq]
      rw [hsi.1, hsj.1, hpi, hpj] at this
      omega
    have hsym : Symmetric (fun a b : Process => a.finish ≤ b.start ∨ b.finish ≤ a.start) :=
      fun a b hab => hab.symm
    have hpw : sj.completed_processes.Pairwise
        (fun a b : Process => a.finish ≤ b.start ∨ b.finish ≤ a.start) :=
      htimed.ordered.imp (fun hab => Or.inl hab)
    have hdis := hpw.forall hsym (hmem i hi) (hmem j hj) hne
    have hdi := (htimed.done _ (hmem i hi)).2.2
    have hdj := (htimed.done _ (hmem j hj)).2.2
    simp only [sjf_plan, Process.finish, Process.start] at hdis ⊢
    rw [List.getD_eq_getElem _ _ hi, List.getD_eq_getElem _ _ hj, ← hsi.2.2.1, ← hsj.2.2.1]
    omega
  · rw [(hperm.map _).sum_eq, list_sum_eq_range, hl]
    apply Finset.sum_congr rfl
    intro i hi
    have hs := hstatic i (Finset.mem_range.1 hi)
    simp only [Process.inputs, Prod.mk.injEq] at hs
    simp only [sjf_plan, Process.start]
    rw [← hs.2.1]
    omega

theorem sjf_scheduling_length (ps : List Process) (fuel : Nat) (r : List Process)
    (h : sjf_scheduling fuel ps = some r) : r.length = ps.length := by
  simp only [sjf_scheduling, Option.map_eq_some'] at h
  obtain ⟨st, hst, rfl⟩ := h
  obtain ⟨⟨hi, hl⟩, hlen⟩ := sjf_loop_rule
    (fun s => SjfInv s ∧ s.processes.map (fun p => p.pid) = ps.map (fun p => p.pid))
    (fun s hs => ⟨sjf_step_inv s hs.1, by rw [sjf_step_pids]; exact hs.2⟩)
    fuel (sjf_init ps) st ⟨sjf_init_inv ps, rfl⟩ hst
  have hperm := (sjf_completed_perm st hi hlen).length_eq
  have hl2 := congrArg List.length hl
  simp only [List.length_map] at hperm hl2
  omega

theorem srt_scheduling_length (ps : List Process) (hv : Valid ps) (fuel : Nat)
    (r : List Process) (h : srt_scheduling fuel ps = some r) : r.length = ps.length := by
  simp only [srt_scheduling, srt_run, Option.map_eq_some'] at h
  obtain ⟨st, hst, rfl⟩ := h
  obtain ⟨hinv, -⟩ := srt_loop_rule (SrtInv ps) (srt_inv_step ps hv)
    fuel (srt_init ps) st (srt_init_inv ps hv) hst
  exact keys_length ps st.processes hinv.keys

theorem srt_scheduling_returns (ps : List Process) (hv : Valid ps) :
    ∃ N st, ∀ fuel, N ≤ fuel → srt_run fuel ps = some st := by
  obtain ⟨T, hT⟩ := arrival_bound_exists ps
  obtain ⟨st, hst⟩ := srt_loop_terminates ps hv T hT
    (srt_work (srt_init ps) + (T - (srt_init ps).current_time).toNat)
    (srt_init ps) (srt_init_inv ps hv) (le_refl _)
  exact ⟨_, st, fun fuel hf => srt_loop_mono _ _ st hst fuel hf⟩

theorem sum_map_cast (l : List Process) (f : Process → Int) :
    (l.map (fun p => (f p : ℚ))).sum = (((l.map f).sum : Int) : ℚ) := by
  induction l with
  | nil => simp
  | cons a l ih => simp only [List.map_cons, List.sum_cons, ih]; push_cast; rfl

/-! ## FCFS: the pass over the sorted list -/

theorem fcfs_loop_inputs (t : Int) (l : List Process) :
    (fcfs_loop t l).map Process.inputs = l.map Process.inputs := by
  induction l generalizing t with
  | nil => rfl
  | cons a l ih => simp only [fcfs_loop, List.map_cons, ih]; rfl

theorem fcfs_loop_length (t : Int) (l : List Process) : (fcfs_loop t l).length = l.length := by
  simpa using congrArg List.length (fcfs_loop_inputs t l)

theorem fcfs_loop_arrivals (t : Int) (l : List Process) :
    (fcfs_loop t l).map (fun p => p.arrival_time) = l.map (fun p => p.arrival_time) := by
  induction l generalizing t with
  | nil => rfl
  | cons a l ih => simp only [fcfs_loop, List.map_cons, ih]

/-- The pass gives the first process the start `max current_time arrival_time`
and goes on from its finish. -/
theorem fcfs_loop_cons (t : Int) (p : Process) (rest : List Process) :
    ∃ p2, fcfs_loop t (p :: rest) = p2 :: fcfs_loop p2.finish rest ∧
      p2.arrival_time = p.arrival_time ∧ p2.start = max t p.arrival_time ∧
      p2.arrival_time ≤ p2.start ∧ p2.finish = p2.start + p.burst_time := by
  refine ⟨{ p with
      waiting_time := (if t < p.arrival_time then p.arrival_time else t) - p.arrival_time
      turnaround_time :=
        (if t < p.arrival_time then p.arrival_time else t) - p.arrival_time + p.burst_time },
    ?_, rfl, ?_, ?_, ?_⟩
  · simp only [fcfs_loop, Process.finish]
    congr 2
    ring
  · simp only [Process.start]
    split <;> omega
  · simp only [Process.start]
    split <;> omega
  · simp only [Process.finish, Process.start]
    ring

theorem fcfs_loop_waiting_nonneg (t : Int) (l : List Process) :
    ∀ p ∈ fcfs_loop t l, 0 ≤ p.waiting_time := by
  induction l generalizing t with
  | nil => simp [fcfs_loop]
  | cons a l ih =>
    intro p hp
    obtain ⟨p2, heq, -, -, h3, -⟩ := fcfs_loop_cons t a l
    rw [heq] at hp
    rcases List.mem_cons.1 hp with h | h
    · rw [h]; simp only [Process.start] at h3; omega
    · exact ih _ p h

theorem fcfs_loop_chain (t : Int) (l : List Process) :
    (∀ h : 0 < (fcfs_loop t l).length,
      (fcfs_loop t l)[0].start = max t (fcfs_loop t l)[0].arrival_time) ∧
    ∀ i (h : i + 1 < (fcfs_loop t l).length),
      (fcfs_loop t l)[i + 1].start =
        max (fcfs_loop t l)[i + 1].arrival_time (fcfs_loop t l)[i].finish := by
  induction l generalizing t with
  | nil => exact ⟨fun h => absurd h (by simp [fcfs_loop]), fun i h => absurd h (by simp [fcfs_loop])⟩
  | cons a l ih =>
    obtain ⟨p2, heq, h1, h2, -, -⟩ := fcfs_loop_cons t a l
    simp only [heq]
    obtain ⟨ih0, ihs⟩ := ih p2.finish
    constructor
    · intro _
      simp only [List.getElem_cons_zero]
      rw [h2, h1]
    · intro i hi
      cases i with
      | zero =>
        simp only [List.length_cons, Nat.zero_add, Nat.lt_add_left_iff_pos] at hi
        simp only [Nat.zero_add, List.getElem_cons_succ, List.getElem_cons_zero]
        rw [ih0 hi, max_comm]
      | succ j =>
        simp only [List.length_cons, Nat.add_lt_add_iff_right] at hi
        simp only [List.getElem_cons_succ]
        exact ihs j hi

theorem sort_by_arrival_perm (ps : List Process) : (sort_by_arrival ps).Perm ps :=
  List.perm_insertionSort _ ps

theorem sort_by_arrival_sorted (ps : List Process) :
    (sort_by_arrival ps).Pairwise (fun a b => a.arrival_time ≤ b.arrival_time) := by
  haveI : IsTotal Process (fun a b => a.arrival_time ≤ b.arrival_time) :=
    ⟨fun a b => le_total _ _⟩
  haveI : IsTrans Process (fun a b => a.arrival_time ≤ b.arrival_time) :=
    ⟨fun a b c h1 h2 => le_trans h1 h2⟩
  exact List.sorted_insertionSort _ ps

/-- Two lists sorted by arrival time that are permutations of one another and
have pairwise distinct arrival times are equal. -/
theorem sorted_by_arrival_unique (s1 s2 : List Process) (hp : s1.Perm s2)
    (hnd : (s1.map (fun p => p.arrival_time)).Nodup)
    (h1 : s1.Pairwise (fun a b => a.arrival_time ≤ b.arrival_time))
    (h2 : s2.Pairwise (fun a b => a.arrival_time ≤ b.arrival_time)) : s1 = s2 := by
  have hnd2 : (s2.map (fun p => p.arrival_time)).Nodup := (hp.map _).nodup_iff.1 hnd
  have strict : ∀ s : List Process, (s.map (fun p => p.arrival_time)).Nodup →
      s.Pairwise (fun a b => a.arrival_time ≤ b.arrival_time) →
      s.Pairwise (fun a b => a.arrival_time < b.arrival_time) := by
    intro s hn hs
    have hne : s.Pairwise (fun a b => a.arrival_time ≠ b.arrival_time) := by
      have := List.pairwise_map.1 hn
      exact this
    exact (hs.and hne).imp (fun h => lt_of_le_of_ne h.1 h.2)
  haveI : IsAntisymm Process (fun a b => a.arrival_time < b.arrival_time) :=
    ⟨fun a b hab hba => absurd hab (not_lt.2 (le_of_lt hba))⟩
  exact List.eq_of_perm_of_sorted hp (strict s1 hnd h1) (strict s2 hnd2 h2)

/-! ## SJF: the returned list against the input -/

theorem sjf_scheduling_perm (ps : List Process) (fuel : Nat) (r : List Process)
    (h : sjf_scheduling fuel ps = some r) :
    (r.map Process.inputs).Perm (ps.map Process.inputs) := by
  simp only [sjf_scheduling, Option.map_eq_some'] at h
  obtain ⟨st, hst, rfl⟩ := h
  obtain ⟨⟨hinv, hinp⟩, hlen⟩ := sjf_loop_rule
    (fun s => SjfInv s ∧ s.processes.map Process.inputs = ps.map Process.inputs)
    (fun s hs => ⟨sjf_step_inv s hs.1, by rw [sjf_step_inputs]; exact hs.2⟩)
    fuel (sjf_init ps) st ⟨sjf_init_inv ps, rfl⟩ hst
  rw [← hinp]
  exact (sjf_completed_perm_records st hinv hlen).map _

theorem inputs_pids (l : List Process) :
    (l.map Process.inputs).map (fun x => x.1) = l.map (fun p => p.pid) := by
  simp [List.map_map, Function.comp_def, Process.inputs]

/-- A list whose input fields are a permutation of those of `ps`, where the
pids of `ps` are pairwise distinct, has the length of `ps` and holds each pid
of `ps` exactly once. -/
theorem perm_inputs_facts (ps r : List Process) (hnd : (ps.map (fun p => p.pid)).Nodup)
    (hp : (r.map Process.inputs).Perm (ps.map Process.inputs)) :
    r.length = ps.length ∧ ∀ p ∈ ps, (r.map (fun q => q.pid)).count p.pid = 1 := by
  have hl := hp.length_eq
  simp only [List.length_map] at hl
  have hpid : (r.map (fun p => p.pid)).Perm (ps.map (fun p => p.pid)) := by
    rw [← inputs_pids r, ← inputs_pids ps]
    exact hp.map _
  refine ⟨hl, ?_⟩
  intro p hpm
  rw [hpid.count_eq]
  exact List.count_eq_one_of_mem hnd (List.mem_map.2 ⟨p, hpm, rfl⟩)

/-! ## SRT: the ghost log -/

theorem srt_wait_init (ps : List Process) (hv : Valid ps) : SrtWait ps (srt_init ps) := by
  refine ⟨by simp [srt_init], ?_, ?_⟩
  · intro i _
    simp only [srt_init, List.count_nil, Nat.cast_zero]
    omega
  · intro i hi h0
    simp only [srt_init] at hi h0
    have := hv.2 ps[i] (List.getElem_mem hi)
    omega

theorem srt_wait_step (ps : List Process) (hv : Valid ps) (st st2 : SrtState)
    (hinv : SrtInv ps st) (hw : SrtWait ps st) (h : srt_step st = some st2) :
    SrtWait ps st2 := by
  have hl := keys_length ps st.processes hinv.keys
  cases hs : srt_select st with
  | none =>
    rw [srt_step_idle st hs] at h
    simp only [Option.some.injEq] at h
    subst h
    refine ⟨?_, ?_, hw.wait⟩
    · have := hw.len
      simp only [List.length_append, List.length_singleton]
      push_cast
      omega
    · intro i hi
      have := hw.ran i hi
      simp only [count_none_append]
      omega
  | some j =>
    obtain ⟨hj, harr, hf⟩ := srt_select_some st j hs
    have hj1 : j < ps.length := by omega
    obtain ⟨-, hsa, hsb⟩ := srt_inv_static ps st hinv j hj1
    rw [List.getD_eq_getElem _ _ hj] at hsa hsb
    have hranj := hw.ran j hj1
    have hexj := hinv.executed j hj
    have hlen : ((st.executed ++ [some j]).length : Int) = st.current_time + 1 := by
      have := hw.len
      simp only [List.length_append, List.length_singleton]
      push_cast
      omega
    have hran : ∀ i, i < ps.length →
        ((st.executed ++ [some j]).count (some i) : Int) ≤
          max 0 (st.current_time + 1 - (ps.getD i default).arrival_time) := by
      intro i hi
      have := hw.ran i hi
      rw [count_some_append]
      by_cases hij : j = i
      · subst hij
        simp only [if_true]
        push_cast
        omega
      · simp only [if_neg hij]
        push_cast
        omega
    by_cases hr : st.processes[j].remaining_time - 1 = 0
    · have hfl : j < st.is_completed.length := by rw [hinv.flags]; exact hj
      rw [srt_step_finish st j hs hj hr (srt_inv_pid ps hv st hinv j hj) hfl] at h
      simp only [Option.some.injEq] at h
      subst h
      refine ⟨hlen, hran, ?_⟩
      intro i hi
      simp only [List.length_set] at hi
      simp only [List.getElem_set]
      by_cases hij : j = i
      · subst hij
        simp only [if_true]
        intro _
        omega
      · simp only [if_neg hij]
        exact hw.wait i hi
    · rw [srt_step_run st j hs hj hr] at h
      simp only [Option.some.injEq] at h
      subst h
      refine ⟨hlen, hran, ?_⟩
      intro i hi
      simp only [List.length_set] at hi
      simp only [List.getElem_set]
      by_cases hij : j = i
      · subst hij
        simp only [if_true]
        intro h0; exact absurd h0 hr
      · simp only [if_neg hij]
        exact hw.wait i hi

theorem rr_arrival_scan_fold_rule (P : RrState → Prop)
    (hP : ∀ st i, i < st.processes.length → P st → rr_is_new st i = true →
      P { st with ready_queue := st.ready_queue ++ [i] })
    (l : List Nat) (st : RrState) (hl : ∀ i ∈ l, i < st.processes.length) (h : P st) :
    P (l.foldl (fun st i =>
        if rr_is_new st i then { st with ready_queue := st.ready_queue ++ [i] } else st) st) := by
  induction l generalizing st with
  | nil => exact h
  | cons a l ih =>
    simp only [List.foldl_cons]
    by_cases hn : rr_is_new st a = true
    · simp only [hn, if_true]
      apply ih
      · intro i hi; exact hl i (List.mem_cons_of_mem _ hi)
      · exact hP st a (hl a (List.mem_cons_self _ _)) h hn
    · simp only [hn]
      apply ih
      · intro i hi; exact hl i (List.mem_cons_of_mem _ hi)
      · exact h

/-- Any property kept when the arrival scan appends one new process holds
after the scan. -/
theorem rr_arrival_scan_rule (P : RrState → Prop)
    (hP : ∀ st i, i < st.processes.length → P st → rr_is_new st i = true →
      P { st with ready_queue := st.ready_queue ++ [i] })
    (st : RrState) (h : P st) : P (rr_arrival_scan st) :=
  rr_arrival_scan_fold_rule P hP _ st (fun _ hi => List.mem_range.1 hi) h

/-! ## Round Robin: waiting times -/

theorem rr_wait_init (ps : List Process) (hb : ∀ p ∈ ps, 0 < p.burst_time) :
    RrWait (rr_init ps) := by
  refine ⟨?_, ?_, ?_⟩
  · intro p hp
    simp only [rr_init, List.mem_filter, List.mem_range, decide_eq_true_eq] at hp
    refine ⟨hp.1, ?_⟩
    have := hp.2
    rw [List.getD_eq_getElem _ _ hp.1] at this
    exact this
  · intro i hi
    simp only [rr_init, List.getElem_map]
    omega
  · intro i hi h0
    simp only [rr_init, List.length_map] at hi
    simp only [rr_init, List.getElem_map] at h0
    have := hb ps[i] (List.getElem_mem hi)
    omega

theorem rr_wait_scan (st : RrState) (hw : RrWait st) : RrWait (rr_arrival_scan st) := by
  apply rr_arrival_scan_rule RrWait _ st hw
  intro s i hi hs hnew
  refine ⟨?_, hs.ran, hs.wait⟩
  intro p hp
  simp only [List.mem_append, List.mem_singleton] at hp
  rcases hp with hp | hp
  · exact hs.queued p hp
  · subst hp
    refine ⟨hi, ?_⟩
    simp only [rr_is_new, Bool.and_eq_true, decide_eq_true_eq] at hnew
    have := hnew.1.1
    rw [List.getD_eq_getElem _ _ hi] at this
    exact this

theorem rr_wait_body (q : Int) (hq : 0 < q) (st : RrState) (i : Nat)
    (h : i < st.ready_queue.length) (hw : RrWait st) :
    RrWait (rr_body q st i h) := by
  obtain ⟨hptr, harr⟩ := hw.queued st.ready_queue[i] (List.getElem_mem _)
  have hqueue : ∀ (s : RrState) (l : List Nat), s.processes.length = st.processes.length →
      (∀ k (hk : k < s.processes.length) (hk2 : k < st.processes.length),
        s.processes[k].arrival_time = st.processes[k].arrival_time) →
      st.current_time ≤ s.current_time →
      (∀ x ∈ l, x ∈ st.ready_queue) →
      ∀ p ∈ l, ∃ hp : p < s.processes.length, s.processes[p].arrival_time ≤ s.current_time := by
    intro s l hlen hsame ht hsub p hp
    obtain ⟨hp1, hp2⟩ := hw.queued p (hsub p hp)
    refine ⟨by omega, ?_⟩
    rw [hsame p (by omega) hp1]
    omega
  by_cases hpos : st.processes[st.ready_queue[i]].remaining_time > 0
  · have hmin : 1 ≤ min q st.processes[st.ready_queue[i]].remaining_time := by
      have : 1 ≤ q := hq
      omega
    have hminle := min_le_right q st.processes[st.ready_queue[i]].remaining_time
    have hran := hw.ran _ hptr
    by_cases hz : st.processes[st.ready_queue[i]].remaining_time -
        min q st.processes[st.ready_queue[i]].remaining_time = 0
    · simp only [rr_body, List.getD_eq_getElem _ _ hptr, if_pos hpos, if_pos hz]
      refine ⟨?_, ?_, ?_⟩
      · apply hqueue _ _ (by simp)
        · intro k hk hk2
          simp only [List.getElem_set]
          split
          · rename_i hk3; subst hk3; rfl
          · rfl
        · simp only; omega
        · intro x hx
          have := List.mem_of_mem_eraseIdx hx
          split at this
          · rcases List.mem_append.1 this with h1 | h1
            · exact h1
            · rw [List.mem_singleton.1 h1]; exact List.getElem_mem _
          · exact this
      · intro k hk
        simp only [List.length_set] at hk
        simp only [List.getElem_set]
        by_cases hk3 : st.ready_queue[i] = k
        · subst hk3
          simp only [if_true]
          omega
        · simp only [if_neg hk3]
          have := hw.ran k hk
          omega
      · intro k hk
        simp only [List.length_set] at hk
        simp only [List.getElem_set]
        by_cases hk3 : st.ready_queue[i] = k
        · subst hk3
          simp only [if_true]
          intro _
          omega
        · simp only [if_neg hk3]
          exact hw.wait k hk
    · simp only [rr_body, List.getD_eq_getElem _ _ hptr, if_pos hpos, if_neg hz]
      refine ⟨?_, ?_, ?_⟩
      · apply hqueue _ _ (by simp)
        · intro k hk hk2
          simp only [List.getElem_set]
          split
          · rename_i hk3; subst hk3; rfl
          · rfl
        · simp only; omega
        · intro x hx
          have := List.mem_of_mem_eraseIdx hx
          split at this
          · rcases List.mem_append.1 this with h1 | h1
            · exact h1
            · rw [List.mem_singleton.1 h1]; exact List.getElem_mem _
          · exact this
      · intro k hk
        simp only [List.length_set] at hk
        simp only [List.getElem_set]
        by_cases hk3 : st.ready_queue[i] = k
        · subst hk3
          simp only [if_true]
          omega
        · simp only [if_neg hk3]
          have := hw.ran k hk
          omega
      · intro k hk
        simp only [List.length_set] at hk
        simp only [List.getElem_set]
        by_cases hk3 : st.ready_queue[i] = k
        · subst hk3
          simp only [if_true]
          intro h0; exact absurd h0 hz
        · simp only [if_neg hk3]
          exact hw.wait k hk
  · simp only [rr_body, List.getD_eq_getElem _ _ hptr, if_neg hpos]
    refine ⟨?_, hw.ran, hw.wait⟩
    intro p hp
    exact hw.queued p (List.mem_of_mem_eraseIdx hp)

/-! ## Round Robin: the `for` loop stays at index 0 -/

/-- After `i--` and `i++` on the `size_t` index 0 the index is 0 again, so
the `for` loop started at index 0 handles index 0 in every iteration. -/
theorem rr_for_zero (q : Int) (fuel : Nat) (st : RrState) :
    rr_for q (fuel + 1) 0 st =
      if h : 0 < st.ready_queue.length then rr_for q fuel 0 (rr_body q st 0 h) else some st := by
  have h0 : ((0 + (SIZE_T_RANGE - 1)) % SIZE_T_RANGE + 1) % SIZE_T_RANGE = 0 := by
    simp [SIZE_T_RANGE]
  simp only [rr_for, h0]

/-- The body at index 0 when the process at the front has no work left: the
front entry is removed. -/
theorem rr_body_zero_skip (q : Int) (st : RrState) (ptr : Nat) (rest : List Nat)
    (hq : st.ready_queue = ptr :: rest) (h : 0 < st.ready_queue.length)
    (hrem : ¬ (st.processes.getD ptr default).remaining_time > 0) :
    rr_body q st 0 h = { st with ready_queue := rest } := by
  obtain ⟨t, queue, c, procs⟩ := st
  simp only at hq hrem
  subst hq
  simp only [rr_body, List.getElem_cons_zero, if_neg hrem, List.eraseIdx_cons_zero]

/-- The body at index 0 when the slice completes the process at the front. -/
theorem rr_body_zero_finish (q : Int) (st : RrState) (ptr : Nat) (rest : List Nat)
    (hq : st.ready_queue = ptr :: rest) (h : 0 < st.ready_queue.length)
    (hptr : ptr < st.processes.length)
    (hrem : st.processes[ptr].remaining_time > 0)
    (hz : st.processes[ptr].remaining_time - min q st.processes[ptr].remaining_time = 0) :
    rr_body q st 0 h =
      { current_time := st.current_time + min q st.processes[ptr].remaining_time
        ready_queue := rest
        completed_processes := st.completed_processes + 1
        processes := st.processes.set ptr
          { st.processes[ptr] with
            remaining_time :=
              st.processes[ptr].remaining_time - min q st.processes[ptr].remaining_time
            turnaround_time :=
              st.current_time + min q st.processes[ptr].remaining_time -
                st.processes[ptr].arrival_time
            waiting_time :=
              st.current_time + min q st.processes[ptr].remaining_time -
                st.processes[ptr].arrival_time - st.processes[ptr].burst_time } } := by
  obtain ⟨t, queue, c, procs⟩ := st
  simp only at hq hrem hz hptr
  subst hq
  have hnot : ¬ (procs[ptr].remaining_time - min q procs[ptr].remaining_time > 0) := by omega
  simp only [rr_body, List.getElem_cons_zero, List.getD_eq_getElem _ _ hptr, if_pos hrem,
    if_pos hz, getD_set_process _ ptr ptr _ hptr, if_true, if_neg hnot, List.eraseIdx_cons_zero]

/-- The body at index 0 when the process at the front is left unfinished: it
goes to the back of the queue. -/
theorem rr_body_zero_requeue (q : Int) (st : RrState) (ptr : Nat) (rest : List Nat)
    (hq : st.ready_queue = ptr :: rest) (h : 0 < st.ready_queue.length)
    (hptr : ptr < st.processes.length)
    (hrem : st.processes[ptr].remaining_time > 0)
    (hz : ¬ st.processes[ptr].remaining_time - min q st.processes[ptr].remaining_time = 0) :
    rr_body q st 0 h =
      { current_time := st.current_time + min q st.processes[ptr].remaining_time
        ready_queue := rest ++ [ptr]
        completed_processes := st.completed_processes
        processes := st.processes.set ptr
          { st.processes[ptr] with
            remaining_time :=
              st.processes[ptr].remaining_time - min q st.processes[ptr].remaining_time } } := by
  obtain ⟨t, queue, c, procs⟩ := st
  simp only at hq hrem hz hptr
  subst hq
  have hpos : procs[ptr].remaining_time - min q procs[ptr].remaining_time > 0 := by
    have := min_le_right q procs[ptr].remaining_time
    omega
  simp only [rr_body, List.getElem_cons_zero, List.getD_eq_getElem _ _ hptr, if_pos hrem,
    if_neg hz, getD_set_process _ ptr ptr _ hptr, if_true, if_pos hpos, List.cons_append,
    List.eraseIdx_cons_zero]

theorem rr_getD_pos_lt (l : List Process) (p : Nat)
    (h : (l.getD p default).remaining_time > 0) : p < l.length := by
  by_contra hn
  rw [List.getD_eq_default _ _ (by omega)] at h
  exact absurd h (by decide)

/-- The three cases of the body at index 0, in one statement. -/
theorem rr_body_zero_cases (q : Int) (st : RrState) (ptr : Nat) (rest : List Nat)
    (hq : st.ready_queue = ptr :: rest) (h : 0 < st.ready_queue.length) :
    (¬ (st.processes.getD ptr default).remaining_time > 0 ∧
      rr_body q st 0 h = { st with ready_queue := rest }) ∨
    ∃ hptr : ptr < st.processes.length, st.processes[ptr].remaining_time > 0 ∧
      ∃ p2 : Process,
        p2.remaining_time =
          st.processes[ptr].remaining_time - min q st.processes[ptr].remaining_time ∧
        p2.arrival_time = st.processes[ptr].arrival_time ∧
        p2.burst_time = st.processes[ptr].burst_time ∧
        p2.pid = st.processes[ptr].pid ∧
        ((p2.remaining_time = 0 ∧
          rr_body q st 0 h =
            { current_time := st.current_time + min q st.processes[ptr].remaining_time
              ready_queue := rest
              completed_processes := st.completed_processes + 1
              processes := st.processes.set ptr p2 }) ∨
         (0 < p2.remaining_time ∧
          rr_body q st 0 h =
            { current_time := st.current_time + min q st.processes[ptr].remaining_time
              ready_queue := rest ++ [ptr]
              completed_processes := st.completed_processes
              processes := st.processes.set ptr p2 })) := by
  by_cases hrem : (st.processes.getD ptr default).remaining_time > 0
  · right
    have hptr := rr_getD_pos_lt _ _ hrem
    rw [List.getD_eq_getElem _ _ hptr] at hrem
    refine ⟨hptr, hrem, ?_⟩
    by_cases hz : st.processes[ptr].remaining_time - min q st.processes[ptr].remaining_time = 0
    · exact ⟨{ st.processes[ptr] with
          remaining_time :=
            st.processes[ptr].remaining_time - min q st.processes[ptr].remaining_time
          turnaround_time :=
            st.current_time + min q st.processes[ptr].remaining_time -
              st.processes[ptr].arrival_time
          waiting_time :=
            st.current_time + min q st.processes[ptr].remaining_time -
              st.processes[ptr].arrival_time - st.processes[ptr].burst_time },
        rfl, rfl, rfl, rfl, Or.inl ⟨hz, rr_body_zero_finish q st ptr rest hq h hptr hrem hz⟩⟩
    · refine ⟨{ st.processes[ptr] with
          remaining_time :=
            st.processes[ptr].remaining_time - min q st.processes[ptr].remaining_time },
        rfl, rfl, rfl, rfl,
        Or.inr ⟨?_, rr_body_zero_requeue q st ptr rest hq h hptr hrem hz⟩⟩
      have := min_le_right q st.processes[ptr].remaining_time
      simp only
      omega
  · exact Or.inl ⟨hrem, rr_body_zero_skip q st ptr rest hq h hrem⟩

/-! ## Round Robin: the `for` loop drains the queue -/

theorem rr_body_zero_keeps (q : Int) (st : RrState) (h : 0 < st.ready_queue.length) (p : Nat)
    (hp : p ∈ st.ready_queue ∨ (st.processes.getD p default).remaining_time ≤ 0) :
    p ∈ (rr_body q st 0 h).ready_queue ∨
      ((rr_body q st 0 h).processes.getD p default).remaining_time ≤ 0 := by
  obtain ⟨ptr, rest, hq⟩ : ∃ ptr rest, st.ready_queue = ptr :: rest := by
    cases hql : st.ready_queue with
    | nil => rw [hql] at h; exact absurd h (by simp)
    | cons a l => exact ⟨a, l, rfl⟩
  rcases rr_body_zero_cases q st ptr rest hq h with
    ⟨hrem, heq⟩ | ⟨hptr, hrem, p2, hp2, -, -, -, ⟨h0, heq⟩ | ⟨hpos, heq⟩⟩
  · rw [heq]
    simp only
    rcases hp with hp | hp
    · rw [hq] at hp
      rcases List.mem_cons.1 hp with h1 | h1
      · right; rw [h1]; omega
      · exact Or.inl h1
    · exact Or.inr hp
  · rw [heq]
    simp only [getD_set_process _ _ _ _ hptr]
    by_cases hpp : p = ptr
    · right; rw [if_pos hpp]; omega
    · rw [if_neg hpp]
      rcases hp with hp | hp
      · rw [hq] at hp
        rcases List.mem_cons.1 hp with h1 | h1
        · exact absurd h1 hpp
        · exact Or.inl h1
      · exact Or.inr hp
  · rw [heq]
    simp only [getD_set_process _ _ _ _ hptr, List.mem_append, List.mem_singleton]
    by_cases hpp : p = ptr
    · exact Or.inl (Or.inr hpp)
    · rw [if_neg hpp]
      rcases hp with hp | hp
      · rw [hq] at hp
        rcases List.mem_cons.1 hp with h1 | h1
        · exact absurd h1 hpp
        · exact Or.inl (Or.inl h1)
      · exact Or.inr hp

/-- When the `for` loop started at index 0 ends, the ready queue is empty and
every process that has been in it has no work left. -/
theorem rr_for_drains (q : Int) (fuel : Nat) :
    ∀ (st r : RrState) (S : List Nat),
      (∀ p ∈ S, p ∈ st.ready_queue ∨ (st.processes.getD p default).remaining_time ≤ 0) →
      rr_for q fuel 0 st = some r →
      r.ready_queue = [] ∧ ∀ p ∈ S, (r.processes.getD p default).remaining_time ≤ 0 := by
  induction fuel with
  | zero => intro st r S _ h; simp [rr_for] at h
  | succ n ih =>
    intro st r S hS h
    rw [rr_for_zero] at h
    by_cases hlen : 0 < st.ready_queue.length
    · rw [dif_pos hlen] at h
      exact ih _ r S (fun p hp => rr_body_zero_keeps q st hlen p (hS p hp)) h
    · rw [dif_neg hlen] at h
      simp only [Option.some.injEq] at h
      subst h
      have hnil : st.ready_queue = [] := List.length_eq_zero.1 (by omega)
      refine ⟨hnil, ?_⟩
      intro p hp
      rcases hS p hp with h1 | h1
      · rw [hnil] at h1; exact absurd h1 (List.not_mem_nil _)
      · exact h1

/-! ## Round Robin when every process has arrived at time 0 -/

theorem srt_step_count (st st2 : SrtState) (h : srt_step st = some st2) :
    st2.completed + (st2.processes.countP (fun p => decide (1 ≤ p.remaining_time)) : Int) =
      st.completed + (st.processes.countP (fun p => decide (1 ≤ p.remaining_time)) : Int) ∧
    st2.processes.length = st.processes.length := by
  cases hs : srt_select st with
  | none =>
    rw [srt_step_idle st hs] at h
    simp only [Option.some.injEq] at h
    subst h
    exact ⟨rfl, rfl⟩
  | some i =>
    obtain ⟨hi, -, -⟩ := srt_select_some st i hs
    have hle := List.countP_le_length (fun p : Process => decide (1 ≤ p.remaining_time))
      (l := st.processes)
    simp only [srt_step, hs, List.getD_eq_getElem _ _ hi] at h
    split at h
    · rename_i hz
      split at h
      · simp only [Option.some.injEq] at h
        subst h
        simp only [List.length_set, and_true]
        rw [List.countP_set _ _ _ _ hi]
        have h1 : (1 : Int) ≤ st.processes[i].remaining_time := by omega
        have hpos : 0 < st.processes.countP (fun p => decide (1 ≤ p.remaining_time)) :=
          List.countP_pos_iff.2 ⟨_, List.getElem_mem hi, by simpa using h1⟩
        simp only [h1, decide_True, if_true, hz]
        simp only [show ¬ ((1 : Int) ≤ 0) by decide, decide_False, Bool.false_eq_true, if_false]
        omega
      · exact absurd h (by simp)
    · rename_i hz
      simp only [Option.some.injEq] at h
      subst h
      simp only [List.length_set, and_true]
      rw [List.countP_set _ _ _ _ hi]
      by_cases h1 : (1 : Int) ≤ st.processes[i].remaining_time
      · have h2 : (1 : Int) ≤ st.processes[i].remaining_time - 1 := by omega
        have hpos : 0 < st.processes.countP (fun p => decide (1 ≤ p.remaining_time)) :=
          List.countP_pos_iff.2 ⟨_, List.getElem_mem hi, by simpa using h1⟩
        simp only [h1, h2, decide_True, if_true]
        omega
      · have h2 : ¬ (1 : Int) ≤ st.processes[i].remaining_time - 1 := by omega
        simp only [h1, h2, decide_False, Bool.false_eq_true, if_false]
        omega

theorem countP_lt_of_exists (l : List Process) (hbad : ∃ p ∈ l, p.remaining_time ≤ 0) :
    l.countP (fun p => decide (1 ≤ p.remaining_time)) < l.length := by
  have hle := List.countP_le_length (fun p : Process => decide (1 ≤ p.remaining_time)) (l := l)
  have hne : l.countP (fun p => decide (1 ≤ p.remaining_time)) ≠ l.length := by
    intro heq
    obtain ⟨p, hp, hp0⟩ := hbad
    have := List.countP_eq_length.1 heq p hp
    simp only [decide_eq_true_eq] at this
    omega
  omega

/-- An input holding a process whose remaining time is not positive is never
run to the end by `srt_scheduling`. -/
theorem srt_never_returns (ps : List Process) (hbad : ∃ p ∈ ps, p.remaining_time ≤ 0)
    (fuel : Nat) : srt_scheduling fuel ps = none := by
  cases hr : srt_loop fuel (srt_init ps) with
  | none => simp only [srt_scheduling, srt_run, hr, Option.map_none']
  | some r =>
    exfalso
    obtain ⟨⟨hP, hlen⟩, hc⟩ := srt_loop_rule
      (fun s => s.completed + (s.processes.countP (fun p => decide (1 ≤ p.remaining_time)) : Int) =
          (ps.countP (fun p => decide (1 ≤ p.remaining_time)) : Int) ∧
        s.processes.length = ps.length)
      (fun s s2 hs hstep => by
        obtain ⟨h1, h2⟩ := srt_step_count s s2 hstep
        exact ⟨by rw [h1]; exact hs.1, by rw [h2]; exact hs.2⟩)
      fuel (srt_init ps) r ⟨by simp [srt_init], rfl⟩ hr
    have := countP_lt_of_exists ps hbad
    omega

theorem rr_body_count (q : Int) (st : RrState) (i : Nat) (h : i < st.ready_queue.length) :
    (rr_body q st i h).completed_processes +
        ((rr_body q st i h).processes.countP (fun p => decide (1 ≤ p.remaining_time)) : Int) =
      st.completed_processes +
        (st.processes.countP (fun p => decide (1 ≤ p.remaining_time)) : Int) := by
  by_cases hptr : st.ready_queue[i] < st.processes.length
  · by_cases hpos : st.processes[st.ready_queue[i]].remaining_time > 0
    · have h1 : (1 : Int) ≤ st.processes[st.ready_queue[i]].remaining_time := by omega
      have hcp : 0 < st.processes.countP (fun p => decide (1 ≤ p.remaining_time)) :=
        List.countP_pos_iff.2 ⟨_, List.getElem_mem hptr, by simpa using h1⟩
      have hminle := min_le_right q st.processes[st.ready_queue[i]].remaining_time
      by_cases hz : st.processes[st.ready_queue[i]].remaining_time -
          min q st.processes[st.ready_queue[i]].remaining_time = 0
      · simp only [rr_body, List.getD_eq_getElem _ _ hptr, if_pos hpos, if_pos hz]
        rw [List.countP_set _ _ _ _ hptr]
        simp only [h1, decide_True, if_true, hz]
        simp only [show ¬ ((1 : Int) ≤ 0) by decide, decide_False, Bool.false_eq_true, if_false]
        omega
      · simp only [rr_body, List.getD_eq_getElem _ _ hptr, if_pos hpos, if_neg hz]
        rw [List.countP_set _ _ _ _ hptr]
        have h2 : (1 : Int) ≤ st.processes[st.ready_queue[i]].remaining_time -
            min q st.processes[st.ready_queue[i]].remaining_time := by omega
        simp only [h1, h2, decide_True, if_true]
        omega
    · simp only [rr_body, List.getD_eq_getElem _ _ hptr, if_neg hpos]
  · have hd : st.processes.getD st.ready_queue[i] default = default :=
      List.getD_eq_default _ _ (by omega)
    have hz : ¬ ((default : Process).remaining_time > 0) := by decide
    simp only [rr_body, hd, if_neg hz]

/-- An input holding a process whose burst time is not positive is never run
to the end by `round_robin_scheduling`. -/
theorem rr_never_returns (ps : List Process) (q : Int) (hbad : ∃ p ∈ ps, p.burst_time ≤ 0)
    (fuel : Nat) : round_robin_scheduling fuel ps q = none := by
  cases hr : rr_while q fuel (rr_init ps) with
  | none => simp only [round_robin_scheduling, hr, Option.map_none']
  | some r =>
    exfalso
    obtain ⟨⟨hP, hlen⟩, hc⟩ := rr_while_rule
      (fun s => s.completed_processes +
          (s.processes.countP (fun p => decide (1 ≤ p.remaining_time)) : Int) =
          ((rr_init ps).processes.countP (fun p => decide (1 ≤ p.remaining_time)) : Int) ∧
        s.processes.length = ps.length) q
      (fun s i h hs => ⟨by rw [rr_body_count]; exact hs.1, by rw [rr_body_length]; exact hs.2⟩)
      (fun s hs => by
        obtain ⟨h1, h2, -⟩ := rr_arrival_scan_fold (List.range s.processes.length) s
        exact ⟨by rw [rr_arrival_scan, h1, h2]; exact hs.1, by rw [rr_arrival_scan, h1]; exact hs.2⟩)
      fuel (rr_init ps) r ⟨by simp [rr_init], by simp [rr_init]⟩ hr
    have hbad2 : ∃ p ∈ (rr_init ps).processes, p.remaining_time ≤ 0 := by
      obtain ⟨p, hp, hp0⟩ := hbad
      exact ⟨{ p with remaining_time := p.burst_time },
        by simp only [rr_init, List.mem_map]; exact ⟨p, hp, rfl⟩, hp0⟩
    have := countP_lt_of_exists _ hbad2
    have hl : (rr_init ps).processes.length = ps.length := by simp [rr_init]
    omega

/-! ## SRT: the schedule of a whole run -/

theorem snoc_decomp {α : Type} (T : List α) (x : α) (A : List α) (y : α) (C : List α)
    (h : T ++ [x] = A ++ y :: C) :
    (C = [] ∧ y = x ∧ T = A) ∨ ∃ C2, C = C2 ++ [x] ∧ T = A ++ y :: C2 := by
  rcases List.eq_nil_or_concat C with hC | ⟨C2, b, hC⟩
  · subst hC
    have := List.append_inj' h rfl
    left
    refine ⟨rfl, ?_, this.1⟩
    have h2 := this.2
    simp only [List.cons.injEq, and_true] at h2
    exact h2.symm
  · subst hC
    have h2 : T ++ [x] = (A ++ y :: C2) ++ [b] := by
      rw [h]; simp
    have := List.append_inj' h2 rfl
    right
    have h3 := this.2
    simp only [List.cons.injEq, and_true] at h3
    exact ⟨C2, by rw [h3]; simp, this.1⟩

theorem nodup_length_le (Q : List Nat) (N : Nat) (hnd : Q.Nodup) (hv : ∀ p ∈ Q, p < N) :
    Q.length ≤ N := by
  have := (List.subperm_of_subset hnd (fun p hp => List.mem_range.2 (hv p hp))).length_le
  simpa using this

theorem rr_slice_zero (q : Int) (st : RrState) (ptr : Nat) (rest : List Nat)
    (hq : st.ready_queue = ptr :: rest) (h : 0 < st.ready_queue.length) :
    rr_slice q st 0 h =
      if (st.processes.getD ptr default).remaining_time > 0 then
        [{ ptr := ptr, start := st.current_time,
           finish := st.current_time + min q (st.processes.getD ptr default).remaining_time }]
      else [] := by
  obtain ⟨t, queue, c, procs⟩ := st
  simp only at hq
  subst hq
  simp only [rr_slice, List.getElem_cons_zero]

theorem rr_for_slices_zero (q : Int) (fuel : Nat) (st : RrState) :
    rr_for_slices q (fuel + 1) 0 st =
      if h : 0 < st.ready_queue.length then
        rr_slice q st 0 h ++ rr_for_slices q fuel 0 (rr_body q st 0 h)
      else [] := by
  have h0 : ((0 + (SIZE_T_RANGE - 1)) % SIZE_T_RANGE + 1) % SIZE_T_RANGE = 0 := by
    simp [SIZE_T_RANGE]
  simp only [rr_for_slices, h0]

theorem getElem?_tail_of_ne (ptr p : Nat) (rest : List Nat) (j : Nat) (hne : p ≠ ptr)
    (h : rest[j]? = some p ∨ (rest ++ [ptr])[j]? = some p) :
    (ptr :: rest)[j + 1]? = some p := by
  simp only [List.getElem?_cons_succ]
  rcases h with h | h
  · exact h
  · by_cases hj : j < rest.length
    · rw [List.getElem?_append_left hj] at h; exact h
    · rw [List.getElem?_append_right (by omega)] at h
      by_cases hj2 : j - rest.length = 0
      · rw [hj2] at h
        simp only [List.getElem?_cons_zero, Option.some.injEq] at h
        exact absurd h.symm hne
      · obtain ⟨m, hm⟩ : ∃ m, j - rest.length = m + 1 := ⟨j - rest.length - 1, by omega⟩
        rw [hm] at h
        simp at h

theorem rr_fair_init (q : Int) (ps : List Process) : RrFair q [] (rr_init ps) := by
  refine ⟨?_, ?_, ?_, ?_, ?_⟩
  · intro T1 s1 T2 s2 T3 h
    simp at h
  · simp only [rr_init]
    exact (List.nodup_range _).filter _
  · intro p hp
    simp only [rr_init, List.mem_filter, List.mem_range] at hp
    simpa [rr_init] using hp.1
  · intro s hs
    simp at hs
  · intro T1 s1 T2 h
    simp at h

theorem rr_fair_body (q : Int) (hq : 0 < q) (T : List Slice) (st : RrState)
    (h : 0 < st.ready_queue.length) (hf : RrFair q T st) :
    RrFair q (T ++ rr_slice q st 0 h) (rr_body q st 0 h) := by
  obtain ⟨ptr, rest, hqueue⟩ : ∃ ptr rest, st.ready_queue = ptr :: rest := by
    cases hst : st.ready_queue with
    | nil => rw [hst] at h; simp at h
    | cons a l => exact ⟨a, l, rfl⟩
  have hnd := hf.nodup
  rw [hqueue] at hnd
  have hnotin : ptr ∉ rest := (List.nodup_cons.1 hnd).1
  have hrest : rest.Nodup := (List.nodup_cons.1 hnd).2
  have hvalid : ∀ p ∈ ptr :: rest, p < st.processes.length := by
    intro p hp; exact hf.valid p (by rw [hqueue]; exact hp)
  rw [rr_slice_zero q st ptr rest hqueue h]
  rcases rr_body_zero_cases q st ptr rest hqueue h with ⟨hrem, heq⟩ | ⟨hptr, hrem, p2, hp2, -, -, -, hcase⟩
  · rw [heq, if_neg hrem, List.append_nil]
    refine ⟨hf.fair, hrest, fun p hp => hvalid p (List.mem_cons_of_mem _ hp), ?_, ?_⟩
    · intro s hs
      rcases hf.seen s hs with hin | hno
      · rw [hqueue] at hin
        rcases List.mem_cons.1 hin with he | hin
        · right; rw [he]; exact hrem
        · left; exact hin
      · right; exact hno
    · intro T1 s1 T2 hT hT2 j hj
      have := hf.last T1 s1 T2 hT hT2 (j + 1) (by rw [hqueue]; simpa using hj)
      have e : ((j + 1 : Nat) : Int) * q = (j : Int) * q + q := by push_cast; ring
      simp only at hj ⊢
      linarith
  · have hgetD : st.processes.getD ptr default = st.processes[ptr] :=
      List.getD_eq_getElem _ _ hptr
    have hrem2 : (st.processes.getD ptr default).remaining_time > 0 := by rw [hgetD]; exact hrem
    rw [if_pos hrem2, hgetD]
    have hlen : min q st.processes[ptr].remaining_time ≤ q := min_le_left _ _
    -- the fairness of the extended trace, common to both cases
    have hfair : ∀ s0 : Slice, s0.ptr = ptr → s0.start = st.current_time →
        FairSlices (((st.processes.length : Int) - 1) * q) (T ++ [s0]) := by
      intro s0 hs0 hs0t T1 s1 T2 s2 T3 hT hptrs hT2
      have hT3 : T ++ [s0] = (T1 ++ s1 :: T2) ++ s2 :: T3 := by rw [hT]; simp
      rcases snoc_decomp _ _ _ _ _ hT3 with ⟨-, hs2, hTe⟩ | ⟨C2, hC, hTe⟩
      · have := hf.last T1 s1 T2 hTe hT2 0
          (by rw [hqueue, hptrs, hs2, hs0]; simp)
        rw [hs2, hs0t]
        simp only [Nat.cast_zero, zero_mul, add_zero] at this
        exact this
      · exact hf.fair T1 s1 T2 s2 C2 (by rw [hTe]; simp) hptrs hT2
    have hseen_old : ∀ s ∈ T, s.ptr ≠ ptr →
        s.ptr ∈ rest ∨ ¬ ((st.processes.set ptr p2).getD s.ptr default).remaining_time > 0 := by
      intro s hs hne
      rcases hf.seen s hs with hin | hno
      · rw [hqueue] at hin
        rcases List.mem_cons.1 hin with he | hin
        · exact absurd he hne
        · left; exact hin
      · right
        rw [getD_set_process _ _ _ _ hptr, if_neg hne]; exact hno
    have hlast_old : ∀ T1 s1 C2, T = T1 ++ s1 :: C2 → (∀ s ∈ C2, s.ptr ≠ s1.ptr) →
        s1.ptr ≠ ptr → ∀ j : Nat, (rest[j]? = some s1.ptr ∨ (rest ++ [ptr])[j]? = some s1.ptr) →
        (st.current_time + min q st.processes[ptr].remaining_time - s1.finish) +
          (j : Int) * q ≤ ((st.processes.length : Int) - 1) * q := by
      intro T1 s1 C2 hTe hC2 hne j hj
      have := hf.last T1 s1 C2 hTe hC2 (j + 1)
        (by rw [hqueue]; exact getElem?_tail_of_ne ptr s1.ptr rest j hne hj)
      have e : ((j + 1 : Nat) : Int) * q = (j : Int) * q + q := by push_cast; ring
      linarith
    rcases hcase with ⟨hz, heq⟩ | ⟨hpos, heq⟩
    · rw [heq]
      refine ⟨?_, hrest, ?_, ?_, ?_⟩
      · simpa using hfair _ rfl rfl
      · intro p hp
        simpa using hvalid p (List.mem_cons_of_mem _ hp)
      · intro s hs
        by_cases hne : s.ptr = ptr
        · right
          simp only
          rw [hne, getD_set_process _ _ _ _ hptr, if_pos rfl, hz]
          decide
        · rcases List.mem_append.1 hs with hs | hs
          · exact hseen_old s hs hne
          · simp only [List.mem_singleton] at hs
            rw [hs] at hne
            exact absurd rfl hne
      · intro T1 s1 T2 hT hT2 j hj
        simp only at hj
        simp only [List.length_set]
        rcases snoc_decomp _ _ _ _ _ hT with ⟨-, hs1, hTe⟩ | ⟨C2, hC, hTe⟩
        · rw [hs1] at hj
          exact absurd (List.getElem?_mem hj) hnotin
        · have hne : s1.ptr ≠ ptr := by
            have := hT2 _ (by rw [hC]; exact List.mem_append_right _ (List.mem_singleton_self _))
            exact fun e => this e.symm
          exact hlast_old T1 s1 C2 hTe
            (fun s hs => hT2 s (by rw [hC]; exact List.mem_append_left _ hs)) hne j (Or.inl hj)
    · rw [heq]
      have hnd2 : (rest ++ [ptr]).Nodup := by
        rw [List.nodup_append]
        refine ⟨hrest, List.nodup_singleton _, ?_⟩
        intro a ha hb
        simp only [List.mem_singleton] at hb
        rw [hb] at ha
        exact hnotin ha
      have hvalid2 : ∀ p ∈ rest ++ [ptr], p < st.processes.length := by
        intro p hp
        rcases List.mem_append.1 hp with hp | hp
        · exact hvalid p (List.mem_cons_of_mem _ hp)
        · simp only [List.mem_singleton] at hp
          rw [hp]; exact hptr
      refine ⟨?_, hnd2, ?_, ?_, ?_⟩
      · simpa using hfair _ rfl rfl
      · intro p hp
        simpa using hvalid2 p hp
      · intro s hs
        by_cases hne : s.ptr = ptr
        · left
          simp only
          rw [hne]
          exact List.mem_append_right _ (List.mem_singleton_self _)
        · rcases List.mem_append.1 hs with hs | hs
          · rcases hseen_old s hs hne with h1 | h1
            · left; exact List.mem_append_left _ h1
            · right; exact h1
          · simp only [List.mem_singleton] at hs
            rw [hs] at hne
            exact absurd rfl hne
      · intro T1 s1 T2 hT hT2 j hj
        simp only at hj
        simp only [List.length_set]
        rcases snoc_decomp _ _ _ _ _ hT with ⟨-, hs1, hTe⟩ | ⟨C2, hC, hTe⟩
        · rw [hs1]
          simp only
          have hjlt : j < (rest ++ [ptr]).length := by
            by_contra hcon
            rw [List.getElem?_eq_none (by omega)] at hj
            exact Option.noConfusion hj
          have hle := nodup_length_le _ _ hnd2 hvalid2
          have hj2 : (j : Int) ≤ (st.processes.length : Int) - 1 := by omega
          have := mul_le_mul_of_nonneg_right hj2 (le_of_lt hq)
          linarith
        · have hne : s1.ptr ≠ ptr := by
            have := hT2 _ (by rw [hC]; exact List.mem_append_right _ (List.mem_singleton_self _))
            exact fun e => this e.symm
          exact hlast_old T1 s1 C2 hTe
            (fun s hs => hT2 s (by rw [hC]; exact List.mem_append_left _ hs)) hne j (Or.inr hj)

theorem rr_fair_scan (q : Int) (T : List Slice) (st : RrState) (hf : RrFair q T st) :
    RrFair q T (rr_arrival_scan st) := by
  refine rr_arrival_scan_rule (RrFair q T) ?_ st hf
  intro st i hi hf hnew
  simp only [rr_is_new, Bool.and_eq_true, decide_eq_true_eq, Bool.not_eq_true',
    List.any_eq_false] at hnew
  obtain ⟨⟨-, hany⟩, hrem⟩ := hnew
  have hnotin : i ∉ st.ready_queue := by
    intro hin
    have := hany i hin
    simp at this
  refine ⟨hf.fair, ?_, ?_, ?_, ?_⟩
  · simp only
    rw [List.nodup_append]
    refine ⟨hf.nodup, List.nodup_singleton _, ?_⟩
    intro a ha hb
    simp only [List.mem_singleton] at hb
    rw [hb] at ha
    exact hnotin ha
  · intro p hp
    simp only at hp ⊢
    rcases List.mem_append.1 hp with hp | hp
    · exact hf.valid p hp
    · simp only [List.mem_singleton] at hp
      rw [hp]; exact hi
  · intro s hs
    rcases hf.seen s hs with h1 | h1
    · left; exact List.mem_append_left _ h1
    · right; exact h1
  · intro T1 s1 T2 hT hT2 j hj
    simp only at hj ⊢
    by_cases hjlt : j < st.ready_queue.length
    · rw [List.getElem?_append_left hjlt] at hj
      exact hf.last T1 s1 T2 hT hT2 j hj
    · exfalso
      rw [List.getElem?_append_right (by omega)] at hj
      have hmem : s1.ptr ∈ [i] := List.getElem?_mem hj
      simp only [List.mem_singleton] at hmem
      have hs1 : s1 ∈ T := by rw [hT]; simp
      rcases hf.seen s1 hs1 with h1 | h1
      · rw [hmem] at h1; exact hnotin h1
      · rw [hmem] at h1; exact h1 hrem

theorem rr_fair_for (q : Int) (hq : 0 < q) (N : Nat) (fuel : Nat) :
    ∀ (st : RrState) (T : List Slice), st.processes.length = N → RrFair q T st →
      FairSlices (((N : Int) - 1) * q) (T ++ rr_for_slices q fuel 0 st) ∧
      ∀ r, rr_for q fuel 0 st = some r →
        r.processes.length = N ∧ RrFair q (T ++ rr_for_slices q fuel 0 st) r := by
  induction fuel with
  | zero =>
    intro st T hN hf
    refine ⟨?_, ?_⟩
    · simp only [rr_for_slices, List.append_nil]
      rw [← hN]; exact hf.fair
    · intro r hr; simp [rr_for] at hr
  | succ n ih =>
    intro st T hN hf
    rw [rr_for_slices_zero, rr_for_zero]
    by_cases h : 0 < st.ready_queue.length
    · rw [dif_pos h, dif_pos h, ← List.append_assoc]
      exact ih _ _ (by rw [rr_body_length, hN]) (rr_fair_body q hq T st h hf)
    · rw [dif_neg h, dif_neg h, List.append_nil]
      refine ⟨by rw [← hN]; exact hf.fair, ?_⟩
      intro r hr
      simp only [Option.some.injEq] at hr
      rw [← hr]
      exact ⟨hN, hf⟩

theorem rr_fair_while (q : Int) (hq : 0 < q) (N : Nat) (fuel : Nat) :
    ∀ (st : RrState) (T : List Slice), st.processes.length = N → RrFair q T st →
      FairSlices (((N : Int) - 1) * q) (T ++ rr_while_slices q fuel st) := by
  induction fuel with
  | zero =>
    intro st T hN hf
    simp only [rr_while_slices, List.append_nil]
    rw [← hN]; exact hf.fair
  | succ n ih =>
    intro st T hN hf
    simp only [rr_while_slices]
    by_cases hc : st.completed_processes < st.processes.length
    · rw [if_pos hc]
      obtain ⟨hfor, hret⟩ := rr_fair_for q hq N n st T hN hf
      cases hr : rr_for q n 0 st with
      | none => simpa using hfor
      | some r =>
        obtain ⟨hlen, hfr⟩ := hret r hr
        simp only
        rw [← List.append_assoc]
        exact ih _ _ (by rw [rr_arrival_scan_length, hlen]) (rr_fair_scan q _ r hfr)
    · rw [if_neg hc, List.append_nil]
      rw [← hN]; exact hf.fair

theorem rr_slice_bounds (q : Int) (hq : 0 < q) (st : RrState) (i : Nat)
    (h : i < st.ready_queue.length) :
    ∀ s ∈ rr_slice q st i h, s.start < s.finish ∧ s.finish - s.start ≤ q := by
  intro s hs
  simp only [rr_slice] at hs
  split at hs
  · rename_i hrem
    simp only [List.mem_singleton] at hs
    rw [hs]
    simp only
    have h1 : min q (st.processes.getD st.ready_queue[i] default).remaining_time ≤ q :=
      min_le_left _ _
    have h2 : 0 < min q (st.processes.getD st.ready_queue[i] default).remaining_time :=
      lt_min hq hrem
    constructor <;> linarith
  · simp at hs

theorem rr_for_slices_bounds (q : Int) (hq : 0 < q) (fuel : Nat) :
    ∀ (i : Nat) (st : RrState), ∀ s ∈ rr_for_slices q fuel i st,
      s.start < s.finish ∧ s.finish - s.start ≤ q := by
  induction fuel with
  | zero => intro i st s hs; simp [rr_for_slices] at hs
  | succ n ih =>
    intro i st s hs
    simp only [rr_for_slices] at hs
    split at hs
    · rename_i h
      rcases List.mem_append.1 hs with hs | hs
      · exact rr_slice_bounds q hq st i h s hs
      · exact ih _ _ s hs
    · simp at hs

theorem rr_while_slices_bounds (q : Int) (hq : 0 < q) (fuel : Nat) :
    ∀ (st : RrState), ∀ s ∈ rr_while_slices q fuel st,
      s.start < s.finish ∧ s.finish - s.start ≤ q := by
  induction fuel with
  | zero => intro st s hs; simp [rr_while_slices] at hs
  | succ n ih =>
    intro st s hs
    simp only [rr_while_slices] at hs
    split at hs
    · rcases List.mem_append.1 hs with hs | hs
      · exact rr_for_slices_bounds q hq n 0 st s hs
      · split at hs
        · exact ih _ s hs
        · simp at hs
    · simp at hs

/-! ## The schedulers over the integers: times and order -/

/-- Over the integers: for each of the four schedulers and every valid input with a positive
quantum, whenever the scheduler returns, its result has one record per input
process and every record satisfies
`turnaround_time = waiting_time + burst_time`. -/
theorem turnaround_eq_waiting_plus_burst (ps : List Process) (time_quantum : Int)
    (hv : Valid ps) (hq : 0 < time_quantum) :
    ((fcfs_scheduling ps).length = ps.length ∧
      ∀ p ∈ fcfs_scheduling ps, p.turnaround_time = p.waiting_time + p.burst_time) ∧
    (∀ fuel r, sjf_scheduling fuel ps = some r →
      r.length = ps.length ∧
        ∀ p ∈ r, p.turnaround_time = p.waiting_time + p.burst_time) ∧
    (∀ fuel r, srt_scheduling fuel ps = some r →
      r.length = ps.length ∧
        ∀ p ∈ r, p.turnaround_time = p.waiting_time + p.burst_time) ∧
    (∀ fuel r, round_robin_scheduling fuel ps time_quantum = some r →
      r.length = ps.length ∧
        ∀ p ∈ r, p.turnaround_time = p.waiting_time + p.burst_time) := by
  have _ := hq
  have hb : ∀ p ∈ ps, 0 < p.burst_time := fun p hp => (hv.2 p hp).2.1
  refine ⟨⟨?_, fcfs_loop_turnaround 0 _⟩, ?_, ?_, ?_⟩
  · have hlen : ∀ (t : Int) (l : List Process), (fcfs_loop t l).length = l.length := by
      intro t l
      induction l generalizing t with
      | nil => rfl
      | cons a l ih => simp [fcfs_loop, ih]
    simp [fcfs_scheduling, hlen, sort_by_arrival, List.length_insertionSort]
  · intro fuel r h
    obtain ⟨h1, h2, -⟩ := sjf_scheduling_timed ps fuel r hb h
    refine ⟨?_, fun p hp => (h2 p hp).2⟩
    simp only [sjf_scheduling, Option.map_eq_some'] at h
    obtain ⟨st, hst, rfl⟩ := h
    obtain ⟨⟨hi, hl⟩, hlen⟩ := sjf_loop_rule
      (fun s => SjfInv s ∧ s.processes.map (fun p => p.pid) = ps.map (fun p => p.pid))
      (fun s hs => ⟨sjf_step_inv s hs.1, by rw [sjf_step_pids]; exact hs.2⟩)
      fuel (sjf_init ps) st ⟨sjf_init_inv ps, rfl⟩ hst
    have hperm := (sjf_completed_perm st hi hlen).length_eq
    have hl2 := congrArg List.length hl
    simp only [List.length_map] at hperm hl2
    omega
  · intro fuel r h
    simp only [srt_scheduling, srt_run, Option.map_eq_some'] at h
    obtain ⟨st, hst, rfl⟩ := h
    obtain ⟨hinv, hc⟩ := srt_loop_rule (SrtInv ps) (srt_inv_step ps hv)
      fuel (srt_init ps) st (srt_init_inv ps hv) hst
    refine ⟨keys_length ps st.processes hinv.keys, ?_⟩
    intro p hp
    obtain ⟨i, hi, rfl⟩ := List.getElem_of_mem hp
    exact hinv.times i hi (srt_inv_final ps st hinv hc i hi).2
  · intro fuel r h
    simp only [round_robin_scheduling, Option.map_eq_some'] at h
    obtain ⟨st, hst, rfl⟩ := h
    obtain ⟨⟨hinv, hl⟩, hc⟩ := rr_while_rule
      (fun s => RrInv s ∧ s.processes.length = ps.length) time_quantum
      (fun s i h hs => ⟨rr_body_inv time_quantum s i h hs.1, by rw [rr_body_length]; exact hs.2⟩)
      (fun s hs => ⟨rr_arrival_scan_inv s hs.1, by rw [rr_arrival_scan_length]; exact hs.2⟩)
      fuel (rr_init ps) st ⟨rr_init_inv ps hb, by simp [rr_init]⟩ hst
    exact ⟨hl, fun p hp => (rr_inv_final st hinv hc p hp).2⟩

/-- Over the integers: on every valid input both `srt_scheduling` and `sjf_scheduling`
return, and the sum of the waiting times that `srt_scheduling` leaves is at
most the sum of the waiting times that `sjf_scheduling` returns for the same
input; so is the average waiting time. -/
theorem srt_waiting_le_sjf_waiting (ps : List Process) (hv : Valid ps) :
    (∃ N rS rJ, ∀ fuel, N ≤ fuel →
      srt_scheduling fuel ps = some rS ∧ sjf_scheduling fuel ps = some rJ) ∧
    ∀ f1 f2 rS rJ, srt_scheduling f1 ps = some rS → sjf_scheduling f2 ps = some rJ →
      (rS.map (fun p => p.waiting_time)).sum ≤ (rJ.map (fun p => p.waiting_time)).sum ∧
      avg_waiting_time rS ≤ avg_waiting_time rJ := by
  constructor
  · obtain ⟨N1, st, h1⟩ := srt_scheduling_returns ps hv
    obtain ⟨N2, rJ, h2⟩ := sjf_scheduling_returns ps (valid_pids_nodup ps hv)
    refine ⟨max N1 N2, st.processes, rJ, fun fuel hf => ⟨?_, h2 fuel (by omega)⟩⟩
    simp only [srt_scheduling, h1 fuel (by omega), Option.map_some']
  · intro f1 f2 rS rJ hS hJ
    have hlS := srt_scheduling_length ps hv f1 rS hS
    have hlJ := sjf_scheduling_length ps f2 rJ hJ
    have hsum : (rS.map (fun p => p.waiting_time)).sum ≤
        (rJ.map (fun p => p.waiting_time)).sum := by
      simp only [srt_scheduling, Option.map_eq_some'] at hS
      obtain ⟨st, hst, rfl⟩ := hS
      simp only [sjf_scheduling, Option.map_eq_some'] at hJ
      obtain ⟨sj, hsj, rfl⟩ := hJ
      obtain ⟨hplan, hsumJ⟩ := sjf_final_plan ps hv f2 sj hsj
      rw [hsumJ]
      exact srt_total_le_plan ps hv (sjf_plan sj) hplan f1 st hst
    refine ⟨hsum, ?_⟩
    simp only [avg_waiting_time, hlS, hlJ]
    apply div_le_div_of_nonneg_right _ (Nat.cast_nonneg _)
    rw [sum_map_cast, sum_map_cast]
    exact_mod_cast hsum

/-- Over the integers: on every valid input `sjf_scheduling` ends (from some fuel on it
returns one and the same list), the list holds each input pid once, and with
the run interval of a process taken as
`[arrival_time + waiting_time, arrival_time + turnaround_time)`, every
interval starts at or after the arrival, has length `burst_time`, and each
interval ends before the interval of any process later in the list starts,
so the intervals of distinct processes are disjoint. -/
theorem sjf_never_preempts (ps : List Process) (hv : Valid ps) :
    ∃ N r, (∀ fuel, N ≤ fuel → sjf_scheduling fuel ps = some r) ∧
      (r.map (fun p => p.pid)).Perm (ps.map (fun p => p.pid)) ∧
      (∀ c ∈ r, c.arrival_time ≤ c.start ∧ c.finish - c.start = c.burst_time) ∧
      r.Pairwise (fun a b => a.finish ≤ b.start) ∧
      ∀ (i j : Nat) (hi : i < r.length) (hj : j < r.length), i ≠ j →
        r[i].finish ≤ r[j].start ∨ r[j].finish ≤ r[i].start := by
  have hb : ∀ p ∈ ps, 0 < p.burst_time := fun p hp => (hv.2 p hp).2.1
  obtain ⟨N, r, hN⟩ := sjf_scheduling_returns ps (valid_pids_nodup ps hv)
  have hr := hN N (le_refl _)
  obtain ⟨-, h2, h3⟩ := sjf_scheduling_timed ps N r hb hr
  refine ⟨N, r, hN, ?_, ?_, h3, ?_⟩
  · simp only [sjf_scheduling, Option.map_eq_some'] at hr
    obtain ⟨st, hst, rfl⟩ := hr
    obtain ⟨⟨hi, hl⟩, hlen⟩ := sjf_loop_rule
      (fun s => SjfInv s ∧ s.processes.map (fun p => p.pid) = ps.map (fun p => p.pid))
      (fun s hs => ⟨sjf_step_inv s hs.1, by rw [sjf_step_pids]; exact hs.2⟩)
      N (sjf_init ps) st ⟨sjf_init_inv ps, rfl⟩ hst
    rw [← hl]
    exact sjf_completed_perm st hi hlen
  · intro c hc
    obtain ⟨ha, ht⟩ := h2 c hc
    refine ⟨ha, ?_⟩
    simp only [Process.finish, Process.start]
    omega
  · intro i j hi hj hij
    rcases Nat.lt_or_gt_of_ne hij with h | h
    · exact Or.inl (List.pairwise_iff_getElem.1 h3 i j hi hj h)
    · exact Or.inr (List.pairwise_iff_getElem.1 h3 j i hj hi h)

/-- Over the integers: for every input with non-negative arrival times (and positive burst
times), the list returned by `fcfs_scheduling` is in ascending order of
arrival time, its first process starts at its own arrival time with waiting
time 0, and every later process starts at the maximum of its arrival time and
the completion time of its predecessor in the list. -/
theorem fcfs_schedule (ps : List Process)
    (hv : ∀ p ∈ ps, 0 ≤ p.arrival_time ∧ 0 < p.burst_time) :
    (fcfs_scheduling ps).Pairwise (fun a b => a.arrival_time ≤ b.arrival_time) ∧
    (∀ h : 0 < (fcfs_scheduling ps).length,
      (fcfs_scheduling ps)[0].start = (fcfs_scheduling ps)[0].arrival_time ∧
      (fcfs_scheduling ps)[0].waiting_time = 0) ∧
    ∀ i (h : i + 1 < (fcfs_scheduling ps).length),
      (fcfs_scheduling ps)[i + 1].start =
        max (fcfs_scheduling ps)[i + 1].arrival_time (fcfs_scheduling ps)[i].finish := by
  obtain ⟨h0, hs⟩ := fcfs_loop_chain 0 (sort_by_arrival ps)
  refine ⟨?_, ?_, hs⟩
  · have hsorted := sort_by_arrival_sorted ps
    have harr := fcfs_loop_arrivals 0 (sort_by_arrival ps)
    have h1 : ((fcfs_scheduling ps).map (fun p => p.arrival_time)).Pairwise (· ≤ ·) := by
      rw [fcfs_scheduling, harr]
      exact List.pairwise_map.2 hsorted
    exact List.pairwise_map.1 h1
  · intro h
    have hmem : (fcfs_scheduling ps)[0] ∈ fcfs_scheduling ps := List.getElem_mem _
    have hin : (fcfs_scheduling ps)[0].inputs ∈ ps.map Process.inputs := by
      have hperm : ((fcfs_scheduling ps).map Process.inputs).Perm (ps.map Process.inputs) := by
        rw [fcfs_scheduling, fcfs_loop_inputs]
        exact (sort_by_arrival_perm ps).map _
      exact hperm.mem_iff.1 (List.mem_map.2 ⟨_, hmem, rfl⟩)
    obtain ⟨p, hp, hpe⟩ := List.mem_map.1 hin
    have harr : 0 ≤ (fcfs_scheduling ps)[0].arrival_time := by
      have := (hv p hp).1
      simp only [Process.inputs, Prod.mk.injEq] at hpe
      rw [← hpe.2.1]; exact this
    have hstart := h0 h
    simp only [fcfs_scheduling] at harr hstart ⊢
    simp only [Process.start] at hstart ⊢
    constructor <;> omega

/-- Over the integers: for each of the four schedulers and every valid input with a positive
quantum, whenever the scheduler returns, every process of its result has
`waiting_time >= 0` and `turnaround_time >= burst_time`. -/
theorem waiting_time_nonneg (ps : List Process) (time_quantum : Int)
    (hv : Valid ps) (hq : 0 < time_quantum) :
    (∀ p ∈ fcfs_scheduling ps, 0 ≤ p.waiting_time ∧ p.burst_time ≤ p.turnaround_time) ∧
    (∀ fuel r, sjf_scheduling fuel ps = some r →
      ∀ p ∈ r, 0 ≤ p.waiting_time ∧ p.burst_time ≤ p.turnaround_time) ∧
    (∀ fuel r, srt_scheduling fuel ps = some r →
      ∀ p ∈ r, 0 ≤ p.waiting_time ∧ p.burst_time ≤ p.turnaround_time) ∧
    (∀ fuel r, round_robin_scheduling fuel ps time_quantum = some r →
      ∀ p ∈ r, 0 ≤ p.waiting_time ∧ p.burst_time ≤ p.turnaround_time) := by
  have hb : ∀ p ∈ ps, 0 < p.burst_time := fun p hp => (hv.2 p hp).2.1
  refine ⟨?_, ?_, ?_, ?_⟩
  · intro p hp
    have h1 := fcfs_loop_waiting_nonneg 0 _ p hp
    have h2 := fcfs_loop_turnaround 0 _ p hp
    exact ⟨h1, by omega⟩
  · intro fuel r h p hp
    obtain ⟨-, h2, -⟩ := sjf_scheduling_timed ps fuel r hb h
    obtain ⟨h3, h4⟩ := h2 p hp
    simp only [Process.start] at h3
    exact ⟨by omega, by omega⟩
  · intro fuel r h p hp
    simp only [srt_scheduling, srt_run, Option.map_eq_some'] at h
    obtain ⟨st, hst, rfl⟩ := h
    obtain ⟨⟨hinv, hw⟩, hc⟩ := srt_loop_rule (fun s => SrtInv ps s ∧ SrtWait ps s)
      (fun s s2 hP hs => ⟨srt_inv_step ps hv s s2 hP.1 hs, srt_wait_step ps hv s s2 hP.1 hP.2 hs⟩)
      fuel (srt_init ps) st ⟨srt_init_inv ps hv, srt_wait_init ps hv⟩ hst
    obtain ⟨i, hi, rfl⟩ := List.getElem_of_mem hp
    have hrem := (srt_inv_final ps st hinv hc i hi).2
    have h1 := hw.wait i hi hrem
    have h2 := hinv.times i hi hrem
    exact ⟨h1, by omega⟩
  · intro fuel r h p hp
    simp only [round_robin_scheduling, Option.map_eq_some'] at h
    obtain ⟨st, hst, rfl⟩ := h
    obtain ⟨⟨hinv, hw⟩, hc⟩ := rr_while_rule (fun s => RrInv s ∧ RrWait s) time_quantum
      (fun s i h hs => ⟨rr_body_inv time_quantum s i h hs.1, rr_wait_body time_quantum hq s i h hs.2⟩)
      (fun s hs => ⟨rr_arrival_scan_inv s hs.1, rr_wait_scan s hs.2⟩)
      fuel (rr_init ps) st ⟨rr_init_inv ps hb, rr_wait_init ps hb⟩ hst
    obtain ⟨hrem, htimes⟩ := rr_inv_final st hinv hc p hp
    obtain ⟨i, hi, rfl⟩ := List.getElem_of_mem hp
    have h1 := hw.wait i hi hrem
    exact ⟨h1, by omega⟩

/-- Over the integers: on every valid input `sjf_scheduling` ends and the list it returns is
in execution order: the start times `arrival_time + waiting_time` are strictly
increasing along the list; on the sample data the returned pid order is
1, 2, 4, 3. -/
theorem sjf_returns_execution_order :
    (∀ ps : List Process, Valid ps →
      ∃ N r, (∀ fuel, N ≤ fuel → sjf_scheduling fuel ps = some r) ∧
        r.Pairwise (fun a b => a.start < b.start)) ∧
    ∀ fuel, 5 ≤ fuel →
      (sjf_scheduling fuel sample).map (fun r => r.map (fun p => p.pid)) = some [1, 2, 4, 3] := by
  constructor
  · intro ps hv
    have hb : ∀ p ∈ ps, 0 < p.burst_time := fun p hp => (hv.2 p hp).2.1
    obtain ⟨N, r, hN⟩ := sjf_scheduling_returns ps (valid_pids_nodup ps hv)
    have hr := hN N (le_refl _)
    simp only [sjf_scheduling, Option.map_eq_some'] at hr
    obtain ⟨st, hst, hrst⟩ := hr
    obtain ⟨ht, -⟩ := sjf_loop_rule SjfTimed sjf_step_timed N (sjf_init ps) st
      (sjf_init_timed ps hb) hst
    obtain ⟨hi, -⟩ := sjf_loop_rule SjfInv sjf_step_inv N (sjf_init ps) st
      (sjf_init_inv ps) hst
    refine ⟨N, r, hN, ?_⟩
    rw [← hrst]
    have hall : ∀ a ∈ st.completed_processes, a.start < a.finish := by
      intro a ha
      have h1 := (ht.done a ha).2.2
      have h2 := ht.burst_pos a (hi.mem a ha)
      simp only [Process.start, Process.finish]
      omega
    exact ht.ordered.imp_of_mem (fun {a b} ha _ hab => lt_of_lt_of_le (hall a ha) hab)
  · intro fuel hf
    have h5 : sjf_loop 5 (sjf_init sample) =
        some { current_time := 26,
               processes := [⟨1, 0, 8, 0, 8, 8⟩, ⟨2, 1, 4, 7, 11, 4⟩, ⟨3, 2, 9, 15, 24, 9⟩,
                 ⟨4, 3, 5, 9, 14, 5⟩],
               completed_processes := [⟨1, 0, 8, 0, 8, 8⟩, ⟨2, 1, 4, 7, 11, 4⟩,
                 ⟨4, 3, 5, 9, 14, 5⟩, ⟨3, 2, 9, 15, 24, 9⟩] } := by decide
    simp only [sjf_scheduling, sjf_loop_mono 5 _ _ h5 fuel hf, Option.map_some']
    decide

/-! ## `int` arithmetic: values that fit are computed exactly -/

theorem wrap32_eq (x : Int) (h1 : -2147483648 ≤ x) (h2 : x ≤ INT_MAX) : wrap32 x = x := by
  simp only [wrap32, INT_MAX] at *
  omega

theorem total_burst_perm (l1 l2 : List Process) (h : l1.Perm l2) :
    total_burst l1 = total_burst l2 := by
  simp only [total_burst]
  exact (h.map _).sum_eq

theorem fits_perm (l1 l2 : List Process) (h : l1.Perm l2) (hf : Fits l2) : Fits l1 := by
  intro p hp
  rw [total_burst_perm l1 l2 h]
  exact hf p (h.mem_iff.1 hp)

theorem total_burst_nonneg (ps : List Process) (hb : ∀ p ∈ ps, 0 ≤ p.burst_time) :
    0 ≤ total_burst ps := by
  simp only [total_burst]
  apply List.sum_nonneg
  intro x hx
  obtain ⟨p, hp, rfl⟩ := List.mem_map.1 hx
  exact hb p hp

theorem burst_le_total (ps : List Process) (hb : ∀ p ∈ ps, 0 ≤ p.burst_time) :
    ∀ p ∈ ps, p.burst_time ≤ total_burst ps := by
  induction ps with
  | nil => intro p hp; simp at hp
  | cons a l ih =>
    intro p hp
    have ha := hb a (List.mem_cons_self _ _)
    have hl : ∀ p ∈ l, 0 ≤ p.burst_time := fun p hp => hb p (List.mem_cons_of_mem _ hp)
    have hnn := total_burst_nonneg l hl
    simp only [total_burst, List.map_cons, List.sum_cons] at hnn ⊢
    rcases List.mem_cons.1 hp with rfl | hp
    · omega
    · have := ih hl p hp
      simp only [total_burst] at this
      omega

/-- The FCFS pass in `int` arithmetic computes what the pass over the
integers computes, when the clock bound `B` fits. -/
theorem fcfs_loop32_eq (l : List Process) :
    ∀ (t : Int), 0 ≤ t → (∀ p ∈ l, 0 ≤ p.arrival_time ∧ 0 ≤ p.burst_time) →
      t + total_burst l ≤ INT_MAX → (∀ p ∈ l, p.arrival_time + total_burst l ≤ INT_MAX) →
      fcfs_loop32 t l = fcfs_loop t l := by
  induction l with
  | nil => intro t _ _ _ _; rfl
  | cons a l ih =>
    intro t ht hv hB hA
    have ha := hv a (List.mem_cons_self _ _)
    have hl : ∀ p ∈ l, 0 ≤ p.arrival_time ∧ 0 ≤ p.burst_time :=
      fun p hp => hv p (List.mem_cons_of_mem _ hp)
    have hnn := total_burst_nonneg l (fun p hp => (hl p hp).2)
    have hA0 := hA a (List.mem_cons_self _ _)
    have htot : total_burst (a :: l) = a.burst_time + total_burst l := by
      simp [total_burst]
    rw [htot] at hB hA0
    simp only [fcfs_loop32, fcfs_loop]
    have hmax : 0 ≤ (if t < a.arrival_time then a.arrival_time else t) ∧
        a.arrival_time ≤ (if t < a.arrival_time then a.arrival_time else t) ∧
        (if t < a.arrival_time then a.arrival_time else t) + a.burst_time + total_burst l ≤
          INT_MAX := by
      split <;> omega
    generalize (if t < a.arrival_time then a.arrival_time else t) = c at hmax ⊢
    obtain ⟨hc0, hc1, hc2⟩ := hmax
    simp only [INT_MAX] at hc2
    have e1 : wrap32 (c - a.arrival_time) = c - a.arrival_time :=
      wrap32_eq _ (by omega) (by simp only [INT_MAX]; omega)
    have e2 : wrap32 (c - a.arrival_time + a.burst_time) = c - a.arrival_time + a.burst_time :=
      wrap32_eq _ (by omega) (by simp only [INT_MAX]; omega)
    have e3 : wrap32 (c + a.burst_time) = c + a.burst_time :=
      wrap32_eq _ (by omega) (by simp only [INT_MAX]; omega)
    rw [e1, e2, e3]
    rw [ih (c + a.burst_time) (by omega) hl (by simp only [INT_MAX]; omega)]
    intro p hp
    have := hA p (List.mem_cons_of_mem _ hp)
    rw [htot] at this
    omega

theorem fcfs_scheduling32_eq (ps : List Process)
    (hv : ∀ p ∈ ps, 0 ≤ p.arrival_time ∧ 0 ≤ p.burst_time) (hf : Fits ps) :
    fcfs_scheduling32 ps = fcfs_scheduling ps := by
  have hperm := sort_by_arrival_perm ps
  have hf2 : Fits (sort_by_arrival ps) := fits_perm _ _ hperm hf
  have hv2 : ∀ p ∈ sort_by_arrival ps, 0 ≤ p.arrival_time ∧ 0 ≤ p.burst_time :=
    fun p hp => hv p (hperm.mem_iff.1 hp)
  simp only [fcfs_scheduling32, fcfs_scheduling]
  apply fcfs_loop32_eq _ 0 (le_refl _) hv2 _ hf2
  cases hs : sort_by_arrival ps with
  | nil => simp [total_burst, INT_MAX]
  | cons a l =>
    rw [← hs]
    have h1 := hf2 a (by rw [hs]; exact List.mem_cons_self _ _)
    have h2 := (hv2 a (by rw [hs]; exact List.mem_cons_self _ _)).1
    omega

/-! ## SJF in `int` arithmetic -/

theorem sjf_left_nonneg (st : SjfState) (hs : ∀ p ∈ st.processes, 0 ≤ p.burst_time) :
    0 ≤ sjf_left st := by
  apply Finset.sum_nonneg
  intro j hj
  have hj2 := Finset.mem_range.1 hj
  split
  · exact le_refl _
  · rw [List.getD_eq_getElem _ _ hj2]
    exact hs _ (List.getElem_mem _)

theorem sjf_left_ge (st : SjfState) (hs : ∀ p ∈ st.processes, 0 ≤ p.burst_time)
    (i : Nat) (hi : i < st.processes.length)
    (hne : ∀ c ∈ st.completed_processes, c.pid ≠ st.processes[i].pid) :
    st.processes[i].burst_time ≤ sjf_left st := by
  have hterm : ∀ j ∈ Finset.range st.processes.length,
      0 ≤ (if st.completed_processes.any
          (fun c => decide (c.pid = (st.processes.getD j default).pid)) = true then 0
        else (st.processes.getD j default).burst_time) := by
    intro j hj
    have hj2 := Finset.mem_range.1 hj
    split
    · exact le_refl _
    · rw [List.getD_eq_getElem _ _ hj2]
      exact hs _ (List.getElem_mem _)
  have := Finset.single_le_sum hterm (Finset.mem_range.2 hi)
  simp only [sjf_left]
  refine le_trans (le_of_eq ?_) this
  rw [List.getD_eq_getElem _ _ hi, if_neg]
  simp only [List.any_eq_true, decide_eq_true_eq, not_exists, not_and]
  exact hne

theorem sjf_left_le_total (st : SjfState) (hs : ∀ p ∈ st.processes, 0 ≤ p.burst_time) :
    sjf_left st ≤ total_burst st.processes := by
  simp only [total_burst, list_sum_eq_range, sjf_left]
  apply Finset.sum_le_sum
  intro j hj
  have hj2 := Finset.mem_range.1 hj
  split
  · rw [List.getD_eq_getElem _ _ hj2]
    exact hs _ (List.getElem_mem _)
  · exact le_refl _

/-- Running process `i` takes its burst time off the burst time still to
run. -/
theorem sjf_left_run (st : SjfState) (hs : ∀ p ∈ st.processes, 0 ≤ p.burst_time)
    (i : Nat) (hi : i < st.processes.length)
    (hne : ∀ c ∈ st.completed_processes, c.pid ≠ st.processes[i].pid)
    (p2 : Process) (hpid : p2.pid = st.processes[i].pid)
    (hburst : p2.burst_time = st.processes[i].burst_time) :
    sjf_left { current_time := st.current_time + st.processes[i].burst_time
               processes := st.processes.set i p2
               completed_processes := st.completed_processes ++ [p2] } +
      st.processes[i].burst_time ≤ sjf_left st := by
  simp only [sjf_left, List.length_set]
  have hsplit : st.processes[i].burst_time =
      ∑ j ∈ Finset.range st.processes.length,
        (if j = i then st.processes[i].burst_time else 0) := by
    rw [Finset.sum_ite_eq']
    simp [hi]
  conv_lhs => rw [hsplit]
  rw [← Finset.sum_add_distrib]
  apply Finset.sum_le_sum
  intro j hj
  have hj2 := Finset.mem_range.1 hj
  rw [getD_set_process _ _ _ _ hi]
  by_cases hji : j = i
  · subst hji
    simp only [if_true, hpid]
    rw [List.getD_eq_getElem _ _ hj2]
    have h1 : (st.completed_processes ++ [p2]).any
        (fun c => decide (c.pid = st.processes[j].pid)) = true := by
      simp [hpid]
    have h2 : ¬ (st.completed_processes.any
        (fun c => decide (c.pid = st.processes[j].pid)) = true) := by
      simp only [List.any_eq_true, decide_eq_true_eq, not_exists, not_and]
      exact hne
    rw [if_pos h1, if_neg h2]
    omega
  · simp only [if_neg hji, add_zero]
    have hb : 0 ≤ (st.processes.getD j default).burst_time := by
      rw [List.getD_eq_getElem _ _ hj2]
      exact hs _ (List.getElem_mem _)
    by_cases hold : st.completed_processes.any
        (fun c => decide (c.pid = (st.processes.getD j default).pid)) = true
    · have hnew : (st.completed_processes ++ [p2]).any
          (fun c => decide (c.pid = (st.processes.getD j default).pid)) = true := by
        rw [List.any_append, hold]; rfl
      rw [if_pos hnew, if_pos hold]
    · rw [if_neg hold]
      split
      · exact hb
      · exact le_refl _

theorem sjf_fits_init (ps : List Process) (hv : Valid ps) (hf : Fits ps) :
    SjfFits (sjf_init ps) := by
  have hs : ∀ p ∈ ps, 0 ≤ p.arrival_time ∧ 0 ≤ p.burst_time :=
    fun p hp => ⟨(hv.2 p hp).1, le_of_lt (hv.2 p hp).2.1⟩
  have hle := sjf_left_le_total (sjf_init ps) (fun p hp => (hs p hp).2)
  simp only [sjf_init] at hle
  refine ⟨le_refl _, valid_pids_nodup ps hv, hs, ?_, ?_⟩
  · simp only [sjf_init, zero_add]
    cases ps with
    | nil => simp [sjf_left, INT_MAX]
    | cons a l =>
      have h1 := hf a (List.mem_cons_self _ _)
      have h2 := (hs a (List.mem_cons_self _ _)).1
      omega
  · intro j hj _
    simp only [sjf_init] at hj ⊢
    have h1 := hf ps[j] (List.getElem_mem _)
    omega

theorem sjf_step32_eq (st : SjfState) (hf : SjfFits st)
    (hlt : st.completed_processes.length < st.processes.length) :
    sjf_step32 st = sjf_step st := by
  have hb : ∀ p ∈ st.processes, 0 ≤ p.burst_time := fun p hp => (hf.static p hp).2
  have hnn := sjf_left_nonneg st hb
  have hbound := hf.bound
  have hclock := hf.clock
  simp only [INT_MAX] at hbound
  cases h : sjf_select st with
  | none =>
    obtain ⟨j, hj, hne⟩ := sjf_exists_unfinished st hf.nodup hlt
    have hr := sjf_select_none st h j hj
    have hnot : ¬ (st.processes[j].arrival_time ≤ st.current_time) := by
      intro harr
      have := (sjf_is_ready_iff st j hj).2 ⟨harr, hne⟩
      rw [hr] at this
      exact absurd this (by decide)
    have ha := hf.arrivals j hj hne
    simp only [INT_MAX] at ha
    simp only [sjf_step32, sjf_step, h]
    rw [wrap32_eq _ (by omega) (by simp only [INT_MAX]; omega)]
  | some i =>
    obtain ⟨hi, harr, hne⟩ := sjf_select_some st i h
    have hge := sjf_left_ge st hb i hi hne
    have hst := hf.static _ (List.getElem_mem hi)
    simp only [sjf_step32, sjf_step, h, List.getD_eq_getElem _ _ hi]
    rw [wrap32_eq (st.current_time - st.processes[i].arrival_time) (by omega)
      (by simp only [INT_MAX]; omega)]
    rw [wrap32_eq (st.current_time - st.processes[i].arrival_time + st.processes[i].burst_time)
      (by omega) (by simp only [INT_MAX]; omega)]
    rw [wrap32_eq (st.current_time + st.processes[i].burst_time) (by omega)
      (by simp only [INT_MAX]; omega)]

theorem sjf_step_fits (st : SjfState) (hf : SjfFits st)
    (hlt : st.completed_processes.length < st.processes.length) :
    SjfFits (sjf_step st) := by
  have hb : ∀ p ∈ st.processes, 0 ≤ p.burst_time := fun p hp => (hf.static p hp).2
  have hnn := sjf_left_nonneg st hb
  have hnd : ((sjf_step st).processes.map (fun p => p.pid)).Nodup := by
    rw [sjf_step_pids]; exact hf.nodup
  cases h : sjf_select st with
  | none =>
    obtain ⟨j, hj, hne⟩ := sjf_exists_unfinished st hf.nodup hlt
    have hr := sjf_select_none st h j hj
    have hnot : ¬ (st.processes[j].arrival_time ≤ st.current_time) := by
      intro harr
      have := (sjf_is_ready_iff st j hj).2 ⟨harr, hne⟩
      rw [hr] at this
      exact absurd this (by decide)
    have ha := hf.arrivals j hj hne
    have hclock := hf.clock
    rw [sjf_step_none st h] at hnd ⊢
    refine ⟨by simp only; omega, hnd, hf.static, ?_, hf.arrivals⟩
    have e : sjf_left { st with current_time := st.current_time + 1 } = sjf_left st := rfl
    rw [e]
    simp only
    omega
  | some i =>
    obtain ⟨hi, harr, hne⟩ := sjf_select_some st i h
    have hst := hf.static _ (List.getElem_mem hi)
    have hclock := hf.clock
    have hbound := hf.bound
    rw [sjf_step_some st i h hi] at hnd ⊢
    generalize hp2 : ({ st.processes[i] with
        waiting_time := st.current_time - st.processes[i].arrival_time
        turnaround_time :=
          st.current_time - st.processes[i].arrival_time + st.processes[i].burst_time } :
        Process) = p2 at hnd ⊢
    have hpid : p2.pid = st.processes[i].pid := by rw [← hp2]
    have hburst : p2.burst_time = st.processes[i].burst_time := by rw [← hp2]
    have harr2 : p2.arrival_time = st.processes[i].arrival_time := by rw [← hp2]
    have hrun := sjf_left_run st hb i hi hne p2 hpid hburst
    generalize hL : sjf_left { current_time := st.current_time + st.processes[i].burst_time
                               processes := st.processes.set i p2
                               completed_processes := st.completed_processes ++ [p2] } = L
      at hrun
    refine ⟨by simp only; omega, hnd, ?_, by rw [hL]; simp only; omega, ?_⟩
    · intro p hp
      rcases List.mem_or_eq_of_mem_set hp with hp | hp
      · exact hf.static p hp
      · rw [hp, harr2, hburst]; exact hst
    · intro j hj hnew
      rw [hL]
      simp only [List.length_set] at hj
      simp only at hnew ⊢
      have hold : ∀ c ∈ st.completed_processes, c.pid ≠ st.processes[j].pid := by
        intro c hc
        have := hnew c (List.mem_append_left _ hc)
        by_cases hji : i = j
        · subst hji
          simpa [hpid] using this
        · simpa [List.getElem_set_ne hji] using this
      have ha := hf.arrivals j hj hold
      have harrj : ((st.processes.set i p2)[j]).arrival_time =
          st.processes[j].arrival_time := by
        by_cases hji : i = j
        · subst hji; simp [harr2]
        · simp [List.getElem_set_ne hji]
      rw [harrj]
      omega

/-- On a state that fits, the SJF loop in `int` arithmetic is the SJF loop
over the integers. -/
theorem sjf_loop32_eq (fuel : Nat) :
    ∀ st : SjfState, SjfFits st → sjf_loop32 fuel st = sjf_loop fuel st := by
  induction fuel with
  | zero => intro st _; rfl
  | succ n ih =>
    intro st hf
    simp only [sjf_loop32, sjf_loop]
    split
    · rename_i hlt
      rw [sjf_step32_eq st hf hlt]
      exact ih _ (sjf_step_fits st hf hlt)
    · rfl

theorem sjf_scheduling32_eq (ps : List Process) (hv : Valid ps) (hf : Fits ps) (fuel : Nat) :
    sjf_scheduling32 fuel ps = sjf_scheduling fuel ps := by
  simp only [sjf_scheduling32, sjf_scheduling, sjf_loop32_eq fuel _ (sjf_fits_init ps hv hf)]

/-! ## SRT in `int` arithmetic -/

theorem length_le_total_burst (ps : List Process) (hb : ∀ p ∈ ps, 1 ≤ p.burst_time) :
    (ps.length : Int) ≤ total_burst ps := by
  induction ps with
  | nil => simp [total_burst]
  | cons a l ih =>
    have ha := hb a (List.mem_cons_self _ _)
    have := ih (fun p hp => hb p (List.mem_cons_of_mem _ hp))
    simp only [total_burst, List.map_cons, List.sum_cons, List.length_cons] at this ⊢
    push_cast
    omega

/-- What `Valid` and `Fits` give for the sizes of the input values. -/
theorem fits_static (ps : List Process) (hv : Valid ps) (hf : Fits ps) :
    total_burst ps ≤ INT_MAX ∧ (ps.length : Int) ≤ INT_MAX ∧
    ∀ p ∈ ps, 0 ≤ p.arrival_time ∧ p.arrival_time ≤ INT_MAX ∧
      1 ≤ p.burst_time ∧ p.burst_time ≤ INT_MAX := by
  have hb : ∀ p ∈ ps, 0 ≤ p.burst_time := fun p hp => le_of_lt (hv.2 p hp).2.1
  have hnn := total_burst_nonneg ps hb
  have htot : total_burst ps ≤ INT_MAX := by
    cases ps with
    | nil => simp [total_burst, INT_MAX]
    | cons a l =>
      have h1 := hf a (List.mem_cons_self _ _)
      have h2 := (hv.2 a (List.mem_cons_self _ _)).1
      omega
  have hlen := length_le_total_burst ps (fun p hp => (hv.2 p hp).2.1)
  refine ⟨htot, by omega, ?_⟩
  intro p hp
  have h1 := hv.2 p hp
  have h2 := hf p hp
  have h3 := burst_le_total ps hb p hp
  exact ⟨h1.1, by omega, h1.2.1, by omega⟩

theorem work_eq_total_burst (l : List Process)
    (h : ∀ p ∈ l, 0 ≤ p.burst_time ∧ p.remaining_time = p.burst_time) :
    (((l.map (fun p => p.remaining_time.toNat)).sum : Nat) : Int) = total_burst l := by
  induction l with
  | nil => simp [total_burst]
  | cons a l ih =>
    have ha := h a (List.mem_cons_self _ _)
    have := ih (fun p hp => h p (List.mem_cons_of_mem _ hp))
    simp only [total_burst, List.map_cons, List.sum_cons] at this ⊢
    rw [Nat.cast_add, this, ha.2, Int.toNat_of_nonneg ha.1]

theorem srt_fits_init (ps : List Process) (hv : Valid ps) (hf : Fits ps) :
    SrtFits ps (srt_init ps) := by
  have hw : ((srt_work (srt_init ps) : Nat) : Int) = total_burst ps :=
    work_eq_total_burst ps (fun p hp => ⟨le_of_lt (hv.2 p hp).2.1, (hv.2 p hp).2.2⟩)
  obtain ⟨htot, -, -⟩ := fits_static ps hv hf
  refine ⟨le_refl _, ?_, ?_⟩
  · rw [hw]
    simp only [srt_init, zero_add]
    exact htot
  · intro p hp
    rw [hw]
    exact hf p hp

/-- While the loop runs and nothing is ready, some process has yet to
arrive. -/
theorem srt_idle_before_arrival (ps : List Process) (st : SrtState) (hinv : SrtInv ps st)
    (hlt : st.completed < st.processes.length) (h : srt_select st = none) :
    ∃ p ∈ ps, st.current_time < p.arrival_time := by
  have hcount : st.is_completed.count true < st.is_completed.length := by
    have h1 := hinv.count
    have h2 := hinv.flags
    omega
  obtain ⟨j, hj, hfalse⟩ := exists_false_of_count_lt _ hcount
  have hj2 : j < st.processes.length := by rw [← hinv.flags]; exact hj
  have hl := keys_length ps st.processes hinv.keys
  have hr := srt_select_none st h j hj2
  have hnot : ¬ (st.processes[j].arrival_time ≤ st.current_time) := by
    intro harr
    have := (srt_is_ready_iff st j hj2).2 ⟨harr, hfalse⟩
    rw [hr] at this
    exact absurd this (by decide)
  obtain ⟨-, harr, -⟩ := srt_inv_static ps st hinv j (by omega)
  rw [List.getD_eq_getElem _ _ hj2, List.getD_eq_getElem _ _ (by omega)] at harr
  exact ⟨ps[j], List.getElem_mem _, by rw [← harr]; omega⟩

theorem srt_step_fits (ps : List Process) (hv : Valid ps) (st st2 : SrtState)
    (hinv : SrtInv ps st) (hf : SrtFits ps st) (hlt : st.completed < st.processes.length)
    (h : srt_step st = some st2) : SrtFits ps st2 := by
  obtain ⟨s, hs, -, htime, -, hcase⟩ := srt_step_spec ps hv st hinv
  rw [hs] at h
  simp only [Option.some.injEq] at h
  subst h
  have hclock := hf.clock
  have hbound := hf.bound
  rcases hcase with ⟨hnone, hw⟩ | ⟨-, hw⟩
  · obtain ⟨p, hp, hlate⟩ := srt_idle_before_arrival ps st hinv hlt hnone
    have ha := hf.arrivals p hp
    refine ⟨by omega, by rw [hw, htime]; omega, ?_⟩
    intro p hp
    rw [hw]
    exact hf.arrivals p hp
  · refine ⟨by omega, by rw [htime]; omega, ?_⟩
    intro p hp
    have := hf.arrivals p hp
    omega

theorem srt_step32_eq (ps : List Process) (hv : Valid ps) (hfit : Fits ps) (st : SrtState)
    (hinv : SrtInv ps st) (hf : SrtFits ps st) (hlt : st.completed < st.processes.length) :
    srt_step32 st = srt_step st := by
  obtain ⟨htot, hlen, hstatic⟩ := fits_static ps hv hfit
  have hclock := hf.clock
  have hbound := hf.bound
  have hl := keys_length ps st.processes hinv.keys
  simp only [INT_MAX] at hbound hlen
  cases h : srt_select st with
  | none =>
    obtain ⟨p, hp, hlate⟩ := srt_idle_before_arrival ps st hinv hlt h
    have ha := hf.arrivals p hp
    simp only [INT_MAX] at ha
    simp only [srt_step32, srt_step, h]
    rw [wrap32_eq _ (by omega) (by simp only [INT_MAX]; omega)]
  | some i =>
    obtain ⟨hi, harr, hflag⟩ := srt_select_some st i h
    obtain ⟨s, -, -, -, -, hcase⟩ := srt_step_spec ps hv st hinv
    have hwork : 1 ≤ srt_work st := by
      rcases hcase with ⟨hnone, -⟩ | ⟨-, hw⟩
      · rw [h] at hnone; exact absurd hnone (by simp)
      · omega
    have hri := hinv.rem i hi
    have hex := hinv.executed i hi
    have hpid := srt_inv_pid ps hv st hinv i hi
    obtain ⟨-, hsa, hsb⟩ := srt_inv_static ps st hinv i (by omega)
    rw [List.getD_eq_getElem _ _ hi, List.getD_eq_getElem _ _ (by omega)] at hsa hsb
    have hps := hstatic ps[i] (List.getElem_mem _)
    simp only [INT_MAX] at hps
    have hpos : 1 ≤ st.processes[i].remaining_time := by
      have : st.processes[i].remaining_time ≠ 0 := by
        intro h0; have := hri.2.2 h0; rw [hflag] at this; exact absurd this (by decide)
      omega
    have e1 : wrap32 (st.processes[i].remaining_time - 1) = st.processes[i].remaining_time - 1 :=
      wrap32_eq _ (by omega) (by simp only [INT_MAX]; omega)
    have e2 : wrap32 (st.processes[i].pid - 1) = st.processes[i].pid - 1 :=
      wrap32_eq _ (by omega) (by simp only [INT_MAX]; omega)
    have e3 : wrap32 (st.current_time + 1) = st.current_time + 1 :=
      wrap32_eq _ (by omega) (by simp only [INT_MAX]; omega)
    have e4 : wrap32 (st.current_time + 1 - st.processes[i].arrival_time) =
        st.current_time + 1 - st.processes[i].arrival_time :=
      wrap32_eq _ (by omega) (by simp only [INT_MAX]; omega)
    have e5 : wrap32 (st.current_time + 1 - st.processes[i].arrival_time -
        st.processes[i].burst_time) =
        st.current_time + 1 - st.processes[i].arrival_time - st.processes[i].burst_time :=
      wrap32_eq _ (by omega) (by simp only [INT_MAX]; omega)
    simp only [srt_step32, srt_step, h, List.getD_eq_getElem _ _ hi, e1, e2, e3, e4, e5]

/-- On a state that fits, the SRT loop in `int` arithmetic is the SRT loop
over the integers. -/
theorem srt_loop32_eq (ps : List Process) (hv : Valid ps) (hfit : Fits ps) (fuel : Nat) :
    ∀ st : SrtState, SrtInv ps st → SrtFits ps st → srt_loop32 fuel st = srt_loop fuel st := by
  induction fuel with
  | zero => intro st _ _; rfl
  | succ n ih =>
    intro st hinv hf
    simp only [srt_loop32, srt_loop]
    split
    · rename_i hlt
      rw [srt_step32_eq ps hv hfit st hinv hf hlt]
      cases hs : srt_step st with
      | none => rfl
      | some st2 =>
        exact ih st2 (srt_inv_step ps hv st st2 hinv hs) (srt_step_fits ps hv st st2 hinv hf hlt hs)
    · rfl

theorem srt_scheduling32_eq (ps : List Process) (hv : Valid ps) (hfit : Fits ps) (fuel : Nat) :
    srt_scheduling32 fuel ps = srt_scheduling fuel ps := by
  simp only [srt_scheduling32, srt_scheduling, srt_run,
    srt_loop32_eq ps hv hfit fuel _ (srt_init_inv ps hv) (srt_fits_init ps hv hfit)]

/-! ## Round Robin in `int` arithmetic -/

/-- What the body of the `for` loop does to the clock and to the vector. -/
theorem rr_body_fields (q : Int) (st : RrState) (i : Nat) (h : i < st.ready_queue.length)
    (hptr : st.ready_queue[i] < st.processes.length) :
    (¬ st.processes[st.ready_queue[i]].remaining_time > 0 ∧
      (rr_body q st i h).processes = st.processes ∧
      (rr_body q st i h).current_time = st.current_time) ∨
    (st.processes[st.ready_queue[i]].remaining_time > 0 ∧
      ∃ p2 : Process,
        (rr_body q st i h).processes = st.processes.set st.ready_queue[i] p2 ∧
        (rr_body q st i h).current_time =
          st.current_time + min q st.processes[st.ready_queue[i]].remaining_time ∧
        p2.remaining_time = st.processes[st.ready_queue[i]].remaining_time -
          min q st.processes[st.ready_queue[i]].remaining_time ∧
        p2.arrival_time = st.processes[st.ready_queue[i]].arrival_time ∧
        p2.burst_time = st.processes[st.ready_queue[i]].burst_time) := by
  by_cases hpos : st.processes[st.ready_queue[i]].remaining_time > 0
  · right
    refine ⟨hpos, ?_⟩
    by_cases hz : st.processes[st.ready_queue[i]].remaining_time -
        min q st.processes[st.ready_queue[i]].remaining_time = 0
    · simp only [rr_body, List.getD_eq_getElem _ _ hptr, if_pos hpos, if_pos hz]
      refine ⟨_, rfl, ?_, ?_, ?_, ?_⟩ <;> trivial
    · simp only [rr_body, List.getD_eq_getElem _ _ hptr, if_pos hpos, if_neg hz]
      refine ⟨_, rfl, ?_, ?_, ?_, ?_⟩ <;> trivial
  · left
    refine ⟨hpos, ?_⟩
    simp only [rr_body, List.getD_eq_getElem _ _ hptr, if_neg hpos]
    refine ⟨?_, ?_⟩ <;> trivial

theorem rr_body_fits (q : Int) (hq : 0 < q) (st : RrState) (i : Nat)
    (h : i < st.ready_queue.length) (hw : RrWait st) (hf : RrFits st) :
    RrFits (rr_body q st i h) := by
  obtain ⟨hptr, -⟩ := hw.queued st.ready_queue[i] (List.getElem_mem _)
  have hclock := hf.clock
  have hbound := hf.bound
  rcases rr_body_fields q st i h hptr with ⟨-, hp, ht⟩ | ⟨hpos, p2, hp, ht, hrem, harr, hburst⟩
  · refine ⟨by rw [ht]; exact hclock, by rw [hp]; exact hf.static, ?_⟩
    simp only [rr_work, hp, ht]
    exact hbound
  · have hst := hf.static _ (List.getElem_mem hptr)
    have hsum := sum_map_set (fun p => p.remaining_time.toNat) st.processes
      st.ready_queue[i] p2 hptr
    simp only [hrem] at hsum
    refine ⟨by rw [ht]; omega, ?_, ?_⟩
    · rw [hp]
      intro p hpm
      rcases List.mem_or_eq_of_mem_set hpm with hpm | hpm
      · exact hf.static p hpm
      · rw [hpm, harr, hburst]; exact hst
    · simp only [rr_work, hp, ht] at hbound ⊢
      omega

theorem rr_scan_fits (st : RrState) (hf : RrFits st) : RrFits (rr_arrival_scan st) := by
  obtain ⟨h1, -, h3⟩ := rr_arrival_scan_fold (List.range st.processes.length) st
  have hw : rr_work (rr_arrival_scan st) = rr_work st := by
    simp only [rr_work, rr_arrival_scan, h1]
  refine ⟨?_, ?_, ?_⟩
  · simp only [rr_arrival_scan, h3]; exact hf.clock
  · simp only [rr_arrival_scan, h1]; exact hf.static
  · rw [hw]
    simp only [rr_arrival_scan, h3]; exact hf.bound

theorem rr_fits_init (ps : List Process) (hv : Valid ps) (hfit : Fits ps) :
    RrFits (rr_init ps) := by
  obtain ⟨htot, -, hstatic⟩ := fits_static ps hv hfit
  refine ⟨le_refl _, ?_, ?_⟩
  · intro p hp
    simp only [rr_init, List.mem_map] at hp
    obtain ⟨a, ha, rfl⟩ := hp
    have := hstatic a ha
    exact ⟨this.1, by simp only; omega, this.2.2.2⟩
  · have hw : ((rr_work (rr_init ps) : Nat) : Int) = total_burst ps := by
      have := work_eq_total_burst (ps.map (fun p => { p with remaining_time := p.burst_time }))
        (by
          intro p hp
          obtain ⟨a, ha, rfl⟩ := List.mem_map.1 hp
          exact ⟨le_of_lt (hv.2 a ha).2.1, rfl⟩)
      simp only [rr_work, rr_init]
      rw [this]
      simp [total_burst, List.map_map, Function.comp_def]
    rw [hw]
    simp only [rr_init, zero_add]
    exact htot

theorem rr_body32_eq (q : Int) (hq : 0 < q) (st : RrState) (i : Nat)
    (h : i < st.ready_queue.length) (hw : RrWait st) (hf : RrFits st) :
    rr_body32 q st i h = rr_body q st i h := by
  obtain ⟨hptr, harr⟩ := hw.queued st.ready_queue[i] (List.getElem_mem _)
  have hclock := hf.clock
  have hbound := hf.bound
  have hst := hf.static _ (List.getElem_mem hptr)
  simp only [INT_MAX] at hbound hst
  by_cases hpos : st.processes[st.ready_queue[i]].remaining_time > 0
  · have hle : st.processes[st.ready_queue[i]].remaining_time.toNat ≤ rr_work st :=
      List.le_sum_of_mem (List.mem_map.2 ⟨_, List.getElem_mem hptr, rfl⟩)
    have hmin1 : 1 ≤ min q st.processes[st.ready_queue[i]].remaining_time := by
      have : 1 ≤ q := hq
      omega
    have hmin2 : min q st.processes[st.ready_queue[i]].remaining_time ≤
        st.processes[st.ready_queue[i]].remaining_time := min_le_right _ _
    generalize hm : min q st.processes[st.ready_queue[i]].remaining_time = m at hmin1 hmin2
    have e1 : wrap32 (st.current_time + m) = st.current_time + m :=
      wrap32_eq _ (by omega) (by simp only [INT_MAX]; omega)
    have e2 : wrap32 (st.processes[st.ready_queue[i]].remaining_time - m) =
        st.processes[st.ready_queue[i]].remaining_time - m :=
      wrap32_eq _ (by omega) (by simp only [INT_MAX]; omega)
    have e3 : wrap32 (st.current_time + m - st.processes[st.ready_queue[i]].arrival_time) =
        st.current_time + m - st.processes[st.ready_queue[i]].arrival_time :=
      wrap32_eq _ (by omega) (by simp only [INT_MAX]; omega)
    have e4 : wrap32 (st.current_time + m - st.processes[st.ready_queue[i]].arrival_time -
        st.processes[st.ready_queue[i]].burst_time) =
        st.current_time + m - st.processes[st.ready_queue[i]].arrival_time -
          st.processes[st.ready_queue[i]].burst_time :=
      wrap32_eq _ (by omega) (by simp only [INT_MAX]; omega)
    simp only [rr_body32, rr_body, List.getD_eq_getElem _ _ hptr, hm, e1, e2, e3, e4]
  · simp only [rr_body32, rr_body, List.getD_eq_getElem _ _ hptr, if_neg hpos]

/-- On a state that fits, the `for` loop in `int` arithmetic is the `for`
loop over the integers. -/
theorem rr_for32_eq (q : Int) (hq : 0 < q) (fuel : Nat) :
    ∀ (i : Nat) (st : RrState), RrInv st → RrWait st → RrFits st →
      rr_for32 q fuel i st = rr_for q fuel i st := by
  induction fuel with
  | zero => intro i st _ _ _; rfl
  | succ n ih =>
    intro i st hinv hw hf
    simp only [rr_for32, rr_for]
    split
    · rename_i hi
      rw [rr_body32_eq q hq st i hi hw hf]
      exact ih _ _ (rr_body_inv q st i hi hinv) (rr_wait_body q hq st i hi hw)
        (rr_body_fits q hq st i hi hw hf)
    · rfl

theorem rr_while32_eq (q : Int) (hq : 0 < q) (fuel : Nat) :
    ∀ (st : RrState), RrInv st → RrWait st → RrFits st →
      rr_while32 q fuel st = rr_while q fuel st := by
  induction fuel with
  | zero => intro st _ _ _; rfl
  | succ n ih =>
    intro st hinv hw hf
    simp only [rr_while32, rr_while]
    split
    · rw [rr_for32_eq q hq n 0 st hinv hw hf]
      cases hr : rr_for q n 0 st with
      | none => rfl
      | some r =>
        have hP := rr_for_rule (fun s => RrInv s ∧ RrWait s ∧ RrFits s) q
          (fun s i hi hs => ⟨rr_body_inv q s i hi hs.1, rr_wait_body q hq s i hi hs.2.1,
            rr_body_fits q hq s i hi hs.2.1 hs.2.2⟩)
          n 0 st r ⟨hinv, hw, hf⟩ hr
        exact ih _ (rr_arrival_scan_inv r hP.1) (rr_wait_scan r hP.2.1) (rr_scan_fits r hP.2.2)
    · rfl

theorem round_robin_scheduling32_eq (ps : List Process) (q : Int) (hv : Valid ps)
    (hq : 0 < q) (hfit : Fits ps) (fuel : Nat) :
    round_robin_scheduling32 fuel ps q = round_robin_scheduling fuel ps q := by
  have hb : ∀ p ∈ ps, 0 < p.burst_time := fun p hp => (hv.2 p hp).2.1
  simp only [round_robin_scheduling32, round_robin_scheduling,
    rr_while32_eq q hq fuel _ (rr_init_inv ps hb) (rr_wait_init ps hb) (rr_fits_init ps hv hfit)]

/-! ## `int` arithmetic: results do not depend on the fuel -/

theorem sjf_loop32_mono (fuel : Nat) (st r : SjfState) (h : sjf_loop32 fuel st = some r)
    (fuel2 : Nat) (hle : fuel ≤ fuel2) : sjf_loop32 fuel2 st = some r := by
  induction fuel generalizing st fuel2 with
  | zero => simp [sjf_loop32] at h
  | succ n ih =>
    obtain ⟨m, rfl⟩ : ∃ m, fuel2 = m + 1 := ⟨fuel2 - 1, by omega⟩
    simp only [sjf_loop32] at h ⊢
    split
    · rename_i hc
      rw [if_pos hc] at h
      exact ih _ h m (by omega)
    · rename_i hc
      rw [if_neg hc] at h
      exact h

theorem srt_loop32_mono (fuel : Nat) (st r : SrtState) (h : srt_loop32 fuel st = some r)
    (fuel2 : Nat) (hle : fuel ≤ fuel2) : srt_loop32 fuel2 st = some r := by
  induction fuel generalizing st fuel2 with
  | zero => simp [srt_loop32] at h
  | succ n ih =>
    obtain ⟨m, rfl⟩ : ∃ m, fuel2 = m + 1 := ⟨fuel2 - 1, by omega⟩
    simp only [srt_loop32] at h ⊢
    split
    · rename_i hc
      rw [if_pos hc] at h
      cases hs : srt_step32 st with
      | none => rw [hs] at h; simp at h
      | some s2 =>
        rw [hs] at h
        exact ih _ h m (by omega)
    · rename_i hc
      rw [if_neg hc] at h
      exact h

theorem rr_for32_mono (q : Int) (fuel : Nat) :
    ∀ (i : Nat) (st r : RrState), rr_for32 q fuel i st = some r →
      ∀ fuel2, fuel ≤ fuel2 → rr_for32 q fuel2 i st = some r := by
  induction fuel with
  | zero => intro i st r h; simp [rr_for32] at h
  | succ n ih =>
    intro i st r h fuel2 hle
    obtain ⟨m, rfl⟩ : ∃ m, fuel2 = m + 1 := ⟨fuel2 - 1, by omega⟩
    simp only [rr_for32] at h ⊢
    split
    · rename_i hi
      rw [dif_pos hi] at h
      exact ih _ _ r h m (by omega)
    · rename_i hi
      rw [dif_neg hi] at h
      exact h

theorem rr_while32_mono (q : Int) (fuel : Nat) :
    ∀ (st r : RrState), rr_while32 q fuel st = some r →
      ∀ fuel2, fuel ≤ fuel2 → rr_while32 q fuel2 st = some r := by
  induction fuel with
  | zero => intro st r h; simp [rr_while32] at h
  | succ n ih =>
    intro st r h fuel2 hle
    obtain ⟨m, rfl⟩ : ∃ m, fuel2 = m + 1 := ⟨fuel2 - 1, by omega⟩
    simp only [rr_while32] at h ⊢
    split
    · rename_i hc
      rw [if_pos hc] at h
      cases hf : rr_for32 q n 0 st with
      | none => rw [hf] at h; simp at h
      | some s2 =>
        rw [hf] at h
        rw [rr_for32_mono q n 0 st s2 hf m (by omega)]
        exact ih _ r h m (by omega)
    · rename_i hc
      rw [if_neg hc] at h
      exact h

theorem sjf_scheduling32_mono (fuel : Nat) (ps r : List Process)
    (h : sjf_scheduling32 fuel ps = some r) (fuel2 : Nat) (hle : fuel ≤ fuel2) :
    sjf_scheduling32 fuel2 ps = some r := by
  simp only [sjf_scheduling32, Option.map_eq_some'] at h ⊢
  obtain ⟨st, hst, hr⟩ := h
  exact ⟨st, sjf_loop32_mono fuel _ st hst fuel2 hle, hr⟩

theorem srt_scheduling32_mono (fuel : Nat) (ps r : List Process)
    (h : srt_scheduling32 fuel ps = some r) (fuel2 : Nat) (hle : fuel ≤ fuel2) :
    srt_scheduling32 fuel2 ps = some r := by
  simp only [srt_scheduling32, Option.map_eq_some'] at h ⊢
  obtain ⟨st, hst, hr⟩ := h
  exact ⟨st, srt_loop32_mono fuel _ st hst fuel2 hle, hr⟩

theorem round_robin_scheduling32_mono (fuel : Nat) (ps r : List Process) (q : Int)
    (h : round_robin_scheduling32 fuel ps q = some r) (fuel2 : Nat) (hle : fuel ≤ fuel2) :
    round_robin_scheduling32 fuel2 ps q = some r := by
  simp only [round_robin_scheduling32, Option.map_eq_some'] at h ⊢
  obtain ⟨st, hst, hr⟩ := h
  exact ⟨st, rr_while32_mono q fuel _ st hst fuel2 hle, hr⟩

theorem sjf_loop32_step (n : Nat) (st : SjfState)
    (hg : st.completed_processes.length < st.processes.length) :
    sjf_loop32 (n + 1) st = sjf_loop32 n (sjf_step32 st) := by
  simp only [sjf_loop32, if_pos hg]

theorem srt_loop32_step (n : Nat) (st st2 : SrtState)
    (hg : st.completed < st.processes.length) (hs : srt_step32 st = some st2) :
    srt_loop32 (n + 1) st = srt_loop32 n st2 := by
  simp only [srt_loop32, if_pos hg, hs]

theorem srt_step32_idle (st : SrtState) (h : srt_select st = none) :
    srt_step32 st = some { st with current_time := wrap32 (st.current_time + 1)
                                   executed := st.executed ++ [none] } := by
  simp only [srt_step32, h]

theorem srt_step32_run (st : SrtState) (i : Nat) (h : srt_select st = some i)
    (hi : i < st.processes.length)
    (hr : wrap32 (st.processes[i].remaining_time - 1) ≠ 0) :
    srt_step32 st = some { st with
      current_time := wrap32 (st.current_time + 1)
      processes := st.processes.set i
        { st.processes[i] with
          remaining_time := wrap32 (st.processes[i].remaining_time - 1) }
      executed := st.executed ++ [some i] } := by
  simp only [srt_step32, h, List.getD_eq_getElem _ _ hi, if_neg hr]

/-- While process 3 has not arrived, `sjf_scheduling` idles. -/
theorem sjf_idle_step (t : Int) (h1 : -2147483648 ≤ t) (h2 : t < 1) :
    sjf_step32 (sjf_idle_state t) = sjf_idle_state (t + 1) := by
  have hq : sjf_ready_queue (sjf_idle_state t) = [] := by
    have h0 : sjf_is_ready (sjf_idle_state t) 0 = false := by
      show (decide ((0 : Int) ≤ t) && !true) = false
      simp
    have h1 : sjf_is_ready (sjf_idle_state t) 1 = false := by
      show (decide ((2147483645 : Int) ≤ t) && !true) = false
      simp
    have h2 : sjf_is_ready (sjf_idle_state t) 2 = false := by
      show (decide ((1 : Int) ≤ t) && !false) = false
      simp
      omega
    show List.filter (sjf_is_ready (sjf_idle_state t)) [0, 1, 2] = []
    simp [List.filter, h0, h1, h2]
  have hsel : sjf_select (sjf_idle_state t) = none := by
    simp only [sjf_select, hq, min_element]
  simp only [sjf_step32, hsel]
  have e : wrap32 ((sjf_idle_state t).current_time + 1) = t + 1 :=
    wrap32_eq _ (by show -2147483648 ≤ t + 1; omega)
      (by show t + 1 ≤ 2147483647; omega)
  rw [e]
  rfl

theorem sjf_idle_run (n k : Nat) :
    ∀ t t2 : Int, -2147483648 ≤ t → t2 = t + k → t2 ≤ 1 →
      sjf_loop32 (n + k) (sjf_idle_state t) = sjf_loop32 n (sjf_idle_state t2) := by
  induction k with
  | zero =>
    intro t t2 _ ht2 _
    have : t2 = t := by simpa using ht2
    rw [this]; rfl
  | succ k ih =>
    intro t t2 h1 ht2 h3
    push_cast at ht2
    show sjf_loop32 ((n + k) + 1) (sjf_idle_state t) = _
    rw [sjf_loop32_step _ _ (by show (2 : Nat) < 3; decide), sjf_idle_step t h1 (by omega)]
    exact ih (t + 1) t2 (by omega) (by omega) h3

/-- While process 2 has not arrived, `srt_scheduling` runs process 1. -/
theorem srt_run_step (t r : Int) (e : List (Option Nat)) (m : List Nat)
    (h1 : 4 ≤ t) (h2 : t < 2147483645) (h3 : 2 ≤ r) (h4 : r ≤ 2147483647) :
    srt_step32 (srt_run_state t r e m) =
      some (srt_run_state (t + 1) (r - 1) (e ++ [some 0]) m) := by
  have hq : srt_ready_queue (srt_run_state t r e m) = [0] := by
    have h0 : srt_is_ready (srt_run_state t r e m) 0 = true := by
      show (decide ((0 : Int) ≤ t) && !false) = true
      simp
      omega
    have h1 : srt_is_ready (srt_run_state t r e m) 1 = false := by
      show (decide ((2147483645 : Int) ≤ t) && !false) = false
      simp
      omega
    have h2 : srt_is_ready (srt_run_state t r e m) 2 = false := by
      show (decide ((1 : Int) ≤ t) && !true) = false
      simp
    show List.filter (srt_is_ready (srt_run_state t r e m)) [0, 1, 2] = [0]
    simp [List.filter, h0, h1, h2]
  have hsel : srt_select (srt_run_state t r e m) = some 0 := by
    simp only [srt_select, hq, min_element, min_element_from]
  have e1 : wrap32 (r - 1) = r - 1 :=
    wrap32_eq _ (by omega) (by simp only [INT_MAX]; omega)
  have e2 : wrap32 (t + 1) = t + 1 :=
    wrap32_eq _ (by omega) (by simp only [INT_MAX]; omega)
  have hstep := srt_step32_run (srt_run_state t r e m) 0 hsel (by show (0 : Nat) < 3; decide)
    (by show wrap32 (r - 1) ≠ 0; rw [e1]; omega)
  rw [hstep]
  show some (srt_run_state (wrap32 (t + 1)) (wrap32 (r - 1)) (e ++ [some 0]) m) = _
  rw [e1, e2]

theorem srt_run_run (n k : Nat) :
    ∀ (t r t2 r2 : Int) (e : List (Option Nat)) (m : List Nat),
      4 ≤ t → r ≤ 2147483647 → t2 = t + k → r2 = r - k → t2 ≤ 2147483645 → 1 ≤ r2 →
      srt_loop32 (n + k) (srt_run_state t r e m) =
        srt_loop32 n (srt_run_state t2 r2 (e ++ List.replicate k (some 0)) m) := by
  induction k with
  | zero =>
    intro t r t2 r2 e m _ _ ht2 hr2 _ _
    have e1 : t2 = t := by simpa using ht2
    have e2 : r2 = r := by simpa using hr2
    rw [e1, e2]
    simp
  | succ k ih =>
    intro t r t2 r2 e m h1 h2 ht2 hr2 h3 h4
    push_cast at ht2 hr2
    show srt_loop32 ((n + k) + 1) (srt_run_state t r e m) = _
    rw [srt_loop32_step _ _ _ (by show (1 : Int) < ((3 : Nat) : Int); decide) (srt_run_step t r e m h1 (by omega) (by omega) h2)]
    rw [ih (t + 1) (r - 1) t2 r2 (e ++ [some 0]) m (by omega) (by omega) (by omega) (by omega)
      h3 h4]
    simp [List.replicate_succ]

/-- While process 2 has not arrived again after the clock has wrapped,
`srt_scheduling` idles. -/
theorem srt_idle_step (t : Int) (e : List (Option Nat)) (m : List Nat)
    (h1 : -2147483648 ≤ t) (h2 : t < 2147483645) :
    srt_step32 (srt_last_state t 3 e m) = some (srt_last_state (t + 1) 3 (e ++ [none]) m) := by
  have hq : srt_ready_queue (srt_last_state t 3 e m) = [] := by
    have h0 : srt_is_ready (srt_last_state t 3 e m) 0 = false := by
      show (decide ((0 : Int) ≤ t) && !true) = false
      simp
    have h1 : srt_is_ready (srt_last_state t 3 e m) 1 = false := by
      show (decide ((2147483645 : Int) ≤ t) && !false) = false
      simp
      omega
    have h2 : srt_is_ready (srt_last_state t 3 e m) 2 = false := by
      show (decide ((1 : Int) ≤ t) && !true) = false
      simp
    show List.filter (srt_is_ready (srt_last_state t 3 e m)) [0, 1, 2] = []
    simp [List.filter, h0, h1, h2]
  have hsel : srt_select (srt_last_state t 3 e m) = none := by
    simp only [srt_select, hq, min_element]
  rw [srt_step32_idle _ hsel]
  show some (srt_last_state (wrap32 (t + 1)) 3 (e ++ [none]) m) = _
  rw [wrap32_eq _ (by omega) (by simp only [INT_MAX]; omega)]

theorem srt_idle_run (n k : Nat) :
    ∀ (t t2 : Int) (e : List (Option Nat)) (m : List Nat),
      -2147483648 ≤ t → t2 = t + k → t2 ≤ 2147483645 →
      srt_loop32 (n + k) (srt_last_state t 3 e m) =
        srt_loop32 n (srt_last_state t2 3 (e ++ List.replicate k none) m) := by
  induction k with
  | zero =>
    intro t t2 e m _ ht2 _
    have e1 : t2 = t := by simpa using ht2
    rw [e1]
    simp
  | succ k ih =>
    intro t t2 e m h1 ht2 h3
    push_cast at ht2
    show srt_loop32 ((n + k) + 1) (srt_last_state t 3 e m) = _
    rw [srt_loop32_step _ _ _ (by show (2 : Int) < ((3 : Nat) : Int); decide) (srt_idle_step t e m h1 (by omega))]
    rw [ih (t + 1) t2 (e ++ [none]) m (by omega) (by omega) h3]
    simp [List.replicate_succ]

/-- The run of `sjf_scheduling`, in `int` arithmetic, on `overflow_srt_input`:
processes 1 and 2 run, the clock wraps, and after `k = 2147483649` idle
iterations process 3 is started at its arrival time. -/
theorem sjf_overflow_run (k : Nat) (hk : (1 : Int) = -2147483648 + k) :
    sjf_loop32 (((1 + 1) + k) + 2) (sjf_init overflow_srt_input) =
      some { current_time := 4
             processes := [⟨1, 0, 2147483645, 0, 2147483645, 2147483645⟩,
                           ⟨2, 2147483645, 3, 0, 3, 3⟩, ⟨3, 1, 3, 0, 3, 3⟩]
             completed_processes := [⟨1, 0, 2147483645, 0, 2147483645, 2147483645⟩,
                                     ⟨2, 2147483645, 3, 0, 3, 3⟩, ⟨3, 1, 3, 0, 3, 3⟩] } := by
  have h2 : sjf_step32 (sjf_step32 (sjf_init overflow_srt_input)) =
      sjf_idle_state (-2147483648) := by decide
  show sjf_loop32 ((((1 + 1) + k) + 1) + 1) (sjf_init overflow_srt_input) = _
  rw [sjf_loop32_step _ _ (by decide), sjf_loop32_step _ _ (by decide), h2]
  rw [sjf_idle_run (1 + 1) k (-2147483648) 1 (le_refl _) hk (le_refl _)]
  decide

/-- The run of `srt_scheduling`, in `int` arithmetic, on `overflow_srt_input`:
process 3 preempts process 1 at time 1, process 1 runs for `k1 = 2147483641`
units until process 2 arrives and then to its end, where the clock wraps;
after `k2 = 4294967293` idle iterations process 2 runs. -/
theorem srt_overflow_run (k1 k2 : Nat) (hk1 : (2147483645 : Int) = 4 + k1)
    (hk2 : (2147483645 : Int) = -2147483648 + k2) :
    (srt_loop32 (((((0 + 1) + 3) + k2) + 3 + k1) + 4) (srt_init overflow_srt_input)).map
        (fun st => st.processes) =
      some [⟨1, 0, 2147483645, 3, -2147483648, 0⟩, ⟨2, 2147483645, 3, 0, 3, 0⟩,
            ⟨3, 1, 3, 0, 3, 0⟩] := by
  have a1 : srt_step32 (srt_init overflow_srt_input) =
      some { current_time := 1, completed := 0
             processes := [⟨1, 0, 2147483645, 0, 0, 2147483644⟩, ⟨2, 2147483645, 3, 0, 0, 3⟩,
                           ⟨3, 1, 3, 0, 0, 3⟩]
             is_completed := [false, false, false], executed := [some 0], marked := [] } := by
    decide
  have a2 : srt_step32
      { current_time := 1, completed := 0
        processes := [⟨1, 0, 2147483645, 0, 0, 2147483644⟩, ⟨2, 2147483645, 3, 0, 0, 3⟩,
                      ⟨3, 1, 3, 0, 0, 3⟩]
        is_completed := [false, false, false], executed := [some 0], marked := [] } =
      some { current_time := 2, completed := 0
             processes := [⟨1, 0, 2147483645, 0, 0, 2147483644⟩, ⟨2, 2147483645, 3, 0, 0, 3⟩,
                           ⟨3, 1, 3, 0, 0, 2⟩]
             is_completed := [false, false, false], executed := [some 0, some 2],
             marked := [] } := by
    decide
  have a3 : srt_step32
      { current_time := 2, completed := 0
        processes := [⟨1, 0, 2147483645, 0, 0, 2147483644⟩, ⟨2, 2147483645, 3, 0, 0, 3⟩,
                      ⟨3, 1, 3, 0, 0, 2⟩]
        is_completed := [false, false, false], executed := [some 0, some 2],
        marked := [] } =
      some { current_time := 3, completed := 0
             processes := [⟨1, 0, 2147483645, 0, 0, 2147483644⟩, ⟨2, 2147483645, 3, 0, 0, 3⟩,
                           ⟨3, 1, 3, 0, 0, 1⟩]
             is_completed := [false, false, false], executed := [some 0, some 2, some 2],
             marked := [] } := by
    decide
  have a4 : srt_step32
      { current_time := 3, completed := 0
        processes := [⟨1, 0, 2147483645, 0, 0, 2147483644⟩, ⟨2, 2147483645, 3, 0, 0, 3⟩,
                      ⟨3, 1, 3, 0, 0, 1⟩]
        is_completed := [false, false, false], executed := [some 0, some 2, some 2],
        marked := [] } =
      some (srt_run_state 4 2147483644 [some 0, some 2, some 2, some 2] [2]) := by
    decide
  have c1 : ∀ (e : List (Option Nat)) (m : List Nat),
      srt_step32 (srt_run_state 2147483645 3 e m) =
        some (srt_run_state 2147483646 2 (e ++ [some 0]) m) := fun _ _ => rfl
  have c2 : ∀ (e : List (Option Nat)) (m : List Nat),
      srt_step32 (srt_run_state 2147483646 2 e m) =
        some (srt_run_state 2147483647 1 (e ++ [some 0]) m) := fun _ _ => rfl
  have c3 : ∀ (e : List (Option Nat)) (m : List Nat),
      srt_step32 (srt_run_state 2147483647 1 e m) =
        some (srt_last_state (-2147483648) 3 (e ++ [some 0]) (m ++ [0])) := fun _ _ => rfl
  have d1 : ∀ (e : List (Option Nat)) (m : List Nat),
      srt_step32 (srt_last_state 2147483645 3 e m) =
        some (srt_last_state 2147483646 2 (e ++ [some 1]) m) := fun _ _ => rfl
  have d2 : ∀ (e : List (Option Nat)) (m : List Nat),
      srt_step32 (srt_last_state 2147483646 2 e m) =
        some (srt_last_state 2147483647 1 (e ++ [some 1]) m) := fun _ _ => rfl
  have d3 : ∀ (e : List (Option Nat)) (m : List Nat),
      srt_step32 (srt_last_state 2147483647 1 e m) =
        some (srt_final_state (e ++ [some 1]) (m ++ [1])) := fun _ _ => rfl
  have gR : ∀ (t r : Int) (e : List (Option Nat)) (m : List Nat),
      (srt_run_state t r e m).completed < (srt_run_state t r e m).processes.length := by
    intro t r e m
    show (1 : Int) < ((3 : Nat) : Int)
    decide
  have gL : ∀ (t r : Int) (e : List (Option Nat)) (m : List Nat),
      (srt_last_state t r e m).completed < (srt_last_state t r e m).processes.length := by
    intro t r e m
    show (2 : Int) < ((3 : Nat) : Int)
    decide
  have gF : ∀ (e : List (Option Nat)) (m : List Nat),
      ¬ ((srt_final_state e m).completed < (srt_final_state e m).processes.length) := by
    intro e m
    show ¬ ((3 : Int) < ((3 : Nat) : Int))
    decide
  show (srt_loop32 (((((((((0 + 1) + 3) + k2) + 3) + k1) + 1) + 1) + 1) + 1)
    (srt_init overflow_srt_input)).map (fun st => st.processes) = _
  rw [srt_loop32_step _ _ _ (by decide) a1, srt_loop32_step _ _ _ (by decide) a2,
    srt_loop32_step _ _ _ (by decide) a3, srt_loop32_step _ _ _ (by decide) a4]
  rw [srt_run_run _ k1 4 2147483644 2147483645 3 _ _ (by decide) (by decide) hk1 (by omega)
    (le_refl _) (by decide)]
  show (srt_loop32 (((((0 + 1) + 3) + k2) + 1 + 1) + 1) _).map (fun st => st.processes) = _
  rw [srt_loop32_step _ _ _ (gR _ _ _ _) (c1 _ _), srt_loop32_step _ _ _ (gR _ _ _ _) (c2 _ _),
    srt_loop32_step _ _ _ (gR _ _ _ _) (c3 _ _)]
  rw [srt_idle_run _ k2 (-2147483648) 2147483645 _ _ (le_refl _) hk2 (le_refl _)]
  show (srt_loop32 ((((0 + 1) + 1) + 1) + 1) _).map (fun st => st.processes) = _
  rw [srt_loop32_step _ _ _ (gL _ _ _ _) (d1 _ _), srt_loop32_step _ _ _ (gL _ _ _ _) (d2 _ _),
    srt_loop32_step _ _ _ (gL _ _ _ _) (d3 _ _)]
  simp only [srt_loop32, if_neg (gF _ _), Option.map_some']
  rfl

/-! # The claims -/

/-- C1, as the specification states it, fails: the times are computed in
32-bit `int`.  On the valid input `(1,0,2000000000) (2,0,2000000000) (3,0,1)`
`fcfs_scheduling` gives process 2 the waiting time 2000000000 and the
turnaround time `2000000000 + 2000000000` wrapped to -294967296, so its
turnaround time is not its waiting time plus its burst time. -/
theorem C1_counterexample :
    Valid overflow_input ∧
    fcfs_scheduling32 overflow_input =
      [⟨1, 0, 2000000000, 0, 2000000000, 2000000000⟩,
       ⟨2, 0, 2000000000, 2000000000, -294967296, 2000000000⟩,
       ⟨3, 0, 1, 0, 1, 1⟩] ∧
    ¬ (∀ p ∈ fcfs_scheduling32 overflow_input,
        p.turnaround_time = p.waiting_time + p.burst_time) := by
  decide

/-- C1, amended: for each of the four schedulers, in `int` arithmetic, and
every valid input with a positive quantum whose schedule fits in `int` (every
arrival time plus the sum of all burst times is at most `INT_MAX`), whenever
the scheduler returns, its result has one record per input process and every
record satisfies `turnaround_time = waiting_time + burst_time`. -/
theorem C1_turnaround_eq_waiting_plus_burst (ps : List Process) (time_quantum : Int)
    (hv : Valid ps) (hq : 0 < time_quantum) (hfit : Fits ps) :
    ((fcfs_scheduling32 ps).length = ps.length ∧
      ∀ p ∈ fcfs_scheduling32 ps, p.turnaround_time = p.waiting_time + p.burst_time) ∧
    (∀ fuel r, sjf_scheduling32 fuel ps = some r →
      r.length = ps.length ∧
        ∀ p ∈ r, p.turnaround_time = p.waiting_time + p.burst_time) ∧
    (∀ fuel r, srt_scheduling32 fuel ps = some r →
      r.length = ps.length ∧
        ∀ p ∈ r, p.turnaround_time = p.waiting_time + p.burst_time) ∧
    (∀ fuel r, round_robin_scheduling32 fuel ps time_quantum = some r →
      r.length = ps.length ∧
        ∀ p ∈ r, p.turnaround_time = p.waiting_time + p.burst_time) := by
  have hs : ∀ p ∈ ps, 0 ≤ p.arrival_time ∧ 0 ≤ p.burst_time :=
    fun p hp => ⟨(hv.2 p hp).1, le_of_lt (hv.2 p hp).2.1⟩
  rw [fcfs_scheduling32_eq ps hs hfit]
  simp only [sjf_scheduling32_eq ps hv hfit, srt_scheduling32_eq ps hv hfit,
    round_robin_scheduling32_eq ps time_quantum hv hq hfit]
  exact turnaround_eq_waiting_plus_burst ps time_quantum hv hq

/-- Witness for C1, amended: the sample data of `main` with quantum 3. -/
theorem C1_witness :
    Valid sample ∧ (0 : Int) < sample_quantum ∧ Fits sample ∧
    (((fcfs_scheduling32 sample).length = sample.length ∧
      ∀ p ∈ fcfs_scheduling32 sample, p.turnaround_time = p.waiting_time + p.burst_time) ∧
    (∀ fuel r, sjf_scheduling32 fuel sample = some r →
      r.length = sample.length ∧
        ∀ p ∈ r, p.turnaround_time = p.waiting_time + p.burst_time) ∧
    (∀ fuel r, srt_scheduling32 fuel sample = some r →
      r.length = sample.length ∧
        ∀ p ∈ r, p.turnaround_time = p.waiting_time + p.burst_time) ∧
    (∀ fuel r, round_robin_scheduling32 fuel sample sample_quantum = some r →
      r.length = sample.length ∧
        ∀ p ∈ r, p.turnaround_time = p.waiting_time + p.burst_time)) :=
  ⟨by decide, by decide, by decide,
    C1_turnaround_eq_waiting_plus_burst sample sample_quantum (by decide) (by decide)
      (by decide)⟩

/-- C2: on every valid input, idle gaps included, `srt_scheduling` ends: from
some fuel on it returns one and the same final state, in which the counter
equals N and every process has been marked completed exactly once, has
`remaining_time = 0` and has been executed for exactly `burst_time` units. -/
theorem C2_srt_completes_every_process (ps : List Process) (hv : Valid ps) :
    ∃ N st, (∀ fuel, N ≤ fuel → srt_run fuel ps = some st) ∧
      st.processes.length = ps.length ∧ st.completed = ps.length ∧
      ∀ i (hi : i < ps.length),
        st.marked.count i = 1 ∧
        st.is_completed.getD i false = true ∧
        (st.processes.getD i default).remaining_time = 0 ∧
        (st.executed.count (some i) : Int) = ps[i].burst_time := by
  obtain ⟨T, hT⟩ := arrival_bound_exists ps
  obtain ⟨st, hst⟩ := srt_loop_terminates ps hv T hT
    (srt_work (srt_init ps) + (T - (srt_init ps).current_time).toNat)
    (srt_init ps) (srt_init_inv ps hv) (le_refl _)
  obtain ⟨hinv, hc⟩ := srt_loop_rule (SrtInv ps) (srt_inv_step ps hv) _
    (srt_init ps) st (srt_init_inv ps hv) hst
  have hlen := keys_length ps st.processes hinv.keys
  refine ⟨_, st, fun fuel hf => srt_loop_mono _ _ st hst fuel hf, hlen, ?_, ?_⟩
  · have h1 := hinv.count
    have h2 := hinv.flags
    have h3 := List.count_le_length true st.is_completed
    omega
  · intro i hi
    have hi2 : i < st.processes.length := by omega
    obtain ⟨hflag, hrem⟩ := srt_inv_final ps st hinv hc i hi2
    have hm := hinv.marked i hi2
    have he := hinv.executed i hi2
    have hk := keys_getElem ps st.processes hinv.keys i hi2 hi
    simp only [Process.key, Prod.mk.injEq] at hk
    refine ⟨by rw [hm, if_pos hflag], hflag, ?_, ?_⟩
    · rw [List.getD_eq_getElem _ _ hi2]; exact hrem
    · rw [← hk.2.2]; omega

/-- Witness for C2: an input with an idle gap before the first arrival and
another between the arrivals. -/
theorem C2_witness :
    Valid gap_input ∧
    ∃ N st, (∀ fuel, N ≤ fuel → srt_run fuel gap_input = some st) ∧
      st.processes.length = gap_input.length ∧ st.completed = gap_input.length ∧
      ∀ i (hi : i < gap_input.length),
        st.marked.count i = 1 ∧
        st.is_completed.getD i false = true ∧
        (st.processes.getD i default).remaining_time = 0 ∧
        (st.executed.count (some i) : Int) = gap_input[i].burst_time :=
  ⟨by decide, C2_srt_completes_every_process gap_input (by decide)⟩

/-- C3 (the code departs from the claim): on the valid input
`(1,0,1) (2,5,1)` with quantum 1, where process 1 arrives at time 0,
`round_robin_scheduling` never returns: once process 1 has finished at time 1
the ready queue is empty, the arrival scan admits nothing, and the clock is
never advanced to the arrival of process 2. -/
theorem C3_round_robin_never_returns_on_late_arrival :
    Valid late_input ∧ (∃ p ∈ late_input, p.arrival_time = 0) ∧
    ∀ fuel, round_robin_scheduling fuel late_input 1 = none := by
  refine ⟨by decide, by decide, ?_⟩
  intro fuel
  have hstuck := rr_while_stuck 1
    { current_time := 1, ready_queue := [], completed_processes := 1,
      processes := [⟨1, 0, 1, 0, 1, 0⟩, ⟨2, 5, 1, 0, 0, 1⟩] } rfl (by decide) (by decide)
  cases fuel with
  | zero => rfl
  | succ n =>
    cases n with
    | zero => rfl
    | succ m =>
      cases m with
      | zero => rfl
      | succ k =>
        have hfor : rr_for 1 (k + 2) 0 (rr_init late_input) =
            some { current_time := 1, ready_queue := [], completed_processes := 1,
                   processes := [⟨1, 0, 1, 0, 1, 0⟩, ⟨2, 5, 1, 0, 0, 1⟩] } :=
          rr_for_mono 1 2 0 _ _ (by decide) (k + 2) (by omega)
        have hadm : rr_arrival_scan
            { current_time := 1, ready_queue := [], completed_processes := 1,
              processes := [⟨1, 0, 1, 0, 1, 0⟩, ⟨2, 5, 1, 0, 0, 1⟩] } =
            { current_time := 1, ready_queue := [], completed_processes := 1,
              processes := [⟨1, 0, 1, 0, 1, 0⟩, ⟨2, 5, 1, 0, 0, 1⟩] } := by decide
        have hc : (rr_init late_input).completed_processes <
            ((rr_init late_input).processes.length : Int) := by decide
        show Option.map _ (rr_while 1 (k + 2 + 1) (rr_init late_input)) = none
        rw [rr_while, if_pos hc, hfor]
        simp only [hadm, hstuck (k + 2), Option.map_none']

/-- C4 (the code departs from the claim): on the sample data with quantum 3,
`round_robin_scheduling` returns, for any fuel of 12 or more, waiting and
turnaround times that differ from those of the section 4.4 algorithm: the
code runs process 1 from time 0 to 8 (waiting 0, turnaround 8) because it
admits the arrivals only once the queue is empty, where section 4.4 admits
them after the first slice (waiting 9, turnaround 17). -/
theorem C4_round_robin_differs_from_reference :
    (∀ fuel, 12 ≤ fuel →
      (round_robin_scheduling fuel sample sample_quantum).map
        (fun r => r.map (fun p => (p.pid, p.waiting_time, p.turnaround_time))) =
      some [(1, 0, 8), (2, 13, 17), (3, 15, 24), (4, 15, 20)]) ∧
    (∀ fuel, 12 ≤ fuel →
      (reference_round_robin fuel sample sample_quantum).map
        (fun r => r.map (fun p => (p.pid, p.waiting_time, p.turnaround_time))) =
      some [(1, 9, 17), (2, 13, 17), (3, 15, 24), (4, 15, 20)]) ∧
    (∀ fuel, 12 ≤ fuel →
      [1, 2, 3, 4].map (fun pid =>
          (round_robin_scheduling fuel sample sample_quantum).bind
            (fun r => waiting_time_of r pid)) ≠
        [1, 2, 3, 4].map (fun pid =>
          (reference_round_robin fuel sample sample_quantum).bind
            (fun r => waiting_time_of r pid))) := by
  refine ⟨?_, ?_, ?_⟩
  · intro fuel hf
    have h : rr_while sample_quantum 12 (rr_init sample) =
        some { current_time := 26, ready_queue := [], completed_processes := 4,
               processes := [⟨1, 0, 8, 0, 8, 0⟩, ⟨2, 1, 4, 13, 17, 0⟩, ⟨3, 2, 9, 15, 24, 0⟩,
                 ⟨4, 3, 5, 15, 20, 0⟩] } := by decide
    simp only [round_robin_scheduling, rr_while_mono _ 12 _ _ h fuel hf]
    decide
  · intro fuel hf
    have h : reference_loop sample_quantum 12 (rr_init sample) =
        some { current_time := 26, ready_queue := [], completed_processes := 4,
               processes := [⟨1, 0, 8, 9, 17, 0⟩, ⟨2, 1, 4, 13, 17, 0⟩, ⟨3, 2, 9, 15, 24, 0⟩,
                 ⟨4, 3, 5, 15, 20, 0⟩] } := by decide
    simp only [reference_round_robin, reference_loop_mono _ 12 _ _ h fuel hf]
    decide
  · intro fuel hf
    have h1 : rr_while sample_quantum 12 (rr_init sample) =
        some { current_time := 26, ready_queue := [], completed_processes := 4,
               processes := [⟨1, 0, 8, 0, 8, 0⟩, ⟨2, 1, 4, 13, 17, 0⟩, ⟨3, 2, 9, 15, 24, 0⟩,
                 ⟨4, 3, 5, 15, 20, 0⟩] } := by decide
    have h2 : reference_loop sample_quantum 12 (rr_init sample) =
        some { current_time := 26, ready_queue := [], completed_processes := 4,
               processes := [⟨1, 0, 8, 9, 17, 0⟩, ⟨2, 1, 4, 13, 17, 0⟩, ⟨3, 2, 9, 15, 24, 0⟩,
                 ⟨4, 3, 5, 15, 20, 0⟩] } := by decide
    simp only [round_robin_scheduling, reference_round_robin,
      rr_while_mono _ 12 _ _ h1 fuel hf, reference_loop_mono _ 12 _ _ h2 fuel hf]
    decide

/-- C5, as the specification states it, fails: on the sample data
`fcfs_scheduling` does not give waiting times `[0,7,11,17]` and turnaround
times `[8,11,20,22]`. -/
theorem C5_counterexample :
    ¬ ((fcfs_scheduling sample).map (fun p => p.waiting_time) = [0, 7, 11, 17] ∧
       (fcfs_scheduling sample).map (fun p => p.turnaround_time) = [8, 11, 20, 22]) := by
  decide

/-- C5, amended: on the sample data `fcfs_scheduling` returns processes
1, 2, 3, 4 in this order with waiting times `[0,7,10,18]` and turnaround
times `[8,11,19,23]`. -/
theorem C5_fcfs_sample :
    (fcfs_scheduling sample).map (fun p => p.pid) = [1, 2, 3, 4] ∧
    (fcfs_scheduling sample).map (fun p => p.waiting_time) = [0, 7, 10, 18] ∧
    (fcfs_scheduling sample).map (fun p => p.turnaround_time) = [8, 11, 19, 23] := by
  decide

/-- C6: on the sample data the means computed by `display_results` over the
result of `fcfs_scheduling` are 8.75 for `waiting_time` and 15.25 for
`turnaround_time`, as exact rationals. -/
theorem C6_fcfs_sample_averages :
    avg_waiting_time (fcfs_scheduling sample) = 8.75 ∧
    avg_turnaround_time (fcfs_scheduling sample) = 15.25 := by
  have h : fcfs_scheduling sample =
      [⟨1, 0, 8, 0, 8, 8⟩, ⟨2, 1, 4, 7, 11, 4⟩, ⟨3, 2, 9, 10, 19, 9⟩, ⟨4, 3, 5, 18, 23, 5⟩] := by
    decide
  rw [h]
  constructor
  · simp only [avg_waiting_time, List.map_cons, List.map_nil, List.sum_cons, List.sum_nil,
      List.length_cons, List.length_nil]
    norm_num
  · simp only [avg_turnaround_time, List.map_cons, List.map_nil, List.sum_cons, List.sum_nil,
      List.length_cons, List.length_nil]
    norm_num

/-- C7, as the specification states it, fails: no run of `sjf_scheduling` on
the sample data gives processes 1, 2, 3, 4 the waiting times 0, 7, 6, 12. -/
theorem C7_counterexample :
    ¬ ∃ fuel r, sjf_scheduling fuel sample = some r ∧
      [1, 2, 3, 4].map (waiting_time_of r) = [some 0, some 7, some 6, some 12] := by
  rintro ⟨fuel, r, hr, hw⟩
  have h5 : sjf_scheduling 5 sample =
      some [⟨1, 0, 8, 0, 8, 8⟩, ⟨2, 1, 4, 7, 11, 4⟩, ⟨4, 3, 5, 9, 14, 5⟩,
        ⟨3, 2, 9, 15, 24, 9⟩] := by decide
  rw [sjf_scheduling_unique sample fuel 5 r _ hr h5] at hw
  revert hw
  decide

/-- C7, amended: on the sample data `sjf_scheduling` returns, for any fuel of
5 or more, the processes in the order 1, 2, 4, 3 in which it ran them, process
1 first from time 0, and the waiting times of processes 1, 2, 3, 4 are
0, 7, 15, 9. -/
theorem C7_sjf_sample :
    ∃ r, (∀ fuel, 5 ≤ fuel → sjf_scheduling fuel sample = some r) ∧
      r.map (fun p => (p.pid, p.start)) = [(1, 0), (2, 8), (4, 12), (3, 17)] ∧
      [1, 2, 3, 4].map (waiting_time_of r) = [some 0, some 7, some 15, some 9] := by
  have h5 : sjf_loop 5 (sjf_init sample) =
      some { current_time := 26,
             processes := [⟨1, 0, 8, 0, 8, 8⟩, ⟨2, 1, 4, 7, 11, 4⟩, ⟨3, 2, 9, 15, 24, 9⟩,
               ⟨4, 3, 5, 9, 14, 5⟩],
             completed_processes := [⟨1, 0, 8, 0, 8, 8⟩, ⟨2, 1, 4, 7, 11, 4⟩,
               ⟨4, 3, 5, 9, 14, 5⟩, ⟨3, 2, 9, 15, 24, 9⟩] } := by decide
  refine ⟨[⟨1, 0, 8, 0, 8, 8⟩, ⟨2, 1, 4, 7, 11, 4⟩, ⟨4, 3, 5, 9, 14, 5⟩, ⟨3, 2, 9, 15, 24, 9⟩],
    fun fuel hf => ?_, ?_, ?_⟩
  · simp only [sjf_scheduling, sjf_loop_mono 5 _ _ h5 fuel hf, Option.map_some']
  · decide
  · decide

/-- C8, as the specification states it, fails: the times are computed in
32-bit `int`.  On the valid input `(1,0,2147483645) (2,2147483645,3) (3,1,3)`
the clock of `sjf_scheduling` wraps after process 2, process 3 is then
started at its arrival time, and the waiting times are 0, 0, 0; under
`srt_scheduling` process 1 gets the waiting time 3 (processes 2 and 3 get
0), so the sum under SRT is 3 and the sum under SJF is 0. -/
theorem C8_counterexample :
    Valid overflow_srt_input ∧
    (∃ N, ∀ fuel, N ≤ fuel →
      srt_scheduling32 fuel overflow_srt_input =
        some [⟨1, 0, 2147483645, 3, -2147483648, 0⟩, ⟨2, 2147483645, 3, 0, 3, 0⟩,
              ⟨3, 1, 3, 0, 3, 0⟩] ∧
      sjf_scheduling32 fuel overflow_srt_input =
        some [⟨1, 0, 2147483645, 0, 2147483645, 2147483645⟩, ⟨2, 2147483645, 3, 0, 3, 3⟩,
              ⟨3, 1, 3, 0, 3, 3⟩]) ∧
    ¬ ((([⟨1, 0, 2147483645, 3, -2147483648, 0⟩, ⟨2, 2147483645, 3, 0, 3, 0⟩,
          ⟨3, 1, 3, 0, 3, 0⟩] : List Process).map (fun p => p.waiting_time)).sum ≤
       (([⟨1, 0, 2147483645, 0, 2147483645, 2147483645⟩, ⟨2, 2147483645, 3, 0, 3, 3⟩,
          ⟨3, 1, 3, 0, 3, 3⟩] : List Process).map (fun p => p.waiting_time)).sum) := by
  refine ⟨by decide, ?_, by decide⟩
  have hS := srt_overflow_run 2147483641 4294967293 (by norm_num) (by norm_num)
  have hJ := sjf_overflow_run 2147483649 (by norm_num)
  refine ⟨max (((((0 + 1) + 3) + 4294967293) + 3 + 2147483641) + 4)
    (((1 + 1) + 2147483649) + 2), fun fuel hf => ⟨?_, ?_⟩⟩
  · exact srt_scheduling32_mono _ _ _ hS fuel (le_trans (le_max_left _ _) hf)
  · refine sjf_scheduling32_mono _ _ _ ?_ fuel (le_trans (le_max_right _ _) hf)
    simp only [sjf_scheduling32, hJ, Option.map_some']

/-- C8, amended: on every valid input whose schedule fits in `int` (every
arrival time plus the sum of all burst times is at most `INT_MAX`), both
`srt_scheduling` and `sjf_scheduling`, in `int` arithmetic, return, and the
sum of the waiting times that `srt_scheduling` leaves is at most the sum of
the waiting times that `sjf_scheduling` returns for the same input; on a
non-empty input so is the average waiting time. -/
theorem C8_srt_waiting_le_sjf_waiting (ps : List Process) (hv : Valid ps) (hfit : Fits ps) :
    (∃ N rS rJ, ∀ fuel, N ≤ fuel →
      srt_scheduling32 fuel ps = some rS ∧ sjf_scheduling32 fuel ps = some rJ) ∧
    ∀ f1 f2 rS rJ, srt_scheduling32 f1 ps = some rS → sjf_scheduling32 f2 ps = some rJ →
      (rS.map (fun p => p.waiting_time)).sum ≤ (rJ.map (fun p => p.waiting_time)).sum ∧
      (ps ≠ [] → avg_waiting_time rS ≤ avg_waiting_time rJ) := by
  simp only [sjf_scheduling32_eq ps hv hfit, srt_scheduling32_eq ps hv hfit]
  obtain ⟨h1, h2⟩ := srt_waiting_le_sjf_waiting ps hv
  refine ⟨h1, ?_⟩
  intro f1 f2 rS rJ hS hJ
  obtain ⟨h3, h4⟩ := h2 f1 f2 rS rJ hS hJ
  exact ⟨h3, fun _ => h4⟩

/-- Witness for C8, amended: the sample data of `main`, where the sums are 26
for SRT and 31 for SJF. -/
theorem C8_witness :
    Valid sample ∧ Fits sample ∧
    ((∃ N rS rJ, ∀ fuel, N ≤ fuel →
      srt_scheduling32 fuel sample = some rS ∧ sjf_scheduling32 fuel sample = some rJ) ∧
    ∀ f1 f2 rS rJ, srt_scheduling32 f1 sample = some rS →
      sjf_scheduling32 f2 sample = some rJ →
      (rS.map (fun p => p.waiting_time)).sum ≤ (rJ.map (fun p => p.waiting_time)).sum ∧
      (sample ≠ [] → avg_waiting_time rS ≤ avg_waiting_time rJ)) :=
  ⟨by decide, by decide, C8_srt_waiting_le_sjf_waiting sample (by decide) (by decide)⟩

/-- C9, as the specification states it, fails: the times are computed in
32-bit `int`.  On the valid input `(1,0,2000000000) (2,0,2000000000)`
`sjf_scheduling` returns process 2 with waiting time 2000000000 and
turnaround time -294967296, so its run interval does not have length
`burst_time`. -/
theorem C9_counterexample :
    Valid overflow_sjf_input ∧
    (∀ fuel, 3 ≤ fuel → sjf_scheduling32 fuel overflow_sjf_input =
      some [⟨1, 0, 2000000000, 0, 2000000000, 2000000000⟩,
            ⟨2, 0, 2000000000, 2000000000, -294967296, 2000000000⟩]) ∧
    ¬ (∀ c ∈ ([⟨1, 0, 2000000000, 0, 2000000000, 2000000000⟩,
               ⟨2, 0, 2000000000, 2000000000, -294967296, 2000000000⟩] : List Process),
        c.arrival_time ≤ c.start ∧ c.finish - c.start = c.burst_time) := by
  refine ⟨by decide, ?_, by decide⟩
  intro fuel hf
  exact sjf_scheduling32_mono 3 _ _ (by decide) fuel hf

/-- C9, amended: on every valid input whose schedule fits in `int` (every
arrival time plus the sum of all burst times is at most `INT_MAX`),
`sjf_scheduling`, in `int` arithmetic, ends (from some fuel on it returns one
and the same list), the list holds each input pid once, and with the run
interval of a process taken as
`[arrival_time + waiting_time, arrival_time + turnaround_time)`, every
interval starts at or after the arrival, has length `burst_time`, and each
interval ends before the interval of any process later in the list starts,
so the intervals of distinct processes are disjoint. -/
theorem C9_sjf_never_preempts (ps : List Process) (hv : Valid ps) (hfit : Fits ps) :
    ∃ N r, (∀ fuel, N ≤ fuel → sjf_scheduling32 fuel ps = some r) ∧
      (r.map (fun p => p.pid)).Perm (ps.map (fun p => p.pid)) ∧
      (∀ c ∈ r, c.arrival_time ≤ c.start ∧ c.finish - c.start = c.burst_time) ∧
      r.Pairwise (fun a b => a.finish ≤ b.start) ∧
      ∀ (i j : Nat) (hi : i < r.length) (hj : j < r.length), i ≠ j →
        r[i].finish ≤ r[j].start ∨ r[j].finish ≤ r[i].start := by
  obtain ⟨N, r, hN, hrest⟩ := sjf_never_preempts ps hv
  exact ⟨N, r, fun fuel hf => by rw [sjf_scheduling32_eq ps hv hfit]; exact hN fuel hf, hrest⟩

/-- Witness for C9, amended: the sample data of `main`. -/
theorem C9_witness :
    Valid sample ∧ Fits sample ∧
    ∃ N r, (∀ fuel, N ≤ fuel → sjf_scheduling32 fuel sample = some r) ∧
      (r.map (fun p => p.pid)).Perm (sample.map (fun p => p.pid)) ∧
      (∀ c ∈ r, c.arrival_time ≤ c.start ∧ c.finish - c.start = c.burst_time) ∧
      r.Pairwise (fun a b => a.finish ≤ b.start) ∧
      ∀ (i j : Nat) (hi : i < r.length) (hj : j < r.length), i ≠ j →
        r[i].finish ≤ r[j].start ∨ r[j].finish ≤ r[i].start :=
  ⟨by decide, by decide, C9_sjf_never_preempts sample (by decide) (by decide)⟩

/-- C10, as the specification states it, fails: ties on the key are not
broken by earliest arrival.  On the valid input `(1,0,5) (2,2,3) (3,1,3)`,
at the second selection of `sjf_scheduling` (time 5) processes 2 and 3 are
ready with equal burst times, process 3 arrived earlier, and process 2 is
selected.  On the valid input `(1,1,2) (2,0,3)`, at the second selection of
`srt_scheduling` (time 1) both processes are ready with remaining time 2,
process 2 arrived earlier, and process 1 is selected. -/
theorem C10_counterexample :
    (Valid tie_input ∧
      ∃ i j, sjf_select (sjf_step (sjf_init tie_input)) = some i ∧
        j ∈ sjf_ready_queue (sjf_step (sjf_init tie_input)) ∧
        ((sjf_step (sjf_init tie_input)).processes.getD j default).burst_time =
          ((sjf_step (sjf_init tie_input)).processes.getD i default).burst_time ∧
        ((sjf_step (sjf_init tie_input)).processes.getD j default).arrival_time <
          ((sjf_step (sjf_init tie_input)).processes.getD i default).arrival_time) ∧
    (Valid srt_tie_input ∧
      ∃ st i j, srt_step (srt_init srt_tie_input) = some st ∧
        srt_select st = some i ∧ j ∈ srt_ready_queue st ∧
        (st.processes.getD j default).remaining_time =
          (st.processes.getD i default).remaining_time ∧
        (st.processes.getD j default).arrival_time <
          (st.processes.getD i default).arrival_time) := by
  refine ⟨⟨by decide, 1, 2, by decide, by decide, by decide, by decide⟩,
    ⟨by decide, ?_⟩⟩
  refine ⟨{ current_time := 1, completed := 0,
            processes := [⟨1, 1, 2, 0, 0, 2⟩, ⟨2, 0, 3, 0, 0, 2⟩],
            is_completed := [false, false], executed := [some 1], marked := [] },
    0, 1, by decide, by decide, by decide, by decide, by decide⟩

/-- C10, amended: at every selection of `sjf_scheduling` (key `burst_time`)
and of `srt_scheduling` (key `remaining_time`), the selected process is
ready, has the minimum key among the ready processes, and among the ready
processes that tie on that key it is the first in list order; the arrival
time plays no part. -/
theorem C10_selection_is_first_minimum :
    (∀ (st : SjfState) (i : Nat), sjf_select st = some i →
      i ∈ sjf_ready_queue st ∧
      (∀ j ∈ sjf_ready_queue st,
        (st.processes.getD i default).burst_time ≤ (st.processes.getD j default).burst_time) ∧
      (∀ j ∈ sjf_ready_queue st,
        (st.processes.getD j default).burst_time = (st.processes.getD i default).burst_time →
          i ≤ j)) ∧
    (∀ (st : SrtState) (i : Nat), srt_select st = some i →
      i ∈ srt_ready_queue st ∧
      (∀ j ∈ srt_ready_queue st,
        (st.processes.getD i default).remaining_time ≤
          (st.processes.getD j default).remaining_time) ∧
      (∀ j ∈ srt_ready_queue st,
        (st.processes.getD j default).remaining_time =
          (st.processes.getD i default).remaining_time → i ≤ j)) := by
  constructor
  · intro st i h
    exact ⟨min_element_mem _ _ _ h,
      min_element_le (fun a => (st.processes.getD a default).burst_time) _ _ h,
      first_min_index (fun a => (st.processes.getD a default).burst_time) _
        (sjf_ready_queue_sorted st) _ h⟩
  · intro st i h
    exact ⟨min_element_mem _ _ _ h,
      min_element_le (fun a => (st.processes.getD a default).remaining_time) _ _ h,
      first_min_index (fun a => (st.processes.getD a default).remaining_time) _
        (srt_ready_queue_sorted st) _ h⟩

/-- Witness for C10, amended: the second selection of `sjf_scheduling` on the
input `(1,0,5) (2,2,3) (3,1,3)`, where process 2 (index 1) is selected. -/
theorem C10_witness :
    sjf_select (sjf_step (sjf_init tie_input)) = some 1 ∧
    (1 ∈ sjf_ready_queue (sjf_step (sjf_init tie_input)) ∧
      (∀ j ∈ sjf_ready_queue (sjf_step (sjf_init tie_input)),
        ((sjf_step (sjf_init tie_input)).processes.getD 1 default).burst_time ≤
          ((sjf_step (sjf_init tie_input)).processes.getD j default).burst_time) ∧
      (∀ j ∈ sjf_ready_queue (sjf_step (sjf_init tie_input)),
        ((sjf_step (sjf_init tie_input)).processes.getD j default).burst_time =
          ((sjf_step (sjf_init tie_input)).processes.getD 1 default).burst_time → 1 ≤ j)) :=
  ⟨by decide, C10_selection_is_first_minimum.1 (sjf_step (sjf_init tie_input)) 1 (by decide)⟩

/-- C11: for every process list and every time quantum `q > 0`, in the
sequence of slices executed by `round_robin_scheduling` (for any number of
loop iterations), the time between the end of one slice of a process and the
start of that process's next slice is at most `(N - 1) * q`, where `N` is the
number of processes; every slice lasts more than 0 and at most `q` time
units.  The bound holds at every point of the run, in particular once all
processes have arrived. -/
theorem C11_round_robin_fairness (ps : List Process) (q : Int) (hq : 0 < q) (fuel : Nat) :
    FairSlices (((ps.length : Int) - 1) * q) (round_robin_slices fuel ps q) ∧
    ∀ s ∈ round_robin_slices fuel ps q, s.start < s.finish ∧ s.finish - s.start ≤ q := by
  refine ⟨?_, ?_⟩
  · have := rr_fair_while q hq ps.length fuel (rr_init ps) [] (by simp [rr_init]) (rr_fair_init q ps)
    simpa [round_robin_slices] using this
  · exact rr_while_slices_bounds q hq fuel (rr_init ps)

/-- C11 at the sample data with quantum 3: the ten slices of the run, and the
fairness bound `(4 - 1) * 3` for them. -/
theorem C11_witness :
    0 < sample_quantum ∧
    round_robin_slices 12 sample sample_quantum =
      [⟨0, 0, 3⟩, ⟨0, 3, 6⟩, ⟨0, 6, 8⟩, ⟨1, 8, 11⟩, ⟨2, 11, 14⟩, ⟨3, 14, 17⟩,
       ⟨1, 17, 18⟩, ⟨2, 18, 21⟩, ⟨3, 21, 23⟩, ⟨2, 23, 26⟩] ∧
    FairSlices (((sample.length : Int) - 1) * sample_quantum)
      (round_robin_slices 12 sample sample_quantum) :=
  ⟨by decide, by decide, (C11_round_robin_fairness sample sample_quantum (by decide) 12).1⟩

/-- C12: for two input lists that are permutations of one another and whose
arrival times are pairwise distinct, `fcfs_scheduling` returns the same list,
so every process receives the same waiting and turnaround time whatever the
input order; this holds for every way of sorting the inputs by arrival time,
not only for the sort of the model. -/
theorem C12_fcfs_input_order_invariant (l1 l2 : List Process) (hp : l1.Perm l2)
    (hnd : (l1.map (fun p => p.arrival_time)).Nodup) :
    fcfs_scheduling l1 = fcfs_scheduling l2 ∧
    ∀ s1 s2 : List Process, s1.Perm l1 → s2.Perm l2 →
      s1.Pairwise (fun a b => a.arrival_time ≤ b.arrival_time) →
      s2.Pairwise (fun a b => a.arrival_time ≤ b.arrival_time) →
      fcfs_loop 0 s1 = fcfs_loop 0 s2 := by
  have key : ∀ s1 s2 : List Process, s1.Perm l1 → s2.Perm l2 →
      s1.Pairwise (fun a b => a.arrival_time ≤ b.arrival_time) →
      s2.Pairwise (fun a b => a.arrival_time ≤ b.arrival_time) →
      fcfs_loop 0 s1 = fcfs_loop 0 s2 := by
    intro s1 s2 h1 h2 hs1 hs2
    have hperm : s1.Perm s2 := h1.trans (hp.trans h2.symm)
    have hnd1 : (s1.map (fun p => p.arrival_time)).Nodup := (h1.map _).nodup_iff.2 hnd
    rw [sorted_by_arrival_unique s1 s2 hperm hnd1 hs1 hs2]
  exact ⟨key _ _ (sort_by_arrival_perm l1) (sort_by_arrival_perm l2)
    (sort_by_arrival_sorted l1) (sort_by_arrival_sorted l2), key⟩

/-- Witness for C12: the sample data and the same processes in reverse order. -/
theorem C12_witness :
    sample.reverse.Perm sample ∧
    (sample.reverse.map (fun p => p.arrival_time)).Nodup ∧
    (fcfs_scheduling sample.reverse = fcfs_scheduling sample ∧
    ∀ s1 s2 : List Process, s1.Perm sample.reverse → s2.Perm sample →
      s1.Pairwise (fun a b => a.arrival_time ≤ b.arrival_time) →
      s2.Pairwise (fun a b => a.arrival_time ≤ b.arrival_time) →
      fcfs_loop 0 s1 = fcfs_loop 0 s2) :=
  ⟨List.reverse_perm sample, by decide,
    C12_fcfs_input_order_invariant sample.reverse sample (List.reverse_perm sample) (by decide)⟩

/-- C13: on every input with pairwise distinct pids, `fcfs_scheduling` returns
and `sjf_scheduling` ends (from some fuel on it returns one and the same
list); each result is a permutation of the input as far as `pid`,
`arrival_time`, `burst_time` and `remaining_time` go, so it has length N,
holds each input pid exactly once, and only `waiting_time` and
`turnaround_time` are written. -/
theorem C13_fcfs_sjf_return_permutation (ps : List Process)
    (hnd : (ps.map (fun p => p.pid)).Nodup) :
    (((fcfs_scheduling ps).map Process.inputs).Perm (ps.map Process.inputs) ∧
      (fcfs_scheduling ps).length = ps.length ∧
      ∀ p ∈ ps, ((fcfs_scheduling ps).map (fun q => q.pid)).count p.pid = 1) ∧
    ∃ N r, (∀ fuel, N ≤ fuel → sjf_scheduling fuel ps = some r) ∧
      (r.map Process.inputs).Perm (ps.map Process.inputs) ∧
      r.length = ps.length ∧
      ∀ p ∈ ps, (r.map (fun q => q.pid)).count p.pid = 1 := by
  constructor
  · have hperm : ((fcfs_scheduling ps).map Process.inputs).Perm (ps.map Process.inputs) := by
      rw [fcfs_scheduling, fcfs_loop_inputs]
      exact (sort_by_arrival_perm ps).map _
    exact ⟨hperm, perm_inputs_facts ps _ hnd hperm⟩
  · obtain ⟨N, r, hN⟩ := sjf_scheduling_returns ps hnd
    have hperm := sjf_scheduling_perm ps N r (hN N (le_refl _))
    exact ⟨N, r, hN, hperm, perm_inputs_facts ps r hnd hperm⟩

/-- Witness for C13: the sample data of `main`. -/
theorem C13_witness :
    (sample.map (fun p => p.pid)).Nodup ∧
    ((((fcfs_scheduling sample).map Process.inputs).Perm (sample.map Process.inputs) ∧
      (fcfs_scheduling sample).length = sample.length ∧
      ∀ p ∈ sample, ((fcfs_scheduling sample).map (fun q => q.pid)).count p.pid = 1) ∧
    ∃ N r, (∀ fuel, N ≤ fuel → sjf_scheduling fuel sample = some r) ∧
      (r.map Process.inputs).Perm (sample.map Process.inputs) ∧
      r.length = sample.length ∧
      ∀ p ∈ sample, (r.map (fun q => q.pid)).count p.pid = 1) :=
  ⟨by decide, C13_fcfs_sjf_return_permutation sample (by decide)⟩

/-- C15, as the specification states it, fails: the clock is a 32-bit `int`.
On `(1,0,2000000000) (2,1000000000,1000000000) (3,1500000000,1)` the clock
overflows when process 2 ends at 3000000000, and process 3 is started at its
arrival time 1500000000, before process 2 has ended. -/
theorem C15_counterexample :
    (∀ p ∈ overflow_fcfs_input, 0 ≤ p.arrival_time ∧ 0 < p.burst_time) ∧
    fcfs_scheduling32 overflow_fcfs_input =
      [⟨1, 0, 2000000000, 0, 2000000000, 2000000000⟩,
       ⟨2, 1000000000, 1000000000, 1000000000, 2000000000, 1000000000⟩,
       ⟨3, 1500000000, 1, 0, 1, 1⟩] ∧
    ∃ i, ∃ h : i + 1 < (fcfs_scheduling32 overflow_fcfs_input).length,
      (fcfs_scheduling32 overflow_fcfs_input)[i + 1].start ≠
        max (fcfs_scheduling32 overflow_fcfs_input)[i + 1].arrival_time
          (fcfs_scheduling32 overflow_fcfs_input)[i].finish :=
  ⟨by decide, by decide, 1, by decide, by decide⟩

/-- C15, amended: for every input with non-negative arrival times and
positive burst times whose schedule fits in `int` (every arrival time plus
the sum of all burst times is at most `INT_MAX`), the list returned by
`fcfs_scheduling`, in `int` arithmetic, is in ascending order of arrival
time, its first process starts at its own arrival time with waiting time 0,
and every later process starts at the maximum of its arrival time and the
completion time of its predecessor in the list. -/
theorem C15_fcfs_schedule (ps : List Process)
    (hv : ∀ p ∈ ps, 0 ≤ p.arrival_time ∧ 0 < p.burst_time) (hfit : Fits ps) :
    (fcfs_scheduling32 ps).Pairwise (fun a b => a.arrival_time ≤ b.arrival_time) ∧
    (∀ h : 0 < (fcfs_scheduling32 ps).length,
      (fcfs_scheduling32 ps)[0].start = (fcfs_scheduling32 ps)[0].arrival_time ∧
      (fcfs_scheduling32 ps)[0].waiting_time = 0) ∧
    ∀ i (h : i + 1 < (fcfs_scheduling32 ps).length),
      (fcfs_scheduling32 ps)[i + 1].start =
        max (fcfs_scheduling32 ps)[i + 1].arrival_time (fcfs_scheduling32 ps)[i].finish := by
  have hs : ∀ p ∈ ps, 0 ≤ p.arrival_time ∧ 0 ≤ p.burst_time :=
    fun p hp => ⟨(hv p hp).1, le_of_lt (hv p hp).2⟩
  have e := fcfs_scheduling32_eq ps hs hfit
  simp only [e]
  exact fcfs_schedule ps hv

/-- Witness for C15, amended: the sample data of `main`. -/
theorem C15_witness :
    (∀ p ∈ sample, 0 ≤ p.arrival_time ∧ 0 < p.burst_time) ∧ Fits sample ∧
    ((fcfs_scheduling32 sample).Pairwise (fun a b => a.arrival_time ≤ b.arrival_time) ∧
    (∀ h : 0 < (fcfs_scheduling32 sample).length,
      (fcfs_scheduling32 sample)[0].start = (fcfs_scheduling32 sample)[0].arrival_time ∧
      (fcfs_scheduling32 sample)[0].waiting_time = 0) ∧
    ∀ i (h : i + 1 < (fcfs_scheduling32 sample).length),
      (fcfs_scheduling32 sample)[i + 1].start =
        max (fcfs_scheduling32 sample)[i + 1].arrival_time
          (fcfs_scheduling32 sample)[i].finish) :=
  ⟨by decide, by decide, C15_fcfs_schedule sample (by decide) (by decide)⟩

/-- C17, as the specification states it, fails: the times are computed in
32-bit `int`.  On the valid input `(1,0,2000000000) (2,0,2000000000) (3,0,1)`
`fcfs_scheduling` gives process 2 the turnaround time -294967296, less than
its burst time; on the valid input of three processes `(i,0,2000000000)` with
quantum 2000000000, `round_robin_scheduling` gives process 3 the waiting time
-294967296. -/
theorem C17_counterexample :
    Valid overflow_input ∧
    (∃ p ∈ fcfs_scheduling32 overflow_input, p.turnaround_time < p.burst_time) ∧
    Valid overflow_rr_input ∧
    (∀ fuel, 5 ≤ fuel → round_robin_scheduling32 fuel overflow_rr_input 2000000000 =
      some [⟨1, 0, 2000000000, 0, 2000000000, 0⟩,
            ⟨2, 0, 2000000000, 2000000000, -294967296, 0⟩,
            ⟨3, 0, 2000000000, -294967296, 1705032704, 0⟩]) ∧
    ∃ p ∈ ([⟨1, 0, 2000000000, 0, 2000000000, 0⟩,
            ⟨2, 0, 2000000000, 2000000000, -294967296, 0⟩,
            ⟨3, 0, 2000000000, -294967296, 1705032704, 0⟩] : List Process),
      p.waiting_time < 0 := by
  refine ⟨by decide, by decide, by decide, ?_, by decide⟩
  intro fuel hf
  exact round_robin_scheduling32_mono 5 _ _ _ (by decide) fuel hf

/-- C17, amended: for each of the four schedulers, in `int` arithmetic, and
every valid input with a positive quantum whose schedule fits in `int` (every
arrival time plus the sum of all burst times is at most `INT_MAX`), whenever
the scheduler returns, every process of its result has `waiting_time >= 0`
and `turnaround_time >= burst_time`. -/
theorem C17_waiting_time_nonneg (ps : List Process) (time_quantum : Int)
    (hv : Valid ps) (hq : 0 < time_quantum) (hfit : Fits ps) :
    (∀ p ∈ fcfs_scheduling32 ps, 0 ≤ p.waiting_time ∧ p.burst_time ≤ p.turnaround_time) ∧
    (∀ fuel r, sjf_scheduling32 fuel ps = some r →
      ∀ p ∈ r, 0 ≤ p.waiting_time ∧ p.burst_time ≤ p.turnaround_time) ∧
    (∀ fuel r, srt_scheduling32 fuel ps = some r →
      ∀ p ∈ r, 0 ≤ p.waiting_time ∧ p.burst_time ≤ p.turnaround_time) ∧
    (∀ fuel r, round_robin_scheduling32 fuel ps time_quantum = some r →
      ∀ p ∈ r, 0 ≤ p.waiting_time ∧ p.burst_time ≤ p.turnaround_time) := by
  have hs : ∀ p ∈ ps, 0 ≤ p.arrival_time ∧ 0 ≤ p.burst_time :=
    fun p hp => ⟨(hv.2 p hp).1, le_of_lt (hv.2 p hp).2.1⟩
  rw [fcfs_scheduling32_eq ps hs hfit]
  simp only [sjf_scheduling32_eq ps hv hfit, srt_scheduling32_eq ps hv hfit,
    round_robin_scheduling32_eq ps time_quantum hv hq hfit]
  exact waiting_time_nonneg ps time_quantum hv hq

/-- Witness for C17, amended: the sample data of `main` with quantum 3. -/
theorem C17_witness :
    Valid sample ∧ (0 : Int) < sample_quantum ∧ Fits sample ∧
    ((∀ p ∈ fcfs_scheduling32 sample, 0 ≤ p.waiting_time ∧ p.burst_time ≤ p.turnaround_time) ∧
    (∀ fuel r, sjf_scheduling32 fuel sample = some r →
      ∀ p ∈ r, 0 ≤ p.waiting_time ∧ p.burst_time ≤ p.turnaround_time) ∧
    (∀ fuel r, srt_scheduling32 fuel sample = some r →
      ∀ p ∈ r, 0 ≤ p.waiting_time ∧ p.burst_time ≤ p.turnaround_time) ∧
    (∀ fuel r, round_robin_scheduling32 fuel sample sample_quantum = some r →
      ∀ p ∈ r, 0 ≤ p.waiting_time ∧ p.burst_time ≤ p.turnaround_time)) :=
  ⟨by decide, by decide, by decide,
    C17_waiting_time_nonneg sample sample_quantum (by decide) (by decide) (by decide)⟩

/-- C18: in `round_robin_scheduling` the `for` loop, whose `size_t` index is
decremented after the erase and incremented by the loop, handles index 0 in
every iteration and ends only with an empty ready queue.  So the arrival scan
runs only on an empty queue, and when it runs every process that was queued
when the `for` loop started has run to completion: it has no work left, and
from a state with non-negative remaining times its `remaining_time` is 0. -/
theorem C18_round_robin_drains_queue (time_quantum : Int) :
    (∀ fuel st, rr_for time_quantum (fuel + 1) 0 st =
      if h : 0 < st.ready_queue.length then
        rr_for time_quantum fuel 0 (rr_body time_quantum st 0 h)
      else some st) ∧
    (∀ fuel st r, rr_for time_quantum fuel 0 st = some r →
      r.ready_queue = [] ∧
      ∀ p ∈ st.ready_queue, (r.processes.getD p default).remaining_time ≤ 0) ∧
    (∀ fuel st r, RrInv st → rr_for time_quantum fuel 0 st = some r →
      ∀ p ∈ st.ready_queue, (r.processes.getD p default).remaining_time = 0) ∧
    (∀ fuel st, rr_while time_quantum (fuel + 1) st =
      if st.completed_processes < st.processes.length then
        (rr_for time_quantum fuel 0 st).bind
          (fun r => rr_while time_quantum fuel (rr_arrival_scan r))
      else some st) := by
  refine ⟨rr_for_zero time_quantum, ?_, ?_, ?_⟩
  · intro fuel st r h
    exact rr_for_drains time_quantum fuel st r st.ready_queue (fun p hp => Or.inl hp) h
  · intro fuel st r hinv h p hp
    have h1 := (rr_for_drains time_quantum fuel st r st.ready_queue
      (fun p hp => Or.inl hp) h).2 p hp
    have hinv2 := rr_for_rule RrInv time_quantum
      (fun s i hi hs => rr_body_inv time_quantum s i hi hs) fuel 0 st r hinv h
    by_cases hlt : p < r.processes.length
    · rw [List.getD_eq_getElem _ _ hlt] at h1 ⊢
      have := hinv2.rem _ (List.getElem_mem hlt)
      omega
    · rw [List.getD_eq_default _ _ (by omega)]
      rfl
  · intro fuel st
    rw [rr_while]
    split
    · cases rr_for time_quantum fuel 0 st <;> rfl
    · rfl

/-- Witness for C18: the first run of the `for` loop on the sample data with
quantum 3, which runs process 1 alone to completion. -/
theorem C18_witness :
    rr_for sample_quantum 4 0 (rr_init sample) =
      some { current_time := 8, ready_queue := [], completed_processes := 1,
             processes := [⟨1, 0, 8, 0, 8, 0⟩, ⟨2, 1, 4, 0, 0, 4⟩, ⟨3, 2, 9, 0, 0, 9⟩,
               ⟨4, 3, 5, 0, 0, 5⟩] } ∧
    (({ current_time := 8, ready_queue := [], completed_processes := 1,
        processes := [⟨1, 0, 8, 0, 8, 0⟩, ⟨2, 1, 4, 0, 0, 4⟩, ⟨3, 2, 9, 0, 0, 9⟩,
          ⟨4, 3, 5, 0, 0, 5⟩] } : RrState).ready_queue = [] ∧
      ∀ p ∈ (rr_init sample).ready_queue,
        ((({ current_time := 8, ready_queue := [], completed_processes := 1,
             processes := [⟨1, 0, 8, 0, 8, 0⟩, ⟨2, 1, 4, 0, 0, 4⟩, ⟨3, 2, 9, 0, 0, 9⟩,
               ⟨4, 3, 5, 0, 0, 5⟩] } : RrState).processes.getD p default).remaining_time ≤ 0)) :=
  ⟨by decide, (C18_round_robin_drains_queue sample_quantum).2.1 4 (rr_init sample) _ (by decide)⟩

/-- C20, as the specification states it, fails: the clock is a 32-bit `int`.
On the valid input of three processes `(i,0,2147483647)` the clock of
`sjf_scheduling` wraps to -2 after process 2, the loop idles until time 0,
and process 3 gets the waiting time 0: the start times along the returned
list are 0, 2147483647, 0. -/
theorem C20_counterexample :
    Valid wrap_sjf_input ∧
    (∀ fuel, 6 ≤ fuel → sjf_scheduling32 fuel wrap_sjf_input =
      some [⟨1, 0, 2147483647, 0, 2147483647, 2147483647⟩,
            ⟨2, 0, 2147483647, 2147483647, -2, 2147483647⟩,
            ⟨3, 0, 2147483647, 0, 2147483647, 2147483647⟩]) ∧
    ¬ ([⟨1, 0, 2147483647, 0, 2147483647, 2147483647⟩,
        ⟨2, 0, 2147483647, 2147483647, -2, 2147483647⟩,
        ⟨3, 0, 2147483647, 0, 2147483647, 2147483647⟩] : List Process).Pairwise
      (fun a b => a.start < b.start) := by
  refine ⟨by decide, ?_, by decide⟩
  intro fuel hf
  exact sjf_scheduling32_mono 6 _ _ (by decide) fuel hf

/-- C20, amended: on every valid input whose schedule fits in `int` (every
arrival time plus the sum of all burst times is at most `INT_MAX`),
`sjf_scheduling`, in `int` arithmetic, ends and the list it returns is in
execution order: the start times `arrival_time + waiting_time` are strictly
increasing along the list; on the sample data the returned pid order is
1, 2, 4, 3. -/
theorem C20_sjf_returns_execution_order :
    (∀ ps : List Process, Valid ps → Fits ps →
      ∃ N r, (∀ fuel, N ≤ fuel → sjf_scheduling32 fuel ps = some r) ∧
        r.Pairwise (fun a b => a.start < b.start)) ∧
    ∀ fuel, 5 ≤ fuel →
      (sjf_scheduling32 fuel sample).map (fun r => r.map (fun p => p.pid)) =
        some [1, 2, 4, 3] := by
  constructor
  · intro ps hv hfit
    obtain ⟨N, r, hN, hrest⟩ := sjf_returns_execution_order.1 ps hv
    exact ⟨N, r, fun fuel hf => by rw [sjf_scheduling32_eq ps hv hfit]; exact hN fuel hf, hrest⟩
  · intro fuel hf
    rw [sjf_scheduling32_eq sample (by decide) (by decide)]
    exact sjf_returns_execution_order.2 fuel hf

/-- Witness for C20, amended: the sample data of `main`. -/
theorem C20_witness :
    Valid sample ∧ Fits sample ∧
    ∃ N r, (∀ fuel, N ≤ fuel → sjf_scheduling32 fuel sample = some r) ∧
      r.Pairwise (fun a b => a.start < b.start) :=
  ⟨by decide, by decide, C20_sjf_returns_execution_order.1 sample (by decide) (by decide)⟩

end HW1
